import Mathlib

/-!
# PIC10F200 assembler (`asm.cpp`): embedding and verified properties

The assembler is a single C++ file: a hexadecimal literal parser (`parseHex`),
a tokenizer and instruction parser (`parse`), and a bit-packing encoder
(`write`), glued by `main`.  This file embeds those functions as executable
Lean definitions and proves properties about them.

Conventions of the embedding

* A C string is the list of its characters before the terminating NUL;
  `charAt` reads `str[i]` and yields NUL at the terminator.
* `int` is a 32-bit two's-complement integer: arithmetic that can overflow is
  wrapped with `wrapInt`.
* `val & ((1 << bits) - 1)` is written `val % 2 ^ bits` and `(val >> i) & 1`
  is written `val / 2 ^ i % 2` (Euclidean division and remainder on `Int`,
  which agree with the two's-complement operations, negative values included).
* A read past the end of a `std::vector` has no defined value: the embedding
  reads such an entry as `none`.
* `exit(1)` after an `ERROR` message is an `Except.error` result.
-/

namespace PicAsm

/-! ## Characters and C strings -/

/-- The NUL character that terminates C strings. -/
def NUL : Char := Char.ofNat 0

/-- Reads `str[i]` of a NUL-terminated string whose characters are `str`;
index `str.length` holds the terminator. -/
def charAt (str : List Char) (i : Nat) : Char := str.getD i NUL

/-- The 32-bit two's-complement value of an `int` computation: the
representative of `z` modulo `2 ^ 32` that lies in `[-2 ^ 31, 2 ^ 31)`. -/
def wrapInt (z : Int) : Int := (z + 2147483648) % 4294967296 - 2147483648

/-- Transcribes `std::toupper` on one character (C locale: only `a`..`z` change). -/
def toUpperChar (c : Char) : Char :=
  if 97 ≤ c.toNat ∧ c.toNat ≤ 122 then Char.ofNat (c.toNat - 32) else c

/-- Transcribes `toUpper`: every character of the string through `std::toupper`. -/
def toUpper (str : List Char) : List Char := str.map toUpperChar

/-- Transcribes `std::isspace` in the C locale: space, `\t`, `\n`, `\v`, `\f`, `\r`. -/
def isSpace (c : Char) : Bool := c.toNat = 32 || (9 ≤ c.toNat && c.toNat ≤ 13)

/-! ## `parseHex` -/

/-- The `switch` of `parseHex`: the value of one digit character, `none` for
the `default:` branch (`return false`). -/
def hexDigit (c : Char) : Option Int :=
  if c = '0' then some 0
  else if c = '1' then some 1
  else if c = '2' then some 2
  else if c = '3' then some 3
  else if c = '4' then some 4
  else if c = '5' then some 5
  else if c = '6' then some 6
  else if c = '7' then some 7
  else if c = '8' then some 8
  else if c = '9' then some 9
  else if c = 'a' then some 10
  else if c = 'b' then some 11
  else if c = 'c' then some 12
  else if c = 'd' then some 13
  else if c = 'e' then some 14
  else if c = 'f' then some 15
  else none

/-- The `for ( int i = len - 1; i >= 2; i-- )` loop of `parseHex`.  The first
argument counts the iterations still to run, so the current index is
`i = n + 2`; `x` and `factor` are the loop's accumulators. -/
def parseHexLoop (str : List Char) : Nat → Int → Int → Option Int
  | 0, x, _ => some x
  | n + 1, x, factor =>
    match hexDigit (charAt str (n + 2)) with
    | none => none
    | some v => parseHexLoop str n (wrapInt (x + wrapInt (v * factor))) (wrapInt (factor * 16))

/-- Transcribes `parseHex`: `none` is `return false`, `some x` is `val = x; return true`. -/
def parseHex (str : List Char) : Option Int :=
  let len := str.length
  if len < 3 then none
  else if charAt str 0 ≠ '0' then none
  else if charAt str 1 ≠ 'x' then none
  else parseHexLoop str (len - 2) 0 1

/-! ### Specification-side notions for literals -/

/-- A hexadecimal digit as the specification words it: `0`-`9`, or a letter
`a`-`f` in either case. -/
def isHexDigit (c : Char) : Bool :=
  (48 ≤ c.toNat && c.toNat ≤ 57) || (97 ≤ c.toNat && c.toNat ≤ 102) ||
    (65 ≤ c.toNat && c.toNat ≤ 70)

/-- A hexadecimal digit whose letter, if any, is lower case. -/
def isLowerHexDigit (c : Char) : Bool :=
  (48 ≤ c.toNat && c.toNat ≤ 57) || (97 ≤ c.toNat && c.toNat ≤ 102)

/-- The numeric value of a hexadecimal digit of either case. -/
def hexDigitValue (c : Char) : Nat :=
  if 48 ≤ c.toNat ∧ c.toNat ≤ 57 then c.toNat - 48
  else if 97 ≤ c.toNat ∧ c.toNat ≤ 102 then c.toNat - 87
  else c.toNat - 55

/-- Positional base-16 value of a digit string, rightmost digit least significant. -/
def hexValue (ds : List Char) : Nat :=
  ds.foldl (fun acc c => 16 * acc + hexDigitValue c) 0

/-- The shape `0x` followed by one or more hexadecimal digits (either case). -/
def isHexLiteral (str : List Char) : Bool :=
  match str with
  | a :: b :: d :: ds => a = '0' && b = 'x' && (d :: ds).all isHexDigit
  | _ => false

/-! ## Data model -/

/-- The `enum OP`, in declaration order (`ADDWF = 0` ... `XORLW = 32`). -/
inductive OP where
  | ADDWF | ANDWF | CLRF | CLRW | COMF | DECF | DECFSZ | INCF | INCFSZ | IORWF | MOVF
  | MOVWF | NOP | RLF | RRF | SUBWF | SWAPF | XORWF
  | BCF | BSF | BTFSC | BTFSS
  | ANDLW | CALL | CLRWDT | GOTO | IORLW | MOVLW | OPTION | RETLW | SLEEP | TRIS | XORLW
  deriving DecidableEq, Repr

/-- The table `OP_STRINGS`, one name per enumerator, in the order of the source. -/
def OP_STRINGS : List (List Char) :=
  [ "ADDWF",  "ANDWF",  "CLRF",  "CLRW",   "COMF",  "DECF",  "DECFSZ",
    "INCF",   "INCFSZ", "IORWF", "MOVF",   "MOVWF", "NOP",   "RLF",
    "RRF",    "SUBWF",  "SWAPF", "XORWF",  "BCF",   "BSF",   "BTFSC",
    "BTFSS",  "ANDLW",  "CALL",  "CLRWDT", "GOTO",  "IORLW", "MOVLW",
    "OPTION", "RETLW",  "SLEEP", "TRIS",   "XORLW" ].map String.toList

/-- The cast `(OP) opIndex`.  The parser only casts indices `0..32`; the last
arm stands for index 32. -/
def OP.ofIndex : Nat → OP
  | 0 => .ADDWF | 1 => .ANDWF | 2 => .CLRF | 3 => .CLRW | 4 => .COMF | 5 => .DECF
  | 6 => .DECFSZ | 7 => .INCF | 8 => .INCFSZ | 9 => .IORWF | 10 => .MOVF | 11 => .MOVWF
  | 12 => .NOP | 13 => .RLF | 14 => .RRF | 15 => .SUBWF | 16 => .SWAPF | 17 => .XORWF
  | 18 => .BCF | 19 => .BSF | 20 => .BTFSC | 21 => .BTFSS
  | 22 => .ANDLW | 23 => .CALL | 24 => .CLRWDT | 25 => .GOTO | 26 => .IORLW | 27 => .MOVLW
  | 28 => .OPTION | 29 => .RETLW | 30 => .SLEEP | 31 => .TRIS | _ => .XORLW

/-- The `struct Instr`: opcode and the four `int` operand fields. -/
structure Instr where
  op : OP
  f : Int
  d : Int
  k : Int
  b : Int
  deriving DecidableEq, Repr

/-- The `struct ParseOutput`.  A label is kept as the text of its C string. -/
structure ParseOutput where
  instructions : List Instr
  lineNumbers : List Nat
  labels : List (List Char)
  labelTargets : List Nat
  deriving DecidableEq, Repr

/-- A default-constructed `ParseOutput`, as `main` passes to `parse`. -/
def ParseOutput.empty : ParseOutput := ⟨[], [], [], []⟩

/-! ## `parse`: the tokenizer loop -/

/-- The local state of the tokenizer loop of `parse`.  `tokens` holds the
`char *` pointers as offsets into `content`. -/
structure TokState where
  content : List Char
  i : Nat
  currentLine : Nat
  tokens : List Nat
  lineNumbers : List Nat
  deriving DecidableEq, Repr

/-- The inner loop that blanks a line comment:
`for ( ; content[ i ] != 0; i++ ) { if ( content[ i ] == newline ) break; content[ i ] = 0; }`.
Returns the buffer and the index at which the loop stopped.  Every iteration
advances `i`, so `content.length` iterations always suffice. -/
def commentLoop : Nat → List Char → Nat → List Char × Nat
  | 0, content, i => (content, i)
  | fuel + 1, content, i =>
    if charAt content i = NUL then (content, i)
    else if charAt content i = '\n' then (content, i)
    else commentLoop fuel (content.set i NUL) (i + 1)

/-- The part of the tokenizer loop body after the comment test, followed by
the loop's `i++`: count the line, blank a whitespace character, or record the
start of a token. -/
def tokenTail (st : TokState) (wasBlank : Bool) : TokState :=
  let currentLine :=
    if charAt st.content st.i = '\n' then st.currentLine + 1 else st.currentLine
  if isSpace (charAt st.content st.i) then
    { st with content := st.content.set st.i NUL, currentLine := currentLine, i := st.i + 1 }
  else if wasBlank then
    { st with currentLine := currentLine, tokens := st.tokens ++ [st.i],
              lineNumbers := st.lineNumbers ++ [currentLine], i := st.i + 1 }
  else
    { st with currentLine := currentLine, i := st.i + 1 }

/-- The tokenizer loop `for ( int i = 0; content[ i ] != 0; i++ )` of `parse`.
Every iteration advances `i`, so `content.length` iterations always suffice. -/
def tokenLoop : Nat → TokState → TokState
  | 0, st => st
  | fuel + 1, st =>
    if charAt st.content st.i = NUL then st
    else
      let wasBlank : Bool :=
        if st.i = 0 then true else decide (charAt st.content (st.i - 1) = NUL)
      if charAt st.content st.i = ';' then
        let r := commentLoop st.content.length st.content st.i
        if charAt r.1 r.2 = NUL then { st with content := r.1, i := r.2 }
        else tokenLoop fuel (tokenTail { st with content := r.1, i := r.2 } true)
      else tokenLoop fuel (tokenTail st wasBlank)

/-- A token as the instruction loop sees it: the C string at `tokens[ i ]`
and the entry `lineNumbers[ i ]` pushed together with it.  The tokenizer
records a token only at a character that is neither NUL, whitespace nor `;`,
so the text of a token it produces is never empty. -/
structure Token where
  text : List Char
  line : Nat
  deriving DecidableEq, Repr

/-- The C string that starts at offset `p` of the buffer. -/
def cstrAt (content : List Char) (p : Nat) : List Char :=
  (content.drop p).takeWhile (fun c => c ≠ NUL)

/-- Runs the tokenizer loop on the NUL-terminated buffer and reads off the
tokens from the buffer as the loop left it. -/
def tokenize (content : List Char) : List Token :=
  let st := tokenLoop content.length ⟨content, 0, 1, [], []⟩
  List.zipWith (fun p l => ⟨cstrAt st.content p, l⟩) st.tokens st.lineNumbers

/-! ## `parse`: the instruction loop -/

/-- The message of a fatal error of `parse`. -/
inductive ErrorMsg where
  | expectedNumberEOF
  | expectedNumberGot (token : List Char)
  | notImplemented (name : List Char)
  deriving DecidableEq, Repr

/-- A fatal error: the text `ERROR [line N]: ...` followed by `exit( 1 )`.
`line` is the value printed for `N`; it is `none` when the source reads it
past the end of `lineNumbers`. -/
structure ParseError where
  line : Option Nat
  msg : ErrorMsg
  deriving DecidableEq, Repr

/-- The read `lineNumbers[ i ]` of the token line numbers. -/
def lineAt (toks : List Token) (i : Nat) : Option Nat := (toks[i]?).map Token.line

/-- The lambda `expectNum` of `parse`. -/
def expectNum (toks : List Token) (cursor : Nat) : Except ParseError Int :=
  match toks[cursor]? with
  | none => .error ⟨lineAt toks cursor, .expectedNumberEOF⟩
  | some tok =>
    match parseHex tok.text with
    | none => .error ⟨lineAt toks cursor, .expectedNumberGot tok.text⟩
    | some num => .ok num

/-- The mnemonic search loop of `parse`: the first index whose name equals
`toUpper( token )`, or the table length when there is none. -/
def findOp (token : List Char) : Nat :=
  OP_STRINGS.findIdx (fun name => toUpper token == name)

/-- The `switch ( instr.op )` of `parse` that reads the operands.  Returns the
instruction and the advanced token index `i`. -/
def parseArgs (toks : List Token) (i : Nat) (instr : Instr) :
    Except ParseError (Instr × Nat) :=
  match instr.op with
  | .ADDWF | .ANDWF | .COMF | .DECF | .DECFSZ | .INCF | .INCFSZ | .IORWF | .MOVF
  | .RLF | .RRF | .SUBWF | .SWAPF | .XORWF =>
    match expectNum toks (i + 1) with
    | .error e => .error e
    | .ok f =>
      match expectNum toks (i + 2) with
      | .error e => .error e
      | .ok d => .ok ({ instr with f := f, d := d }, i + 2)
  | .CLRF | .MOVWF =>
    match expectNum toks (i + 1) with
    | .error e => .error e
    | .ok f => .ok ({ instr with f := f }, i + 1)
  | .CLRW | .NOP => .ok (instr, i)
  | .BCF | .BSF | .BTFSC | .BTFSS =>
    match expectNum toks (i + 1) with
    | .error e => .error e
    | .ok f =>
      match expectNum toks (i + 2) with
      | .error e => .error e
      | .ok b => .ok ({ instr with f := f, b := b }, i + 2)
  | .ANDLW | .CALL | .GOTO | .IORLW | .MOVLW | .RETLW | .XORLW =>
    match expectNum toks (i + 1) with
    | .error e => .error e
    | .ok k => .ok ({ instr with k := k }, i + 1)
  | .TRIS =>
    match expectNum toks (i + 1) with
    | .error e => .error e
    | .ok f => .ok ({ instr with f := f }, i + 1)
  | .CLRWDT | .OPTION | .SLEEP => .ok (instr, i)

/-- The body of the instruction loop of `parse` for the token `tok` at index
`i`: a label declaration, or a mnemonic with its operands.  Returns the index
`i` as the body leaves it (the loop's `i++` is still to come) and the extended
output.  `junk n` is the indeterminate content of the local `Instr instr;`
when instruction number `n` is built: its fields are assigned only by the
operand switch. -/
def parseStep (junk : Nat → Instr) (toks : List Token) (i : Nat) (tok : Token)
    (out : ParseOutput) : Except ParseError (Nat × ParseOutput) :=
  let token := tok.text
  let lineNumber := tok.line
  if token.getLast? = some ':' then
    .ok (i, { out with labels := out.labels ++ [token.dropLast],
                       labelTargets := out.labelTargets ++ [out.instructions.length] })
  else
    let opIndex := findOp token
    if opIndex ≥ OP_STRINGS.length then
      .error ⟨some lineNumber, .notImplemented (toUpper token)⟩
    else
      let instr : Instr := { junk out.instructions.length with op := OP.ofIndex opIndex }
      match parseArgs toks i instr with
      | .error e => .error e
      | .ok (instr1, i1) =>
        .ok (i1, { out with instructions := out.instructions ++ [instr1],
                            lineNumbers := out.lineNumbers ++ [lineNumber] })

/-- The instruction loop `for ( int i = 0; i < std::ssize( tokens ); i++ )` of
`parse`.  Every iteration advances `i`, so `toks.length` iterations always
suffice. -/
def parseLoop (junk : Nat → Instr) (toks : List Token) :
    Nat → Nat → ParseOutput → Except ParseError ParseOutput
  | 0, _, out => .ok out
  | fuel + 1, i, out =>
    match toks[i]? with
    | none => .ok out
    | some tok =>
      match parseStep junk toks i tok out with
      | .error e => .error e
      | .ok (i1, out1) => parseLoop junk toks fuel (i1 + 1) out1

/-- The instruction loop of `parse` run over a whole token sequence. -/
def parseTokens (junk : Nat → Instr) (toks : List Token) (out : ParseOutput) :
    Except ParseError ParseOutput :=
  parseLoop junk toks toks.length 0 out

/-- Transcribes `parse`: tokenize the NUL-terminated buffer, then run the
instruction loop, appending to `out`. -/
def parse (junk : Nat → Instr) (content : List Char) (out : ParseOutput) :
    Except ParseError ParseOutput :=
  parseTokens junk (tokenize content) out

/-! ## `write` -/

/-- A `WARNING [line N]: Value will be truncated to <bits> bit(s) in width: <val>`
message.  `line` is `none` when `lineNumbers[ i ]` is read past the end. -/
structure Warning where
  line : Option Nat
  bits : Nat
  val : Int
  deriving DecidableEq, Repr

/-- The mutable state of `write`: the byte vector `out`, the cursor `bitCount`
and the warnings printed so far. -/
structure WState where
  out : List Nat
  bitCount : Nat
  warnings : List Warning
  deriving DecidableEq, Repr

/-- Applies `f` to `out.back()`. -/
def modifyBack (f : Nat → Nat) : List Nat → List Nat
  | [] => []
  | [b] => [f b]
  | b :: c :: rest => b :: modifyBack f (c :: rest)

/-- The bit `( val >> i ) & 0x1`. -/
def bitAt (val : Int) (i : Nat) : Nat := (val / 2 ^ i % 2).toNat

/-- The body of the bit loop of `append` for one bit: or it into the last
byte (a `uint8_t`) at position `7 - bitCount`, advance the cursor, and start a
new zero byte when the byte is full. -/
def pushBit (bit : Nat) (st : WState) : WState :=
  let out1 := modifyBack (fun outByte => (outByte ||| (bit <<< (7 - st.bitCount))) % 256) st.out
  if st.bitCount + 1 ≥ 8 then { st with out := out1 ++ [0], bitCount := 0 }
  else { st with out := out1, bitCount := st.bitCount + 1 }

/-- The loop `for ( int i = bits - 1; i >= 0; i-- )` of `append`; with `n + 1`
iterations to run the current index is `i = n`. -/
def appendLoop (val : Int) : Nat → WState → WState
  | 0, st => st
  | n + 1, st => appendLoop val n (pushBit (bitAt val n) st)

/-- The lambda `append` of `write`: warn when `( val & mask ) != val`, then
emit the low `bits` bits of `val`, most significant first. -/
def append (lineNumber : Option Nat) (val : Int) (bits : Nat) (st : WState) : WState :=
  let st1 :=
    if val % 2 ^ bits ≠ val then
      { st with warnings := st.warnings ++ [⟨lineNumber, bits, val⟩] }
    else st
  appendLoop val bits st1

/-- The `switch ( instr.op )` of `write`. -/
def encode (ln : Option Nat) (instr : Instr) (st : WState) : WState :=
  match instr.op with
  | .ADDWF => st |> append ln 0b000111 6 |> append ln instr.d 1 |> append ln instr.f 5
  | .ANDWF => st |> append ln 0b000101 6 |> append ln instr.d 1 |> append ln instr.f 5
  | .CLRF => st |> append ln 0b0000011 7 |> append ln instr.f 5
  | .CLRW => st |> append ln 0b000001000000 12
  | .COMF => st |> append ln 0b001001 6 |> append ln instr.d 1 |> append ln instr.f 5
  | .DECF => st |> append ln 0b000011 6 |> append ln instr.d 1 |> append ln instr.f 5
  | .DECFSZ => st |> append ln 0b001011 6 |> append ln instr.d 1 |> append ln instr.f 5
  | .INCF => st |> append ln 0b001010 6 |> append ln instr.d 1 |> append ln instr.f 5
  | .INCFSZ => st |> append ln 0b001111 6 |> append ln instr.d 1 |> append ln instr.f 5
  | .IORWF => st |> append ln 0b000100 6 |> append ln instr.d 1 |> append ln instr.f 5
  | .MOVF => st |> append ln 0b001000 6 |> append ln instr.d 1 |> append ln instr.f 5
  | .MOVWF => st |> append ln 0b0000001 7 |> append ln instr.f 5
  | .NOP => st |> append ln 0b0000000000 12
  | .RLF => st |> append ln 0b001101 6 |> append ln instr.d 1 |> append ln instr.f 5
  | .RRF => st |> append ln 0b001100 6 |> append ln instr.d 1 |> append ln instr.f 5
  | .SUBWF => st |> append ln 0b000010 6 |> append ln instr.d 1 |> append ln instr.f 5
  | .SWAPF => st |> append ln 0b001110 6 |> append ln instr.d 1 |> append ln instr.f 5
  | .XORWF => st |> append ln 0b000110 6 |> append ln instr.d 1 |> append ln instr.f 5
  | .BCF => st |> append ln 0b0100 4 |> append ln instr.b 3 |> append ln instr.f 5
  | .BSF => st |> append ln 0b0101 4 |> append ln instr.b 3 |> append ln instr.f 5
  | .BTFSC => st |> append ln 0b0110 4 |> append ln instr.b 3 |> append ln instr.f 5
  | .BTFSS => st |> append ln 0b0111 4 |> append ln instr.b 3 |> append ln instr.f 5
  | .ANDLW => st |> append ln 0b1110 4 |> append ln instr.k 8
  | .CALL => st |> append ln 0b1001 4 |> append ln instr.k 8
  | .CLRWDT => st |> append ln 0b000000000100 12
  | .GOTO => st |> append ln 0b101 3 |> append ln instr.k 9
  | .IORLW => st |> append ln 0b1101 4 |> append ln instr.k 8
  | .MOVLW => st |> append ln 0b1100 4 |> append ln instr.k 8
  | .OPTION => st |> append ln 0b000000000010 12
  | .RETLW => st |> append ln 0b1000 4 |> append ln instr.k 8
  | .SLEEP => st |> append ln 0b000000000011 12
  | .TRIS => st |> append ln 0b000000000 9 |> append ln instr.f 3
  | .XORLW => st |> append ln 0b1111 4 |> append ln instr.k 8

/-- The loop `for ( int i = 0; i < std::ssize( in.instructions ); i++ )` of
`write`: `rest` is `in.instructions` from index `i` on, and the line number is
the read `in.lineNumbers[ i ]`. -/
def writeLoop (lineNumbers : List Nat) : Nat → List Instr → WState → WState
  | _, [], st => st
  | i, instr :: rest, st =>
    writeLoop lineNumbers (i + 1) rest (encode lineNumbers[i]? instr st)

/-- Transcribes `write` (the console echo of the bytes apart): push a zero
byte onto `out`, then encode every instruction. -/
def write (inp : ParseOutput) (out : List Nat) : WState :=
  writeLoop inp.lineNumbers 0 inp.instructions ⟨out ++ [0], 0, []⟩

/-! ## `main` -/

/-- Transcribes `main` after the file has been read: the buffer is the source
followed by NUL; a fatal error of `parse` exits before anything is written;
otherwise the bytes of `write` (from an empty vector) are the content of the
`.bin` file.  The warnings printed on the way are returned with the bytes. -/
def main (junk : Nat → Instr) (source : List Char) :
    Except ParseError (List Nat × List Warning) :=
  match parse junk (source ++ [NUL]) ParseOutput.empty with
  | .error e => .error e
  | .ok parseOutput =>
    let st := write parseOutput []
    .ok (st.out, st.warnings)

/-! ## Specification-side notions for the encoder -/

/-- The operand fields of an instruction. -/
inductive Field where
  | f | d | k | b
  deriving DecidableEq, Repr

/-- The value an instruction holds in a field. -/
def Instr.field (instr : Instr) : Field → Int
  | .f => instr.f
  | .d => instr.d
  | .k => instr.k
  | .b => instr.b

/-- The instruction with one field replaced. -/
def Instr.setField (instr : Instr) (fld : Field) (v : Int) : Instr :=
  match fld with
  | .f => { instr with f := v }
  | .d => { instr with d := v }
  | .k => { instr with k := v }
  | .b => { instr with b := v }

/-- The encoding table of the specification: for each opcode the width of
its fixed leading pattern and its variable fields with their widths, in order. -/
def opShape : OP → Nat × List (Field × Nat)
  | .ADDWF | .ANDWF | .COMF | .DECF | .DECFSZ | .INCF | .INCFSZ | .IORWF | .MOVF
  | .RLF | .RRF | .SUBWF | .SWAPF | .XORWF => (6, [(.d, 1), (.f, 5)])
  | .CLRF | .MOVWF => (7, [(.f, 5)])
  | .BCF | .BSF | .BTFSC | .BTFSS => (4, [(.b, 3), (.f, 5)])
  | .ANDLW | .IORLW | .MOVLW | .RETLW | .XORLW | .CALL => (4, [(.k, 8)])
  | .GOTO => (3, [(.k, 9)])
  | .TRIS => (9, [(.f, 3)])
  | .CLRW | .NOP | .CLRWDT | .OPTION | .SLEEP => (12, [])

/-- The value of the fixed leading pattern of each opcode. -/
def opPattern : OP → Nat
  | .ADDWF => 0b000111 | .ANDWF => 0b000101 | .CLRF => 0b0000011 | .CLRW => 0b000001000000
  | .COMF => 0b001001 | .DECF => 0b000011 | .DECFSZ => 0b001011 | .INCF => 0b001010
  | .INCFSZ => 0b001111 | .IORWF => 0b000100 | .MOVF => 0b001000 | .MOVWF => 0b0000001
  | .NOP => 0 | .RLF => 0b001101 | .RRF => 0b001100 | .SUBWF => 0b000010
  | .SWAPF => 0b001110 | .XORWF => 0b000110
  | .BCF => 0b0100 | .BSF => 0b0101 | .BTFSC => 0b0110 | .BTFSS => 0b0111
  | .ANDLW => 0b1110 | .CALL => 0b1001 | .CLRWDT => 0b000000000100 | .GOTO => 0b101
  | .IORLW => 0b1101 | .MOVLW => 0b1100 | .OPTION => 0b000000000010 | .RETLW => 0b1000
  | .SLEEP => 0b000000000011 | .TRIS => 0 | .XORLW => 0b1111

/-- A value fits a field of width `w` when it is one of `0 .. 2 ^ w - 1`. -/
def fitsWidth (w : Nat) (v : Int) : Bool := decide (0 ≤ v) && decide (v < 2 ^ w)

/-- Every field the opcode's shape uses holds a value that fits its width. -/
def fieldsFit (instr : Instr) : Bool :=
  (opShape instr.op).2.all (fun fw => fitsWidth fw.2 (instr.field fw.1))

/-- The `w` binary digits of `v`, most significant first. -/
def natBits : Nat → Nat → List Nat
  | 0, _ => []
  | w + 1, v => v / 2 ^ w % 2 :: natBits w v

/-- The number a bit string denotes, most significant bit first. -/
def bitsValue (bs : List Nat) : Nat := bs.foldl (fun acc b => 2 * acc + b) 0

/-- The 12-bit word of an instruction according to the table: the fixed
pattern followed by each field reduced to its width. -/
def wordOf (instr : Instr) : Nat :=
  (opShape instr.op).2.foldl
    (fun acc fw => acc * 2 ^ fw.2 + (instr.field fw.1 % 2 ^ fw.2).toNat) (opPattern instr.op)

/-- Bit `p` of a byte vector read as a bit stream: byte 0 first, most
significant bit of each byte first. -/
def streamBit (out : List Nat) (p : Nat) : Bool := (out.getD (p / 8) 0).testBit (7 - p % 8)

/-- The warnings the specification expects for one instruction: one for each
field of the shape whose value does not fit, in field order. -/
def expectedWarningsOf (ln : Option Nat) (instr : Instr) : List Warning :=
  (opShape instr.op).2.filterMap
    (fun fw => if fitsWidth fw.2 (instr.field fw.1) then none
               else some ⟨ln, fw.2, instr.field fw.1⟩)

/-- The warnings the specification expects for a program, in encoding order;
`i` is the index of the first instruction of `instrs`. -/
def expectedWarnings (lineNumbers : List Nat) : Nat → List Instr → List Warning
  | _, [] => []
  | i, instr :: rest =>
    expectedWarningsOf lineNumbers[i]? instr ++ expectedWarnings lineNumbers (i + 1) rest

/-! ## Auxiliary notions for the proofs about the encoder -/

/-- The bits the loop of `append` pushes for `val` over `n` iterations, in order. -/
def bitsMSB (val : Int) : Nat → List Nat
  | 0 => []
  | n + 1 => bitAt val n :: bitsMSB val n

/-- Pushes a sequence of bits through `pushBit`. -/
def pushBits (bs : List Nat) (st : WState) : WState := bs.foldl (fun s b => pushBit b s) st

/-- The bits `encode` pushes for an instruction: the fixed pattern, then each
field of the shape. -/
def instrBits (instr : Instr) : List Nat :=
  bitsMSB (opPattern instr.op) (opShape instr.op).1 ++
    (opShape instr.op).2.flatMap (fun fw => bitsMSB (instr.field fw.1) fw.2)

/-- The bits `writeLoop` pushes for a list of instructions. -/
def programBits (instrs : List Instr) : List Nat := instrs.flatMap instrBits

/-- The state of `write` after `out.push_back( 0 )` on an empty vector. -/
def WState.init : WState := ⟨[0], 0, []⟩

/-- The warning `append` prints for a value: none when the value fits. -/
def warnOf (ln : Option Nat) (val : Int) (bits : Nat) : List Warning :=
  if fitsWidth bits val then [] else [⟨ln, bits, val⟩]

/-- Two states with the same byte vector and the same cursor. -/
def sameBytes (s t : WState) : Prop := s.out = t.out ∧ s.bitCount = t.bitCount

/-- The state `st` holds exactly the bits `bs`: the byte count and the cursor
follow from the number of bits, bit `8 * q + r` of the stream is `bs[8 * q + r]`,
and every position that has not been written is zero. -/
def Packed (bs : List Nat) (st : WState) : Prop :=
  st.out.length = bs.length / 8 + 1 ∧ st.bitCount = bs.length % 8 ∧
    ∀ q r, r < 8 → (st.out.getD q 0).testBit (7 - r) = decide (bs.getD (8 * q + r) 0 = 1)

/-! ## Example programs -/

/-- A program of two instructions, `MOVLW 0x3a` on line 1 and `GOTO 0x001` on line 2. -/
def twoInstrs : ParseOutput :=
  ⟨[⟨.MOVLW, 0, 0, 58, 0⟩, ⟨.GOTO, 0, 0, 1, 0⟩], [1, 2], [], []⟩

/-- A program of one instruction, `ADDWF 0x25 0x1` on line 7: the value 37
does not fit the 5-bit field `f`. -/
def wideField : ParseOutput := ⟨[⟨.ADDWF, 37, 1, 0, 0⟩], [7], [], []⟩

/-- Two strings are equal when compared case-insensitively. -/
def eqIgnoreCase (a b : List Char) : Bool := toUpper a == toUpper b

/-- An indeterminate content for the local `Instr instr;`, used in examples. -/
def zeroJunk : Nat → Instr := fun _ => ⟨.NOP, 0, 0, 0, 0⟩

/-! ## Specification-side notions for the instruction parser -/

/-- The operand fields each opcode reads, in the order of its operand tokens
(the operand shapes of the specification). -/
def operandFields : OP → List Field
  | .ADDWF | .ANDWF | .COMF | .DECF | .DECFSZ | .INCF | .INCFSZ | .IORWF | .MOVF
  | .RLF | .RRF | .SUBWF | .SWAPF | .XORWF => [.f, .d]
  | .BCF | .BSF | .BTFSC | .BTFSS => [.f, .b]
  | .CLRF | .MOVWF | .TRIS => [.f]
  | .ANDLW | .CALL | .GOTO | .IORLW | .MOVLW | .RETLW | .XORLW => [.k]
  | .CLRW | .NOP | .CLRWDT | .OPTION | .SLEEP => []

/-- Assigns the operand values to the fields, in order. -/
def assignOperands (instr : Instr) : List Field → List Int → Instr
  | fld :: flds, v :: vals => assignOperands (instr.setField fld v) flds vals
  | _, _ => instr

/-- The name of each opcode variant. -/
def OP.name : OP → List Char
  | .ADDWF => "ADDWF".toList | .ANDWF => "ANDWF".toList | .CLRF => "CLRF".toList
  | .CLRW => "CLRW".toList | .COMF => "COMF".toList | .DECF => "DECF".toList
  | .DECFSZ => "DECFSZ".toList | .INCF => "INCF".toList | .INCFSZ => "INCFSZ".toList
  | .IORWF => "IORWF".toList | .MOVF => "MOVF".toList | .MOVWF => "MOVWF".toList
  | .NOP => "NOP".toList | .RLF => "RLF".toList | .RRF => "RRF".toList
  | .SUBWF => "SUBWF".toList | .SWAPF => "SWAPF".toList | .XORWF => "XORWF".toList
  | .BCF => "BCF".toList | .BSF => "BSF".toList | .BTFSC => "BTFSC".toList
  | .BTFSS => "BTFSS".toList | .ANDLW => "ANDLW".toList | .CALL => "CALL".toList
  | .CLRWDT => "CLRWDT".toList | .GOTO => "GOTO".toList | .IORLW => "IORLW".toList
  | .MOVLW => "MOVLW".toList | .OPTION => "OPTION".toList | .RETLW => "RETLW".toList
  | .SLEEP => "SLEEP".toList | .TRIS => "TRIS".toList | .XORLW => "XORLW".toList

/-- The lower-case form of an upper-case letter; other characters are unchanged. -/
def toLowerChar (c : Char) : Char :=
  if 65 ≤ c.toNat ∧ c.toNat ≤ 90 then Char.ofNat (c.toNat + 32) else c

/-- The text `t` is an upper/lower-case variant of `name`: same length, and
each character is the character of `name` or its lower-case form. -/
def isCaseVariant : List Char → List Char → Bool
  | [], [] => true
  | c :: t, n :: name => (c == n || c == toLowerChar n) && isCaseVariant t name
  | _, _ => false

/-- The opcode the mnemonic search of `parse` resolves a token to: the cast of
the index found, or `none` when the search runs off the table. -/
def mnemonicOf (token : List Char) : Option OP :=
  if findOp token < OP_STRINGS.length then some (OP.ofIndex (findOp token)) else none

/-- The output extended by one label declaration. -/
def ParseOutput.addLabel (out : ParseOutput) (token : List Char) : ParseOutput :=
  { out with labels := out.labels ++ [token.dropLast],
             labelTargets := out.labelTargets ++ [out.instructions.length] }

/-- The output extended by one instruction and the line of its mnemonic. -/
def ParseOutput.addInstr (out : ParseOutput) (instr : Instr) (line : Nat) : ParseOutput :=
  { out with instructions := out.instructions ++ [instr],
             lineNumbers := out.lineNumbers ++ [line] }

/-- Shifts the token index returned by the operand switch. -/
def shiftArgs (i : Nat) : Except ParseError (Instr × Nat) → Except ParseError (Instr × Nat)
  | .error e => .error e
  | .ok (instr, j) => .ok (instr, i + j)

/-- Shifts the token index returned by the loop body. -/
def shiftStep (i : Nat) :
    Except ParseError (Nat × ParseOutput) → Except ParseError (Nat × ParseOutput)
  | .error e => .error e
  | .ok (j, out) => .ok (i + j, out)

/-- The recorded lists of a parse output are consistent: the parallel lists
have equal lengths, the label targets are non-decreasing, and no target
exceeds the number of instructions. -/
def ParseOutput.Consistent (o : ParseOutput) : Prop :=
  o.instructions.length = o.lineNumbers.length ∧ o.labels.length = o.labelTargets.length ∧
    o.labelTargets.Pairwise (fun a b => a ≤ b) ∧ ∀ t ∈ o.labelTargets, t ≤ o.instructions.length

/-- The output `o` extends `o0`: every list of `o0` is an initial part of the
corresponding list of `o`. -/
def ParseOutput.Extends (o0 o : ParseOutput) : Prop :=
  o0.instructions <+: o.instructions ∧ o0.lineNumbers <+: o.lineNumbers ∧
    o0.labels <+: o.labels ∧ o0.labelTargets <+: o.labelTargets

/-! ## Specification-side notions for the tokenizer -/

/-- The source text with every comment region removed: a region runs from a
`;` up to, but excluding, the next newline or the end of the text.  The flag
tells whether the text starts inside a comment. -/
def stripComments : Bool → List Char → List Char
  | _, [] => []
  | true, c :: rest =>
    if c = '\n' then c :: stripComments false rest else stripComments true rest
  | false, c :: rest =>
    if c = ';' then stripComments true rest else c :: stripComments false rest

/-- The characters of a source the tokenizer reads: those before the first
NUL, if there is one. -/
def beforeNUL (source : List Char) : List Char := source.takeWhile (fun c => c ≠ NUL)

/-- A token starts at position `p` of the text `s`: the character there is not
whitespace and is the first of the text or follows a whitespace character. -/
def isRunStart (s : List Char) (p : Nat) : Bool :=
  match s[p]? with
  | none => false
  | some c => !isSpace c && (p == 0 || (match s[p - 1]? with
                                       | none => false
                                       | some d => isSpace d))

/-- The maximal runs of non-whitespace characters of a text, in source order,
each with 1 plus the number of newline characters before its first character. -/
def runTokens (s : List Char) : List Token :=
  (List.range s.length).filterMap (fun p =>
    if isRunStart s p then
      some ⟨(s.drop p).takeWhile (fun c => !isSpace c), 1 + (s.take p).count '\n'⟩
    else none)

/-! ## Auxiliary notions for the proofs about the tokenizer -/

/-- The tokenizer as a function of the remaining text: `inComment` tells
whether the text starts inside a comment, `cur` is the token in progress, if
any, and `line` the current line. -/
def scanTokens : Bool → Option Token → Nat → List Char → List Token
  | _, cur, _, [] => cur.toList
  | true, _, line, c :: rest =>
    if c = '\n' then scanTokens false none (line + 1) rest
    else scanTokens true none line rest
  | false, cur, line, c :: rest =>
    if c = ';' then cur.toList ++ scanTokens true none line rest
    else if isSpace c then
      cur.toList ++ scanTokens false none (if c = '\n' then line + 1 else line) rest
    else
      match cur with
      | none => scanTokens false (some ⟨[c], line⟩) line rest
      | some t => scanTokens false (some ⟨t.text ++ [c], t.line⟩) line rest

/-- The token in progress at the end of the processed part `pre` of the
buffer: it starts at offset `pl.1` on line `pl.2`. -/
def curToken (pre : List Char) (cur : Option (Nat × Nat)) : Option Token :=
  cur.map (fun pl => ⟨pre.drop pl.1, pl.2⟩)

/-- The tokens of a tokenizer state, read from its buffer. -/
def TokState.result (st : TokState) : List Token :=
  List.zipWith (fun p l => ⟨cstrAt st.content p, l⟩) st.tokens st.lineNumbers


/-- The offsets recorded for the token in progress. -/
def curOffsets (cur : Option (Nat × Nat)) : List Nat := (cur.map Prod.fst).toList

/-- The lines recorded for the token in progress. -/
def curLines (cur : Option (Nat × Nat)) : List Nat := (cur.map Prod.snd).toList

/-- The token in progress is consistent with the processed part `pre` of the
buffer: without one, `pre` is empty or ends in NUL; with one, it starts inside
`pre` and no NUL follows its start. -/
def CurOk (pre : List Char) : Option (Nat × Nat) → Prop
  | none => pre = [] ∨ pre.getLast? = some NUL
  | some pl => pl.1 < pre.length ∧ ∀ c ∈ pre.drop pl.1, c ≠ NUL

/-- The maximal runs of a text given whether a whitespace character (or the
start of the text) precedes it and the line its first character is on. -/
def runsFrom : Bool → Nat → List Char → List Token
  | _, _, [] => []
  | prevBlank, line, c :: rest =>
    (if !isSpace c && prevBlank then
        [⟨(c :: rest).takeWhile (fun d => !isSpace d), line⟩]
      else []) ++ runsFrom (isSpace c) (if c = '\n' then line + 1 else line) rest

/-- A text is preceded by the start or by a whitespace character, seen from the
part `pre` before it. -/
def endsBlank (pre : List Char) : Bool :=
  match pre.getLast? with
  | none => true
  | some d => isSpace d


/-! ## Specification-side notions for the dependence of `write` on its input -/

/-- Two instructions agree on what is meaningful: they have the same opcode and
the same value in every field of that opcode's shape. -/
def agreeOn (a b : Instr) : Prop :=
  a.op = b.op ∧ ∀ fw ∈ (opShape a.op).2, a.field fw.1 = b.field fw.1

/-- The least word the table gives an opcode; for TRIS, the least word with
`f` at least 5. -/
def wordLow (op : OP) : Nat :=
  if op = .TRIS then 5 else opPattern op * 2 ^ (12 - (opShape op).1)

/-- The bound of the words the table gives an opcode: its fixed pattern plus
one, followed by zeros. -/
def wordHigh (op : OP) : Nat := (opPattern op + 1) * 2 ^ (12 - (opShape op).1)

/-- A program that differs from `twoInstrs` only in fields its opcodes do not
use and in the label tables. -/
def twoInstrsVariant : ParseOutput :=
  ⟨[⟨.MOVLW, 7, 1, 58, 3⟩, ⟨.GOTO, 9, 9, 1, 9⟩], [1, 2], ["loop".toList], [1]⟩

/-! ## Literal parser: proofs -/

theorem wrapInt_modEq (z : Int) : wrapInt z ≡ z [ZMOD 4294967296] := by
  unfold wrapInt Int.ModEq
  omega

theorem wrapInt_congr {a b : Int} (h : a ≡ b [ZMOD 4294967296]) : wrapInt a = wrapInt b := by
  unfold Int.ModEq at h
  unfold wrapInt
  omega

theorem wrapInt_of_range {z : Int} (h0 : -2147483648 ≤ z) (h1 : z < 2147483648) :
    wrapInt z = z := by
  unfold wrapInt
  omega

theorem char_eq_ofNat (c : Char) : c = Char.ofNat c.toNat := by
  simp [Char.ofNat_toNat]

theorem hexDigit_of_lower (c : Char) (h : isLowerHexDigit c = true) :
    hexDigit c = some (hexDigitValue c : Int) := by
  have hc := char_eq_ofNat c
  simp only [isLowerHexDigit, Bool.or_eq_true, Bool.and_eq_true, decide_eq_true_eq] at h
  generalize c.toNat = n at hc h
  subst hc
  rcases h with ⟨h1, h2⟩ | ⟨h1, h2⟩ <;> interval_cases n <;> decide

theorem hexDigit_some_lower (c : Char) (v : Int) (h : hexDigit c = some v) :
    isLowerHexDigit c = true := by
  cases hl : isLowerHexDigit c with
  | true => rfl
  | false =>
    have key : ∀ d : Char, isLowerHexDigit d = true → ¬ c = d := by
      intro d hd heq
      subst heq
      rw [hd] at hl
      exact Bool.noConfusion hl
    unfold hexDigit at h
    rw [if_neg (key _ (by decide)), if_neg (key _ (by decide)), if_neg (key _ (by decide)),
      if_neg (key _ (by decide)), if_neg (key _ (by decide)), if_neg (key _ (by decide)),
      if_neg (key _ (by decide)), if_neg (key _ (by decide)), if_neg (key _ (by decide)),
      if_neg (key _ (by decide)), if_neg (key _ (by decide)), if_neg (key _ (by decide)),
      if_neg (key _ (by decide)), if_neg (key _ (by decide)), if_neg (key _ (by decide)),
      if_neg (key _ (by decide))] at h
    exact Option.noConfusion h

theorem isHexDigit_of_lower (c : Char) (h : isLowerHexDigit c = true) : isHexDigit c = true := by
  unfold isLowerHexDigit at h
  unfold isHexDigit
  rw [h]
  rfl

theorem hexValue_append_single (ds : List Char) (c : Char) :
    hexValue (ds ++ [c]) = 16 * hexValue ds + hexDigitValue c := by
  simp [hexValue, List.foldl_append]

theorem hexValue_take_succ (ds : List Char) (n : Nat) (h : n < ds.length) :
    hexValue (ds.take (n + 1)) = 16 * hexValue (ds.take n) + hexDigitValue (ds.getD n NUL) := by
  have : ds.take (n + 1) = ds.take n ++ [ds.getD n NUL] := by
    rw [List.take_succ]
    simp [List.getD, List.getElem?_eq_getElem h]
  rw [this, hexValue_append_single]

theorem charAt_digits (ds : List Char) (n : Nat) :
    charAt ('0' :: 'x' :: ds) (n + 2) = ds.getD n NUL := by
  simp [charAt, List.getD]

/-- Loop invariant of `parseHex`: run on the `n` leftmost digits of a lower-case
digit string, the loop adds their value, scaled by `factor`, modulo `2 ^ 32`. -/
theorem parseHexLoop_lower (ds : List Char) (hds : ∀ c ∈ ds, isLowerHexDigit c = true) :
    ∀ (n : Nat), n ≤ ds.length → ∀ (x factor X F : Int), x = wrapInt X → factor = wrapInt F →
      parseHexLoop ('0' :: 'x' :: ds) n x factor
        = some (wrapInt (X + F * (hexValue (ds.take n) : Int))) := by
  intro n
  induction n with
  | zero =>
    intro _ x factor X F hx _
    simp [parseHexLoop, hexValue, hx]
  | succ n ih =>
    intro hn x factor X F hx hf
    have hlt : n < ds.length := hn
    have hmem : ds.getD n NUL ∈ ds := by
      simp [List.getD, List.getElem?_eq_getElem hlt]
    have hd := hexDigit_of_lower _ (hds _ hmem)
    rw [parseHexLoop, charAt_digits, hd]
    simp only
    rw [ih (Nat.le_of_lt hlt) _ _ (X + (hexDigitValue (ds.getD n NUL) : Int) * F) (F * 16)]
    · rw [hexValue_take_succ ds n hlt]
      congr 1
      congr 1
      push_cast
      ring
    · apply wrapInt_congr
      rw [hx, hf]
      exact (wrapInt_modEq X).add
        ((wrapInt_modEq _).trans (Int.ModEq.mul_left _ (wrapInt_modEq F)))
    · apply wrapInt_congr
      rw [hf]
      exact Int.ModEq.mul_right _ (wrapInt_modEq F)

theorem parseHex_lower (ds : List Char) (hne : ds ≠ [])
    (hds : ∀ c ∈ ds, isLowerHexDigit c = true) :
    parseHex ('0' :: 'x' :: ds) = some (wrapInt (hexValue ds)) := by
  have hlen : 0 < ds.length := List.length_pos.mpr hne
  have h3 : ¬ (('0' :: 'x' :: ds).length < 3) := by simp; omega
  unfold parseHex
  simp only [h3, if_false]
  have h0 : charAt ('0' :: 'x' :: ds) 0 = '0' := by simp [charAt]
  have h1 : charAt ('0' :: 'x' :: ds) 1 = 'x' := by simp [charAt]
  simp only [h0, h1, ne_eq, not_true_eq_false, if_false]
  have hl : ('0' :: 'x' :: ds).length - 2 = ds.length := by simp
  rw [hl, parseHexLoop_lower ds hds ds.length (Nat.le_refl _) 0 1 0 1 (by decide) (by decide)]
  simp

theorem parseHexLoop_some_digits (str : List Char) :
    ∀ (n : Nat) (x factor r : Int), parseHexLoop str n x factor = some r →
      ∀ j, j < n → isLowerHexDigit (charAt str (j + 2)) = true := by
  intro n
  induction n with
  | zero => intro _ _ _ _ j hj; omega
  | succ n ih =>
    intro x factor r h j hj
    rw [parseHexLoop] at h
    cases hd : hexDigit (charAt str (n + 2)) with
    | none => rw [hd] at h; exact Option.noConfusion h
    | some v =>
      rw [hd] at h
      by_cases hjn : j = n
      · subst hjn
        exact hexDigit_some_lower _ _ hd
      · exact ih _ _ _ h j (by omega)

theorem parseHex_some_shape (str : List Char) (v : Int) (h : parseHex str = some v) :
    isHexLiteral str = true := by
  unfold parseHex at h
  simp only at h
  split_ifs at h with h3 h0 h1
  match str, h3, h0, h1, h with
  | [], h3, _, _, _ => simp at h3
  | [_], h3, _, _, _ => simp at h3
  | [_, _], h3, _, _, _ => simp at h3
  | a :: b :: d :: ds, _, h0, h1, h =>
    have ha : a = '0' := by simpa [charAt] using h0
    have hb : b = 'x' := by simpa [charAt] using h1
    have hall : ∀ c ∈ d :: ds, isHexDigit c = true := by
      intro c hc
      obtain ⟨j, hj, rfl⟩ := List.getElem_of_mem hc
      have hlen : j < (a :: b :: d :: ds).length - 2 := by simpa using hj
      have := parseHexLoop_some_digits _ _ _ _ _ h j hlen
      apply isHexDigit_of_lower
      simpa [charAt, List.getD, List.getElem?_eq_getElem hj] using this
    simp only [isHexLiteral, ha, hb, decide_True, Bool.true_and, List.all_eq_true]
    exact hall

/-- C1 as amended: for every token `0x` followed by one or more digits taken from
`0`-`9` and lower-case `a`-`f` whose base-16 value is below `2 ^ 31`, `parseHex`
succeeds and returns the positional base-16 value of the digit substring. -/
theorem parseHex_lowercase_value (ds : List Char) (hne : ds ≠ [])
    (hds : ∀ c ∈ ds, isLowerHexDigit c = true) (hv : hexValue ds < 2147483648) :
    parseHex ('0' :: 'x' :: ds) = some (hexValue ds : Int) := by
  rw [parseHex_lower ds hne hds, wrapInt_of_range] <;> omega

theorem parseHex_lowercase_value_witness :
    parseHex ('0' :: 'x' :: ['3', 'a']) = some (hexValue ['3', 'a'] : Int) ∧
      hexValue ['3', 'a'] = 58 :=
  ⟨parseHex_lowercase_value ['3', 'a'] (by decide) (by decide) (by decide), by decide⟩

/-- C1 counterexample: the claim's own example `0x3A` consists of `0x` and two
hexadecimal digits, yet `parseHex` fails on it (the `switch` has no upper-case
arm); and on `0xffffffff` the 32-bit accumulator wraps, so the result `-1` is
not the base-16 value `4294967295` of the digits. -/
theorem parseHex_uppercase_counterexample :
    (isHexLiteral ['0', 'x', '3', 'A'] = true ∧ hexValue ['3', 'A'] = 58 ∧
        parseHex ['0', 'x', '3', 'A'] = none) ∧
      (isHexLiteral "0xffffffff".toList = true ∧ hexValue "ffffffff".toList = 4294967295 ∧
        parseHex "0xffffffff".toList = some (-1)) := by
  decide

/-- C2: every token that is not `0x` followed by one or more hexadecimal digits
(of either case) makes `parseHex` fail. -/
theorem parseHex_rejects_malformed (str : List Char) (h : isHexLiteral str = false) :
    parseHex str = none := by
  cases hp : parseHex str with
  | none => rfl
  | some v =>
    rw [parseHex_some_shape str v hp] at h
    exact Bool.noConfusion h

theorem parseHex_rejects_malformed_witness :
    parseHex [] = none ∧ parseHex "0x".toList = none ∧ parseHex "3a".toList = none ∧
      parseHex "0xg1".toList = none ∧ parseHex "58".toList = none ∧
      parseHex "0b101".toList = none :=
  ⟨parseHex_rejects_malformed [] (by decide),
   parseHex_rejects_malformed "0x".toList (by decide),
   parseHex_rejects_malformed "3a".toList (by decide),
   parseHex_rejects_malformed "0xg1".toList (by decide),
   parseHex_rejects_malformed "58".toList (by decide),
   parseHex_rejects_malformed "0b101".toList (by decide)⟩

/-! ## Encoder: the pushed bits and the warnings -/

theorem pushBit_warnings (b : Nat) (st : WState) : (pushBit b st).warnings = st.warnings := by
  unfold pushBit
  simp only
  split <;> rfl

theorem pushBit_congr (b : Nat) (st st1 : WState) (ho : st.out = st1.out)
    (hc : st.bitCount = st1.bitCount) :
    (pushBit b st).out = (pushBit b st1).out ∧
      (pushBit b st).bitCount = (pushBit b st1).bitCount := by
  unfold pushBit
  simp only [ho, hc]
  split <;> simp

theorem pushBits_nil (st : WState) : pushBits [] st = st := rfl

theorem pushBits_cons (b : Nat) (bs : List Nat) (st : WState) :
    pushBits (b :: bs) st = pushBits bs (pushBit b st) := rfl

theorem pushBits_append (bs cs : List Nat) (st : WState) :
    pushBits (bs ++ cs) st = pushBits cs (pushBits bs st) := by
  simp [pushBits, List.foldl_append]

theorem pushBits_warnings (bs : List Nat) :
    ∀ st : WState, (pushBits bs st).warnings = st.warnings := by
  induction bs with
  | nil => intro st; rfl
  | cons b bs ih => intro st; rw [pushBits_cons, ih, pushBit_warnings]

theorem pushBits_congr (bs : List Nat) :
    ∀ (st st1 : WState), st.out = st1.out → st.bitCount = st1.bitCount →
      (pushBits bs st).out = (pushBits bs st1).out ∧
        (pushBits bs st).bitCount = (pushBits bs st1).bitCount := by
  induction bs with
  | nil => intro st st1 ho hc; exact ⟨ho, hc⟩
  | cons b bs ih =>
    intro st st1 ho hc
    rw [pushBits_cons, pushBits_cons]
    exact ih _ _ (pushBit_congr b st st1 ho hc).1 (pushBit_congr b st st1 ho hc).2

theorem appendLoop_eq (val : Int) : ∀ (n : Nat) (st : WState),
    appendLoop val n st = pushBits (bitsMSB val n) st := by
  intro n
  induction n with
  | zero => intro st; rfl
  | succ n ih => intro st; rw [appendLoop, ih, bitsMSB, pushBits_cons]

theorem emod_ne_iff_not_fits (val : Int) (bits : Nat) :
    val % 2 ^ bits ≠ val ↔ fitsWidth bits val = false := by
  have hpos : (0 : Int) < 2 ^ bits := by positivity
  unfold fitsWidth
  constructor
  · intro h
    by_contra hf
    simp only [Bool.not_eq_false, Bool.and_eq_true, decide_eq_true_eq] at hf
    exact h (Int.emod_eq_of_lt hf.1 hf.2)
  · intro h heq
    have h0 := Int.emod_nonneg val (ne_of_gt hpos)
    have h1 := Int.emod_lt_of_pos val hpos
    rw [heq] at h0 h1
    simp [h0, h1] at h

theorem append_out (ln : Option Nat) (val : Int) (bits : Nat) (st : WState) :
    (append ln val bits st).out = (pushBits (bitsMSB val bits) st).out ∧
      (append ln val bits st).bitCount = (pushBits (bitsMSB val bits) st).bitCount := by
  unfold append
  simp only [appendLoop_eq]
  split
  · exact pushBits_congr _ _ _ rfl rfl
  · exact ⟨rfl, rfl⟩

theorem append_warnings (ln : Option Nat) (val : Int) (bits : Nat) (st : WState) :
    (append ln val bits st).warnings = st.warnings ++ warnOf ln val bits := by
  unfold append warnOf
  simp only [appendLoop_eq, pushBits_warnings]
  by_cases h : fitsWidth bits val = true
  · have : ¬ (val % 2 ^ bits ≠ val) := by
      rw [emod_ne_iff_not_fits, h]; simp
    simp [h, this]
  · have h2 : fitsWidth bits val = false := by simpa using h
    have : val % 2 ^ bits ≠ val := (emod_ne_iff_not_fits val bits).mpr h2
    simp [h2, this]

theorem sameBytes_refl (s : WState) : sameBytes s s := ⟨rfl, rfl⟩

theorem append_sameBytes (ln : Option Nat) (val : Int) (bits : Nat) (s t : WState)
    (h : sameBytes s t) :
    sameBytes (append ln val bits s) (pushBits (bitsMSB val bits) t) := by
  have h1 := append_out ln val bits s
  have h2 := pushBits_congr (bitsMSB val bits) s t h.1 h.2
  exact ⟨h1.1.trans h2.1, h1.2.trans h2.2⟩

theorem encode_sameBytes (ln : Option Nat) (instr : Instr) (st : WState) :
    sameBytes (encode ln instr st) (pushBits (instrBits instr) st) := by
  obtain ⟨op, f, d, k, b⟩ := instr
  cases op <;>
    simp only [encode, instrBits, opShape, opPattern, List.flatMap_cons, List.flatMap_nil,
      List.append_nil, Instr.field, pushBits_append, Nat.cast_ofNat, Nat.cast_zero] <;>
    first
    | exact append_sameBytes _ _ _ _ _ (append_sameBytes _ _ _ _ _
        (append_sameBytes _ _ _ _ _ (sameBytes_refl st)))
    | exact append_sameBytes _ _ _ _ _ (append_sameBytes _ _ _ _ _ (sameBytes_refl st))
    | exact append_sameBytes _ _ _ _ _ (sameBytes_refl st)

theorem expectedWarningsOf_eq (ln : Option Nat) (instr : Instr) :
    expectedWarningsOf ln instr =
      (opShape instr.op).2.flatMap (fun fw => warnOf ln (instr.field fw.1) fw.2) := by
  unfold expectedWarningsOf
  induction (opShape instr.op).2 with
  | nil => rfl
  | cons fw rest ih =>
    rw [List.flatMap_cons, ← ih]
    unfold warnOf
    by_cases h : fitsWidth fw.2 (instr.field fw.1) = true
    · simp [List.filterMap_cons, h]
    · simp [List.filterMap_cons, h]

theorem encode_warnings (ln : Option Nat) (instr : Instr) (st : WState) :
    (encode ln instr st).warnings = st.warnings ++ expectedWarningsOf ln instr := by
  rw [expectedWarningsOf_eq]
  obtain ⟨op, f, d, k, b⟩ := instr
  have hfix : ∀ (v : Int) (w : Nat), fitsWidth w v = true → warnOf ln v w = [] := by
    intro v w h; simp [warnOf, h]
  cases op <;>
    simp [encode, append_warnings, opShape, Instr.field, List.flatMap_cons, List.flatMap_nil] <;>
    exact hfix _ _ (by decide)

/-! ## Encoder: the packing invariant -/

theorem writeLoop_sameBytes (lns : List Nat) : ∀ (instrs : List Instr) (i : Nat) (st : WState),
    sameBytes (writeLoop lns i instrs st) (pushBits (programBits instrs) st) := by
  intro instrs
  induction instrs with
  | nil => intro i st; exact sameBytes_refl st
  | cons instr rest ih =>
    intro i st
    rw [writeLoop, programBits, List.flatMap_cons, pushBits_append]
    have h1 := ih (i + 1) (encode lns[i]? instr st)
    have h2 := encode_sameBytes lns[i]? instr st
    have h3 := pushBits_congr (programBits rest) _ _ h2.1 h2.2
    exact ⟨h1.1.trans h3.1, h1.2.trans h3.2⟩

theorem writeLoop_warnings (lns : List Nat) : ∀ (instrs : List Instr) (i : Nat) (st : WState),
    (writeLoop lns i instrs st).warnings = st.warnings ++ expectedWarnings lns i instrs := by
  intro instrs
  induction instrs with
  | nil => intro i st; simp [writeLoop, expectedWarnings]
  | cons instr rest ih =>
    intro i st
    rw [writeLoop, ih, encode_warnings, expectedWarnings, List.append_assoc]

theorem modifyBack_concat (f : Nat → Nat) (b : Nat) : ∀ (l : List Nat),
    modifyBack f (l ++ [b]) = l ++ [f b] := by
  intro l
  induction l with
  | nil => rfl
  | cons a l ih =>
    cases l with
    | nil => rfl
    | cons c l => exact congrArg (fun t => a :: t) ih

theorem packed_init : Packed [] WState.init := by
  refine ⟨rfl, rfl, ?_⟩
  intro q r _
  cases q with
  | zero => simp [WState.init]
  | succ q => simp [WState.init]

theorem testBit_bit_shift (b k j : Nat) (hb : b ≤ 1) :
    (b <<< k).testBit j = (decide (b = 1) && decide (k = j)) := by
  rw [Nat.shiftLeft_eq]
  have : b = 0 ∨ b = 1 := by omega
  rcases this with rfl | rfl
  · simp
  · simp [Nat.testBit_two_pow]

theorem packed_pushBit (bs : List Nat) (st : WState) (b : Nat) (hb : b ≤ 1)
    (h : Packed bs st) : Packed (bs ++ [b]) (pushBit b st) := by
  obtain ⟨hlen, hcnt, hbits⟩ := h
  obtain ⟨out, bitCount, warnings⟩ := st
  simp only at hlen hcnt hbits
  have hne : out ≠ [] := by
    intro h0; rw [h0] at hlen; simp at hlen
  obtain ⟨ini, last, rfl⟩ : ∃ ini last, out = ini ++ [last] := by
    rcases List.eq_nil_or_concat out with h0 | ⟨L, x, hx⟩
    · exact absurd h0 hne
    · exact ⟨L, x, by simpa using hx⟩
  have hini : ini.length = bs.length / 8 := by simpa using hlen
  have hc8 : bitCount < 8 := by rw [hcnt]; exact Nat.mod_lt _ (by decide)
  -- the byte that receives the bit
  have hnew : ∀ r, r < 8 →
      ((last ||| (b <<< (7 - bitCount))) % 256).testBit (7 - r)
        = (decide (bs.getD (8 * ini.length + r) 0 = 1) || (decide (b = 1) && decide (r = bitCount))) := by
    intro r hr
    have hold := hbits ini.length r hr
    rw [List.getD_append_right _ _ _ _ (Nat.le_refl _)] at hold
    simp only [Nat.sub_self, List.getD_cons_zero] at hold
    have h256 : (256 : Nat) = 2 ^ 8 := by norm_num
    rw [h256, Nat.testBit_mod_two_pow, Nat.testBit_lor, hold, testBit_bit_shift _ _ _ hb]
    have h1 : decide (7 - r < 8) = true := by simp; omega
    have h2 : decide (7 - bitCount = 7 - r) = decide (r = bitCount) := by
      apply decide_eq_decide.mpr; omega
    rw [h1, h2]; simp
  -- bits of the stream after the push, whatever follows the modified byte
  have hstream : ∀ (tl : List Nat), (∀ x ∈ tl, x = 0) → ∀ q r, r < 8 →
      ((ini ++ [(last ||| (b <<< (7 - bitCount))) % 256] ++ tl).getD q 0).testBit (7 - r)
        = decide ((bs ++ [b]).getD (8 * q + r) 0 = 1) := by
    intro tl htl q r hr
    rcases Nat.lt_trichotomy q ini.length with hq | hq | hq
    · have e1 : (ini ++ [(last ||| (b <<< (7 - bitCount))) % 256] ++ tl).getD q 0
          = (ini ++ [last]).getD q 0 := by
        rw [List.append_assoc, List.getD_append _ _ _ _ hq, List.getD_append _ _ _ _ hq]
      rw [e1, hbits q r hr]
      have hlt : 8 * q + r < bs.length := by omega
      rw [List.getD_append _ _ _ _ hlt]
    · subst hq
      have e1 : (ini ++ [(last ||| (b <<< (7 - bitCount))) % 256] ++ tl).getD ini.length 0
          = (last ||| (b <<< (7 - bitCount))) % 256 := by
        rw [List.append_assoc, List.getD_append_right _ _ _ _ (Nat.le_refl _)]
        simp
      rw [e1, hnew r hr]
      rcases Nat.lt_trichotomy r bitCount with hrc | hrc | hrc
      · have hlt : 8 * ini.length + r < bs.length := by omega
        rw [List.getD_append _ _ _ _ hlt]
        have : decide (r = bitCount) = false := by simp; omega
        simp [this]
      · have heq : 8 * ini.length + r = bs.length := by omega
        rw [heq, List.getD_eq_default _ _ (Nat.le_refl _),
          List.getD_append_right _ _ _ _ (Nat.le_refl _)]
        simp [hrc]
      · have hge : bs.length + 1 ≤ 8 * ini.length + r := by omega
        rw [List.getD_eq_default bs _ (by omega : bs.length ≤ 8 * ini.length + r),
          List.getD_eq_default (bs ++ [b]) _ (by simpa using hge)]
        have : decide (r = bitCount) = false := by simp; omega
        simp [this]
    · have hz : (ini ++ [(last ||| (b <<< (7 - bitCount))) % 256] ++ tl).getD q 0 = 0 := by
        rw [List.getD_append_right _ _ _ _ (by simpa using hq), List.getD_eq_getElem?_getD]
        cases hget : tl[q - (ini ++ [(last ||| (b <<< (7 - bitCount))) % 256]).length]? with
        | none => rfl
        | some x => exact htl x (List.getElem?_mem hget)
      rw [hz, Nat.zero_testBit]
      have hge : bs.length + 1 ≤ 8 * q + r := by omega
      rw [List.getD_eq_default (bs ++ [b]) _ (by simpa using hge)]
      simp
  unfold pushBit
  simp only [modifyBack_concat]
  by_cases hfull : bitCount + 1 ≥ 8
  · simp only [hfull, if_true]
    refine ⟨?_, ?_, ?_⟩
    · simp; omega
    · simp; omega
    · intro q r hr
      exact hstream [0] (by simp) q r hr
  · simp only [hfull, if_false]
    refine ⟨?_, ?_, ?_⟩
    · simp; omega
    · simp; omega
    · intro q r hr
      have := hstream [] (by simp) q r hr
      simpa using this

theorem packed_pushBits (cs : List Nat) : ∀ (bs : List Nat) (st : WState),
    (∀ c ∈ cs, c ≤ 1) → Packed bs st → Packed (bs ++ cs) (pushBits cs st) := by
  induction cs with
  | nil => intro bs st _ h; simpa [pushBits] using h
  | cons c cs ih =>
    intro bs st hc h
    rw [pushBits_cons]
    have := ih (bs ++ [c]) (pushBit c st) (fun x hx => hc x (List.mem_cons_of_mem _ hx))
      (packed_pushBit bs st c (hc c (List.mem_cons_self _ _)) h)
    simpa using this

/-! ## Encoder: bit lists and words -/

theorem bitAt_le_one (val : Int) (i : Nat) : bitAt val i ≤ 1 := by
  unfold bitAt
  generalize val / 2 ^ i = q
  omega

theorem bitsMSB_le_one (val : Int) : ∀ (n : Nat), ∀ c ∈ bitsMSB val n, c ≤ 1 := by
  intro n
  induction n with
  | zero => intro c hc; simp [bitsMSB] at hc
  | succ n ih =>
    intro c hc
    rw [bitsMSB, List.mem_cons] at hc
    rcases hc with rfl | hc
    · exact bitAt_le_one val n
    · exact ih c hc

theorem bitsMSB_length (val : Int) : ∀ (n : Nat), (bitsMSB val n).length = n := by
  intro n
  induction n with
  | zero => rfl
  | succ n ih => rw [bitsMSB, List.length_cons, ih]

theorem instrBits_le_one (instr : Instr) : ∀ c ∈ instrBits instr, c ≤ 1 := by
  intro c hc
  unfold instrBits at hc
  rw [List.mem_append, List.mem_flatMap] at hc
  rcases hc with hc | ⟨fw, _, hc⟩
  · exact bitsMSB_le_one _ _ c hc
  · exact bitsMSB_le_one _ _ c hc

theorem instrBits_length (instr : Instr) : (instrBits instr).length = 12 := by
  obtain ⟨op, f, d, k, b⟩ := instr
  cases op <;> simp [instrBits, opShape, bitsMSB_length]

theorem programBits_le_one (instrs : List Instr) : ∀ c ∈ programBits instrs, c ≤ 1 := by
  intro c hc
  unfold programBits at hc
  rw [List.mem_flatMap] at hc
  obtain ⟨instr, _, hc⟩ := hc
  exact instrBits_le_one instr c hc

theorem programBits_length (instrs : List Instr) :
    (programBits instrs).length = 12 * instrs.length := by
  induction instrs with
  | nil => rfl
  | cons instr rest ih =>
    rw [programBits, List.flatMap_cons, List.length_append, instrBits_length]
    rw [programBits] at ih
    rw [ih, List.length_cons]
    ring

theorem programBits_getD (instrs : List Instr) : ∀ (i : Nat) (instr : Instr) (j : Nat),
    instrs[i]? = some instr → j < 12 →
      (programBits instrs).getD (12 * i + j) 0 = (instrBits instr).getD j 0 := by
  induction instrs with
  | nil => intro i instr j h; simp at h
  | cons a rest ih =>
    intro i instr j h hj
    rw [programBits, List.flatMap_cons]
    cases i with
    | zero =>
      simp only [List.getElem?_cons_zero, Option.some.injEq] at h
      subst h
      rw [List.getD_append _ _ _ _ (by rw [instrBits_length]; omega), Nat.mul_zero, Nat.zero_add]
    | succ i =>
      simp only [List.getElem?_cons_succ] at h
      rw [List.getD_append_right _ _ _ _ (by rw [instrBits_length]; omega), instrBits_length]
      have : 12 * (i + 1) + j - 12 = 12 * i + j := by omega
      rw [this]
      exact ih i instr j h hj

theorem bitsValue_concat (bs : List Nat) (b : Nat) :
    bitsValue (bs ++ [b]) = 2 * bitsValue bs + b := by
  simp [bitsValue, List.foldl_append]

theorem bitsValue_append (bs : List Nat) : ∀ (cs : List Nat),
    bitsValue (bs ++ cs) = bitsValue bs * 2 ^ cs.length + bitsValue cs := by
  intro cs
  induction cs using List.reverseRecOn with
  | nil => simp [bitsValue]
  | append_singleton cs c ih =>
    rw [← List.append_assoc, bitsValue_concat, ih, bitsValue_concat, List.length_append,
      List.length_singleton, pow_succ]
    ring

theorem bitsValue_cons (b : Nat) (bs : List Nat) :
    bitsValue (b :: bs) = b * 2 ^ bs.length + bitsValue bs := by
  have := bitsValue_append [b] bs
  simpa [bitsValue] using this

theorem emod_two_pow_succ (val : Int) (w : Nat) :
    val % 2 ^ (w + 1) = val / 2 ^ w % 2 * 2 ^ w + val % 2 ^ w := by
  have hP : (0 : Int) < 2 ^ w := by positivity
  have h1 : val % 2 ^ w + 2 ^ w * (val / 2 ^ w) = val := Int.emod_add_ediv val (2 ^ w)
  have h2 : val / 2 ^ w % 2 + 2 * (val / 2 ^ w / 2) = val / 2 ^ w := Int.emod_add_ediv _ 2
  have h3 : 0 ≤ val % 2 ^ w := Int.emod_nonneg _ (ne_of_gt hP)
  have h4 : val % 2 ^ w < 2 ^ w := Int.emod_lt_of_pos _ hP
  have h5 : 0 ≤ val / 2 ^ w % 2 := Int.emod_nonneg _ (by norm_num)
  have h6 : val / 2 ^ w % 2 < 2 := Int.emod_lt_of_pos _ (by norm_num)
  have hu := (Int.ediv_emod_unique (a := val) (b := 2 ^ (w + 1))
    (r := val / 2 ^ w % 2 * 2 ^ w + val % 2 ^ w) (q := val / 2 ^ w / 2) (by positivity)).mpr
  refine (hu ⟨?_, ?_, ?_⟩).2
  · rw [pow_succ]
    linear_combination h1 + 2 ^ w * h2
  · positivity
  · rw [pow_succ]
    nlinarith

theorem bitsValue_bitsMSB (val : Int) : ∀ (w : Nat),
    bitsValue (bitsMSB val w) = (val % 2 ^ w).toNat := by
  intro w
  induction w with
  | zero => simp [bitsMSB, bitsValue, Int.emod_one]
  | succ w ih =>
    rw [bitsMSB, bitsValue_cons, ih, bitsMSB_length, emod_two_pow_succ]
    unfold bitAt
    have hP : (0 : Int) < 2 ^ w := by positivity
    have h3 : 0 ≤ val % 2 ^ w := Int.emod_nonneg _ (ne_of_gt hP)
    have h5 : 0 ≤ val / 2 ^ w % 2 := Int.emod_nonneg _ (by norm_num)
    zify
    rw [Int.toNat_of_nonneg h3, Int.toNat_of_nonneg h5, Int.toNat_of_nonneg (by positivity)]

theorem bitsValue_testBit : ∀ (bs : List Nat), (∀ c ∈ bs, c ≤ 1) → ∀ j, j < bs.length →
    (bitsValue bs).testBit (bs.length - 1 - j) = decide (bs.getD j 0 = 1) := by
  intro bs
  induction bs using List.reverseRecOn with
  | nil => intro _ j hj; simp at hj
  | append_singleton bs b ih =>
    intro hle j hj
    have hb : b ≤ 1 := hle b (by simp)
    rw [bitsValue_concat]
    simp only [List.length_append, List.length_singleton] at hj ⊢
    by_cases hjl : j = bs.length
    · subst hjl
      rw [List.getD_append_right _ _ _ _ (Nat.le_refl _)]
      simp only [Nat.add_sub_cancel, Nat.sub_self, List.getD_cons_zero]
      rw [Nat.testBit_to_div_mod]
      apply decide_eq_decide.mpr
      simp only [pow_zero, Nat.div_one]
      omega
    · have hlt : j < bs.length := by omega
      rw [List.getD_append _ _ _ _ hlt, ← ih (fun c hc => hle c (by simp [hc])) j hlt]
      have e : bs.length + 1 - 1 - j = (bs.length - 1 - j) + 1 := by omega
      rw [e, Nat.testBit_succ]
      congr 1
      omega

theorem bitsValue_instrBits (instr : Instr) : bitsValue (instrBits instr) = wordOf instr := by
  obtain ⟨op, f, d, k, b⟩ := instr
  cases op <;>
    simp [instrBits, wordOf, opShape, opPattern, Instr.field, bitsValue_append,
      bitsValue_bitsMSB, bitsMSB_length] <;> omega

/-- The bits of an instruction in the stream are the bits of its word. -/
theorem instrBits_getD_eq_testBit (instr : Instr) (j : Nat) (hj : j < 12) :
    decide ((instrBits instr).getD j 0 = 1) = (wordOf instr).testBit (11 - j) := by
  have h := bitsValue_testBit (instrBits instr) (instrBits_le_one instr) j
    (by rw [instrBits_length]; exact hj)
  rw [instrBits_length, bitsValue_instrBits] at h
  exact h.symm

theorem write_sameBytes (inp : ParseOutput) :
    sameBytes (write inp []) (pushBits (programBits inp.instructions) WState.init) :=
  writeLoop_sameBytes inp.lineNumbers inp.instructions 0 _

theorem write_packed (inp : ParseOutput) :
    Packed (programBits inp.instructions) (pushBits (programBits inp.instructions) WState.init) := by
  have := packed_pushBits (programBits inp.instructions) [] WState.init
    (programBits_le_one _) packed_init
  simpa using this

theorem write_streamBit (inp : ParseOutput) (p : Nat) :
    streamBit (write inp []).out p = decide ((programBits inp.instructions).getD p 0 = 1) := by
  unfold streamBit
  rw [(write_sameBytes inp).1]
  have h := (write_packed inp).2.2 (p / 8) (p % 8) (Nat.mod_lt _ (by decide))
  rw [Nat.div_add_mod] at h
  exact h

theorem write_length (inp : ParseOutput) :
    (write inp []).out.length = 12 * inp.instructions.length / 8 + 1 := by
  rw [(write_sameBytes inp).1, (write_packed inp).1, programBits_length]

/-! ## Encoder: the claims -/

theorem natBits_length : ∀ (w v : Nat), (natBits w v).length = w := by
  intro w
  induction w with
  | zero => intro v; rfl
  | succ w ih => intro v; rw [natBits, List.length_cons, ih]

theorem bitsMSB_eq_natBits (val : Int) (h0 : 0 ≤ val) : ∀ (w : Nat),
    bitsMSB val w = natBits w val.toNat := by
  intro w
  induction w with
  | zero => rfl
  | succ w ih =>
    rw [bitsMSB, natBits, ih]
    congr 1
    unfold bitAt
    obtain ⟨n, rfl⟩ := Int.eq_ofNat_of_zero_le h0
    simp only [Int.toNat_ofNat]
    norm_cast

theorem bitsMSB_natCast (n w : Nat) : bitsMSB (n : Int) w = natBits w n := by
  rw [bitsMSB_eq_natBits _ (Int.ofNat_nonneg n)]
  simp

theorem bitsValue_natBits (w v : Nat) (h : v < 2 ^ w) : bitsValue (natBits w v) = v := by
  have h1 := bitsValue_bitsMSB (v : Int) w
  rw [bitsMSB_natCast] at h1
  rw [h1]
  have : ((v : Int) % 2 ^ w) = v := Int.emod_eq_of_lt (Int.ofNat_nonneg v) (by exact_mod_cast h)
  rw [this]
  simp

theorem fitsWidth_iff (w : Nat) (v : Int) : fitsWidth w v = true ↔ 0 ≤ v ∧ v < 2 ^ w := by
  simp [fitsWidth]

theorem flatMap_bits_of_fit (instr : Instr) : ∀ (l : List (Field × Nat)),
    (l.all (fun fw => fitsWidth fw.2 (instr.field fw.1)) = true) →
      l.flatMap (fun fw => bitsMSB (instr.field fw.1) fw.2)
        = l.flatMap (fun fw => natBits fw.2 (instr.field fw.1).toNat) := by
  intro l
  induction l with
  | nil => intro _; rfl
  | cons fw rest ih =>
    intro h
    rw [List.all_cons, Bool.and_eq_true] at h
    rw [List.flatMap_cons, List.flatMap_cons, ih h.2,
      bitsMSB_eq_natBits _ ((fitsWidth_iff _ _).mp h.1).1]

theorem expectedWarningsOf_of_fit (ln : Option Nat) (instr : Instr)
    (h : fieldsFit instr = true) : expectedWarningsOf ln instr = [] := by
  unfold expectedWarningsOf
  unfold fieldsFit at h
  rw [List.all_eq_true] at h
  rw [List.filterMap_eq_nil_iff]
  intro fw hfw
  simp [h fw hfw]

theorem expectedWarnings_of_fit (lns : List Nat) : ∀ (instrs : List Instr) (i : Nat),
    (∀ instr ∈ instrs, fieldsFit instr = true) → expectedWarnings lns i instrs = [] := by
  intro instrs
  induction instrs with
  | nil => intro i _; rfl
  | cons a rest ih =>
    intro i h
    rw [expectedWarnings, expectedWarningsOf_of_fit _ _ (h a (List.mem_cons_self _ _)),
      ih (i + 1) (fun x hx => h x (List.mem_cons_of_mem _ hx))]
    rfl

theorem encode_eq_pushBits_of_fit (ln : Option Nat) (instr : Instr) (st : WState)
    (h : fieldsFit instr = true) : encode ln instr st = pushBits (instrBits instr) st := by
  have h1 := encode_sameBytes ln instr st
  have h2 := encode_warnings ln instr st
  rw [expectedWarningsOf_of_fit ln instr h, List.append_nil] at h2
  have h3 := pushBits_warnings (instrBits instr) st
  cases hE : encode ln instr st with
  | mk o c w =>
    cases hP : pushBits (instrBits instr) st with
    | mk o1 c1 w1 =>
      rw [hE, hP] at h1
      rw [hE] at h2
      rw [hP] at h3
      obtain ⟨ho, hc⟩ := h1
      simp only at ho hc h2 h3
      rw [ho, hc, h2, h3]

theorem opPattern_lt (op : OP) : opPattern op < 2 ^ (opShape op).1 := by
  cases op <;> decide

theorem bit_div_emod (val : Int) (w i : Nat) (h : i < w) :
    val % 2 ^ w / 2 ^ i % 2 = val / 2 ^ i % 2 := by
  obtain ⟨k, rfl⟩ : ∃ k, w = i + 1 + k := ⟨w - i - 1, by omega⟩
  have h1 : val % 2 ^ (i + 1 + k) + 2 ^ (i + 1 + k) * (val / 2 ^ (i + 1 + k)) = val :=
    Int.emod_add_ediv val _
  have hpow : (2 : Int) ^ (i + 1 + k) = 2 ^ i * (2 * 2 ^ k) := by ring
  have h2 : val / 2 ^ i
      = val % 2 ^ (i + 1 + k) / 2 ^ i + 2 * (2 ^ k * (val / 2 ^ (i + 1 + k))) := by
    conv_lhs => rw [← h1, hpow, mul_assoc]
    rw [Int.add_mul_ediv_left _ _ (by positivity)]
    ring_nf
  rw [h2, Int.add_mul_emod_self_left]

theorem bitsMSB_emod_le (val : Int) (w : Nat) : ∀ (n : Nat), n ≤ w →
    bitsMSB (val % 2 ^ w) n = bitsMSB val n := by
  intro n
  induction n with
  | zero => intro _; rfl
  | succ n ih =>
    intro hn
    rw [bitsMSB, bitsMSB, ih (by omega)]
    congr 1
    unfold bitAt
    rw [bit_div_emod val w n hn]

theorem bitsMSB_emod (val : Int) (w : Nat) : bitsMSB (val % 2 ^ w) w = bitsMSB val w :=
  bitsMSB_emod_le val w w (Nat.le_refl w)

theorem shape_width_unique (op : OP) (fld : Field) (w w1 : Nat)
    (h : (fld, w) ∈ (opShape op).2) (h1 : (fld, w1) ∈ (opShape op).2) : w = w1 := by
  cases op <;> cases fld <;> simp [opShape] at h h1 <;> omega

theorem setField_op (instr : Instr) (fld : Field) (v : Int) :
    (instr.setField fld v).op = instr.op := by
  cases fld <;> rfl

theorem field_setField_same (instr : Instr) (fld : Field) (v : Int) :
    (instr.setField fld v).field fld = v := by
  cases fld <;> rfl

theorem field_setField_ne (instr : Instr) (fld fld1 : Field) (v : Int) (h : fld1 ≠ fld) :
    (instr.setField fld v).field fld1 = instr.field fld1 := by
  cases fld <;> cases fld1 <;> first | rfl | exact absurd rfl h

theorem flatMap_congr_mem {α β : Type} (g1 g2 : α → List β) : ∀ (l : List α),
    (∀ a ∈ l, g1 a = g2 a) → l.flatMap g1 = l.flatMap g2 := by
  intro l
  induction l with
  | nil => intro _; rfl
  | cons a rest ih =>
    intro h
    rw [List.flatMap_cons, List.flatMap_cons, h a (List.mem_cons_self _ _),
      ih (fun x hx => h x (List.mem_cons_of_mem _ hx))]

theorem instrBits_setField_emod (instr : Instr) (fld : Field) (w : Nat)
    (h : (fld, w) ∈ (opShape instr.op).2) :
    instrBits (instr.setField fld (instr.field fld % 2 ^ w)) = instrBits instr := by
  unfold instrBits
  rw [setField_op]
  congr 1
  apply flatMap_congr_mem
  intro fw hfw
  by_cases hf : fw.1 = fld
  · have hw : fw.2 = w := by
      apply shape_width_unique instr.op fld fw.2 w _ h
      rw [← hf]
      exact hfw
    rw [hf, hw, field_setField_same, bitsMSB_emod]
  · rw [field_setField_ne _ _ _ _ hf]

theorem programBits_append (xs ys : List Instr) :
    programBits (xs ++ ys) = programBits xs ++ programBits ys := by
  simp [programBits, List.flatMap_append]

theorem programBits_cons (x : Instr) (ys : List Instr) :
    programBits (x :: ys) = instrBits x ++ programBits ys := by
  simp [programBits, List.flatMap_cons]

/-- C4 counterexample: two instructions emit 24 bits, yet `write` produces
4 bytes, not `ceil(24 / 8) = 3`: a zero byte follows the byte that holds the
last emitted bit. -/
theorem write_two_instructions_counterexample :
    (write twoInstrs []).out = [0xC3, 0xAA, 0x01, 0x00] ∧
      (write twoInstrs []).out.length ≠ (12 * twoInstrs.instructions.length + 7) / 8 := by
  decide

theorem write_tail_zero (inp : ParseOutput) (p : Nat)
    (hp : 12 * inp.instructions.length ≤ p) : streamBit (write inp []).out p = false := by
  rw [write_streamBit, List.getD_eq_default _ _ (by rw [programBits_length]; exact hp)]
  rfl

/-- C4 as amended: for every instruction list the buffer produced by `write`
has exactly `floor(B / 8) + 1` bytes, where `B = 12 * n` is the number of bits
emitted, and every bit of the buffer from position `B` on is zero. -/
theorem write_byte_count (inp : ParseOutput) :
    (write inp []).out.length = 12 * inp.instructions.length / 8 + 1 ∧
      ∀ p, 12 * inp.instructions.length ≤ p → streamBit (write inp []).out p = false :=
  ⟨write_length inp, write_tail_zero inp⟩

theorem write_byte_count_witness :
    12 * twoInstrs.instructions.length ≤ 24 ∧ streamBit (write twoInstrs []).out 24 = false :=
  ⟨by decide, (write_byte_count twoInstrs).2 24 (by decide)⟩

/-- C5: read as a bit stream (byte 0 first, most significant bit first), bits
`12 * i .. 12 * i + 11` of the output of `write` are the 12-bit word of
instruction `i`, most significant bit first, and every bit from position
`12 * n` on is zero. -/
theorem write_stream_layout (inp : ParseOutput) :
    (∀ (i : Nat) (instr : Instr) (j : Nat), inp.instructions[i]? = some instr → j < 12 →
        streamBit (write inp []).out (12 * i + j) = (wordOf instr).testBit (11 - j)) ∧
      ∀ p, 12 * inp.instructions.length ≤ p → streamBit (write inp []).out p = false := by
  refine ⟨?_, write_tail_zero inp⟩
  intro i instr j hi hj
  rw [write_streamBit, programBits_getD _ i instr j hi hj, instrBits_getD_eq_testBit instr j hj]

theorem write_stream_layout_witness :
    streamBit (write twoInstrs []).out (12 * 1 + 2)
        = (wordOf ⟨.GOTO, 0, 0, 1, 0⟩).testBit (11 - 2) ∧
      wordOf ⟨.GOTO, 0, 0, 1, 0⟩ = 0b101000000001 :=
  ⟨(write_stream_layout twoInstrs).1 1 ⟨.GOTO, 0, 0, 1, 0⟩ 2 (by decide) (by decide), by decide⟩

/-- C6: for an instruction whose operand fields fit their widths, `encode`
pushes exactly 12 bits, from any state: the opcode's fixed pattern in the
width the table gives, then each variable field of the table, in the table's
order, as the binary digits of its value in the field's width; each segment
denotes the value it encodes. -/
theorem encode_emits_table_layout (ln : Option Nat) (instr : Instr) (st : WState)
    (hfit : fieldsFit instr = true) :
    encode ln instr st =
        pushBits (natBits (opShape instr.op).1 (opPattern instr.op) ++
          (opShape instr.op).2.flatMap (fun fw => natBits fw.2 (instr.field fw.1).toNat)) st ∧
      (natBits (opShape instr.op).1 (opPattern instr.op) ++
          (opShape instr.op).2.flatMap
            (fun fw => natBits fw.2 (instr.field fw.1).toNat)).length = 12 ∧
      bitsValue (natBits (opShape instr.op).1 (opPattern instr.op)) = opPattern instr.op ∧
      ∀ fw ∈ (opShape instr.op).2,
        (bitsValue (natBits fw.2 (instr.field fw.1).toNat) : Int) = instr.field fw.1 := by
  have hbits : instrBits instr =
      natBits (opShape instr.op).1 (opPattern instr.op) ++
        (opShape instr.op).2.flatMap (fun fw => natBits fw.2 (instr.field fw.1).toNat) := by
    unfold instrBits
    rw [bitsMSB_natCast, flatMap_bits_of_fit instr _ hfit]
  refine ⟨?_, ?_, ?_, ?_⟩
  · rw [encode_eq_pushBits_of_fit ln instr st hfit, hbits]
  · rw [← hbits, instrBits_length]
  · exact bitsValue_natBits _ _ (opPattern_lt instr.op)
  · intro fw hfw
    unfold fieldsFit at hfit
    rw [List.all_eq_true] at hfit
    obtain ⟨h0, h1⟩ := (fitsWidth_iff _ _).mp (hfit fw hfw)
    rw [bitsValue_natBits _ _ (by
      have : ((instr.field fw.1).toNat : Int) < 2 ^ fw.2 := by
        rw [Int.toNat_of_nonneg h0]; exact h1
      exact_mod_cast this)]
    exact Int.toNat_of_nonneg h0

theorem encode_emits_table_layout_witness :
    encode (some 1) ⟨.BCF, 17, 0, 0, 5⟩ WState.init =
        pushBits ([0, 1, 0, 0] ++ [1, 0, 1] ++ [1, 0, 0, 0, 1]) WState.init ∧
      (encode (some 1) ⟨.BCF, 17, 0, 0, 5⟩ WState.init).out = [0b01001011, 0b00010000] :=
  ⟨(encode_emits_table_layout (some 1) ⟨.BCF, 17, 0, 0, 5⟩ WState.init (by decide)).1,
    by decide⟩

/-- C7: replacing the value `v` of a variable field of declared width `w` by
`v mod 2 ^ w` in one instruction of a list leaves the bytes produced by `write`
unchanged (so the bits of every other instruction are unchanged too). -/
theorem write_field_truncation (pre post : List Instr) (instr : Instr) (lns : List Nat)
    (labels : List (List Char)) (labelTargets : List Nat) (fld : Field) (w : Nat)
    (h : (fld, w) ∈ (opShape instr.op).2) :
    (write ⟨pre ++ instr :: post, lns, labels, labelTargets⟩ []).out =
      (write ⟨pre ++ instr.setField fld (instr.field fld % 2 ^ w) :: post, lns, labels,
        labelTargets⟩ []).out := by
  rw [(write_sameBytes _).1, (write_sameBytes _).1]
  simp only [programBits_append, programBits_cons, instrBits_setField_emod instr fld w h]

theorem write_field_truncation_witness :
    (write ⟨[] ++ ⟨.ADDWF, 37, 1, 0, 0⟩ :: [⟨.NOP, 0, 0, 0, 0⟩], [7, 8], [], []⟩ []).out =
        (write ⟨[] ++ (Instr.setField ⟨.ADDWF, 37, 1, 0, 0⟩ .f
            (Instr.field ⟨.ADDWF, 37, 1, 0, 0⟩ .f % 2 ^ 5)) :: [⟨.NOP, 0, 0, 0, 0⟩],
          [7, 8], [], []⟩ []).out ∧
      Instr.setField ⟨.ADDWF, 37, 1, 0, 0⟩ .f (Instr.field ⟨.ADDWF, 37, 1, 0, 0⟩ .f % 2 ^ 5)
        = ⟨.ADDWF, 5, 1, 0, 0⟩ :=
  ⟨write_field_truncation [] [⟨.NOP, 0, 0, 0, 0⟩] ⟨.ADDWF, 37, 1, 0, 0⟩ [7, 8] [] [] .f 5
    (by decide), by decide⟩

/-- C8: the warnings of `write` are exactly one per variable field whose value
does not fit its declared width, in encoding order, each tagged with the line
number recorded for its instruction; a list whose fields all fit yields no
warning; and the bytes are those of the complete program whatever was warned. -/
theorem write_warnings_exact (inp : ParseOutput) :
    (write inp []).warnings = expectedWarnings inp.lineNumbers 0 inp.instructions ∧
      ((∀ instr ∈ inp.instructions, fieldsFit instr = true) → (write inp []).warnings = []) ∧
      sameBytes (write inp []) (pushBits (programBits inp.instructions) WState.init) ∧
      (write inp []).out.length = 12 * inp.instructions.length / 8 + 1 := by
  have hw : (write inp []).warnings = expectedWarnings inp.lineNumbers 0 inp.instructions := by
    unfold write
    rw [writeLoop_warnings]
    rfl
  refine ⟨hw, ?_, write_sameBytes inp, write_length inp⟩
  intro hfit
  rw [hw, expectedWarnings_of_fit _ _ _ hfit]

theorem write_warnings_exact_witness :
    (write twoInstrs []).warnings = [] ∧ (write wideField []).warnings = [⟨some 7, 5, 37⟩] :=
  ⟨(write_warnings_exact twoInstrs).2.1 (by decide),
    (write_warnings_exact wideField).1.trans (by decide)⟩

/-! ## Tokenizer: the iteration bounds suffice -/

theorem charAt_of_length_le (content : List Char) (i : Nat) (h : content.length ≤ i) :
    charAt content i = NUL :=
  List.getD_eq_default _ _ h

theorem commentLoop_length : ∀ (fuel : Nat) (content : List Char) (i : Nat),
    (commentLoop fuel content i).1.length = content.length := by
  intro fuel
  induction fuel with
  | zero => intro content i; rfl
  | succ f ih =>
    intro content i
    rw [commentLoop]
    split
    · rfl
    · split
      · rfl
      · rw [ih, List.length_set]

theorem commentLoop_index_ge : ∀ (fuel : Nat) (content : List Char) (i : Nat),
    i ≤ (commentLoop fuel content i).2 := by
  intro fuel
  induction fuel with
  | zero => intro content i; exact Nat.le_refl i
  | succ f ih =>
    intro content i
    rw [commentLoop]
    split
    · exact Nat.le_refl i
    · split
      · exact Nat.le_refl i
      · exact Nat.le_trans (Nat.le_succ i) (ih _ _)

/-- The comment loop does not depend on its iteration bound once the bound
covers the rest of the buffer. -/
theorem commentLoop_fuel : ∀ (fuel1 fuel2 : Nat) (content : List Char) (i : Nat),
    content.length - i ≤ fuel1 → content.length - i ≤ fuel2 →
      commentLoop fuel1 content i = commentLoop fuel2 content i := by
  intro fuel1
  induction fuel1 with
  | zero =>
    intro fuel2 content i h1 _
    have hn : charAt content i = NUL := charAt_of_length_le _ _ (by omega)
    cases fuel2 with
    | zero => rfl
    | succ f2 => simp only [commentLoop, hn, if_true]
  | succ f1 ih =>
    intro fuel2 content i h1 h2
    by_cases hn : charAt content i = NUL
    · cases fuel2 with
      | zero => simp only [commentLoop, hn, if_true]
      | succ f2 => simp only [commentLoop, hn, if_true]
    · have hi : i < content.length := by
        by_contra hc
        exact hn (charAt_of_length_le _ _ (by omega))
      cases fuel2 with
      | zero => omega
      | succ f2 =>
        simp only [commentLoop, hn, if_false]
        split
        · rfl
        · apply ih <;> rw [List.length_set] <;> omega

theorem tokenTail_index (st : TokState) (wasBlank : Bool) :
    (tokenTail st wasBlank).i = st.i + 1 := by
  unfold tokenTail
  simp only
  split
  · rfl
  · split <;> rfl

theorem tokenTail_length (st : TokState) (wasBlank : Bool) :
    (tokenTail st wasBlank).content.length = st.content.length := by
  unfold tokenTail
  simp only
  split
  · simp only [List.length_set]
  · split <;> rfl

/-- The tokenizer loop does not depend on its iteration bound once the bound
covers the rest of the buffer. -/
theorem tokenLoop_fuel : ∀ (fuel1 fuel2 : Nat) (st : TokState),
    st.content.length - st.i ≤ fuel1 → st.content.length - st.i ≤ fuel2 →
      tokenLoop fuel1 st = tokenLoop fuel2 st := by
  intro fuel1
  induction fuel1 with
  | zero =>
    intro fuel2 st h1 _
    have hn : charAt st.content st.i = NUL := charAt_of_length_le _ _ (by omega)
    cases fuel2 with
    | zero => rfl
    | succ f2 => simp only [tokenLoop, hn, if_true]
  | succ f1 ih =>
    intro fuel2 st h1 h2
    by_cases hn : charAt st.content st.i = NUL
    · cases fuel2 with
      | zero => simp only [tokenLoop, hn, if_true]
      | succ f2 => simp only [tokenLoop, hn, if_true]
    · have hi : st.i < st.content.length := by
        by_contra hc
        exact hn (charAt_of_length_le _ _ (by omega))
      cases fuel2 with
      | zero => omega
      | succ f2 =>
        simp only [tokenLoop, hn, if_false]
        split
        · split
          · rfl
          · have hl := commentLoop_length st.content.length st.content st.i
            have hg := commentLoop_index_ge st.content.length st.content st.i
            apply ih <;> rw [tokenTail_length, tokenTail_index] <;> simp only <;> omega
        · apply ih <;> rw [tokenTail_length, tokenTail_index] <;> omega

/-! ## Instruction parser -/

theorem expectNum_eof (toks : List Token) (cursor : Nat) (h : toks.length ≤ cursor) :
    expectNum toks cursor = .error ⟨none, .expectedNumberEOF⟩ := by
  have hn : toks[cursor]? = none := List.getElem?_eq_none h
  unfold expectNum lineAt
  rw [hn]
  rfl

theorem expectNum_ok_lt (toks : List Token) (cursor : Nat) (v : Int)
    (h : expectNum toks cursor = .ok v) : cursor < toks.length := by
  by_contra hlt
  rw [expectNum_eof toks cursor (by omega)] at h
  exact Except.noConfusion h

theorem expectNum_append (pre rest : List Token) (cursor : Nat) (h : cursor < pre.length) :
    expectNum (pre ++ rest) cursor = expectNum pre cursor := by
  unfold expectNum lineAt
  rw [List.getElem?_append_left h]

theorem parseArgs_ok (toks : List Token) (i : Nat) (instr instr1 : Instr) (i1 : Nat)
    (h : parseArgs toks i instr = .ok (instr1, i1)) :
    i ≤ i1 ∧ (i1 = i ∨ i1 < toks.length) := by
  unfold parseArgs at h
  cases hop : instr.op <;> simp only [hop] at h <;>
    first
    | (cases h1 : expectNum toks (i + 1) with
       | error e => rw [h1] at h; exact Except.noConfusion h
       | ok a =>
         rw [h1] at h
         cases h2 : expectNum toks (i + 2) with
         | error e => rw [h2] at h; exact Except.noConfusion h
         | ok c =>
           rw [h2] at h
           have := expectNum_ok_lt _ _ _ h2
           simp only [Except.ok.injEq, Prod.mk.injEq] at h
           omega)
    | (cases h1 : expectNum toks (i + 1) with
       | error e => rw [h1] at h; exact Except.noConfusion h
       | ok a =>
         rw [h1] at h
         have := expectNum_ok_lt _ _ _ h1
         simp only [Except.ok.injEq, Prod.mk.injEq] at h
         omega)
    | (simp only [Except.ok.injEq, Prod.mk.injEq] at h
       omega)

theorem parseArgs_append (pre rest : List Token) (i : Nat) (instr instr1 : Instr) (i1 : Nat)
    (h : parseArgs pre i instr = .ok (instr1, i1)) :
    parseArgs (pre ++ rest) i instr = .ok (instr1, i1) := by
  unfold parseArgs at h ⊢
  cases hop : instr.op <;> simp only [hop] at h ⊢ <;>
    first
    | (cases h1 : expectNum pre (i + 1) with
       | error e => rw [h1] at h; exact Except.noConfusion h
       | ok a =>
         rw [h1] at h
         cases h2 : expectNum pre (i + 2) with
         | error e => rw [h2] at h; exact Except.noConfusion h
         | ok c =>
           rw [h2] at h
           rw [expectNum_append pre rest _ (expectNum_ok_lt _ _ _ h1), h1,
             expectNum_append pre rest _ (expectNum_ok_lt _ _ _ h2), h2]
           exact h)
    | (cases h1 : expectNum pre (i + 1) with
       | error e => rw [h1] at h; exact Except.noConfusion h
       | ok a =>
         rw [h1] at h
         rw [expectNum_append pre rest _ (expectNum_ok_lt _ _ _ h1), h1]
         exact h)
    | exact h

theorem parseStep_ok (junk : Nat → Instr) (toks : List Token) (i : Nat) (tok : Token)
    (out out1 : ParseOutput) (i1 : Nat)
    (h : parseStep junk toks i tok out = .ok (i1, out1)) :
    i ≤ i1 ∧ (i1 = i ∨ i1 < toks.length) := by
  unfold parseStep at h
  simp only at h
  split at h
  · simp only [Except.ok.injEq, Prod.mk.injEq] at h
    omega
  · split at h
    · exact Except.noConfusion h
    · split at h
      · exact Except.noConfusion h
      · rename_i instr1 i2 hargs
        simp only [Except.ok.injEq, Prod.mk.injEq] at h
        have := parseArgs_ok _ _ _ _ _ hargs
        omega

theorem parseStep_append (junk : Nat → Instr) (pre rest : List Token) (i : Nat) (tok : Token)
    (out out1 : ParseOutput) (i1 : Nat)
    (h : parseStep junk pre i tok out = .ok (i1, out1)) :
    parseStep junk (pre ++ rest) i tok out = .ok (i1, out1) := by
  unfold parseStep at h ⊢
  simp only at h ⊢
  split at h
  · rename_i hl
    rw [if_pos hl]
    exact h
  · rename_i hl
    rw [if_neg hl]
    split at h
    · exact Except.noConfusion h
    · rename_i hop
      rw [if_neg hop]
      split at h
      · exact Except.noConfusion h
      · rename_i instr1 i2 hargs
        rw [parseArgs_append pre rest _ _ _ _ hargs]
        exact h

/-- The instruction loop does not depend on the iteration bound once the bound
covers the tokens that remain. -/
theorem parseLoop_fuel (junk : Nat → Instr) (toks : List Token) :
    ∀ (fuel1 fuel2 i : Nat) (out : ParseOutput),
      toks.length - i ≤ fuel1 → toks.length - i ≤ fuel2 →
      parseLoop junk toks fuel1 i out = parseLoop junk toks fuel2 i out := by
  intro fuel1
  induction fuel1 with
  | zero =>
    intro fuel2 i out h1 _
    have hn : toks[i]? = none := List.getElem?_eq_none (by omega)
    cases fuel2 with
    | zero => rfl
    | succ f2 => simp only [parseLoop, hn]
  | succ f1 ih =>
    intro fuel2 i out h1 h2
    cases hget : toks[i]? with
    | none =>
      cases fuel2 with
      | zero => simp only [parseLoop, hget]
      | succ f2 => simp only [parseLoop, hget]
    | some tok =>
      have hi : i < toks.length := by
        by_contra hc
        rw [List.getElem?_eq_none (by omega)] at hget
        exact Option.noConfusion hget
      cases fuel2 with
      | zero => omega
      | succ f2 =>
        simp only [parseLoop, hget]
        cases hstep : parseStep junk toks i tok out with
        | error e => rfl
        | ok r =>
          obtain ⟨i1, out1⟩ := r
          have := parseStep_ok _ _ _ _ _ _ _ hstep
          exact ih f2 (i1 + 1) out1 (by omega) (by omega)

/-- Tokens that follow a successfully parsed sequence are parsed from the
state that sequence leaves, starting in mnemonic position. -/
theorem parseLoop_append (junk : Nat → Instr) (pre rest : List Token) :
    ∀ (fuel i : Nat) (out0 out : ParseOutput), pre.length - i ≤ fuel → i ≤ pre.length →
      parseLoop junk pre fuel i out0 = .ok out →
      parseLoop junk (pre ++ rest) (fuel + rest.length) i out0
        = parseLoop junk (pre ++ rest) rest.length pre.length out := by
  intro fuel
  induction fuel with
  | zero =>
    intro i out0 out h1 h2 h
    have hi : i = pre.length := by omega
    subst hi
    simp only [parseLoop, Except.ok.injEq] at h
    subst h
    rw [Nat.zero_add]
  | succ f ih =>
    intro i out0 out h1 h2 h
    cases hget : pre[i]? with
    | none =>
      have hi : i = pre.length := by
        by_contra hc
        have hlt : i < pre.length := by omega
        rw [List.getElem?_eq_getElem hlt] at hget
        exact Option.noConfusion hget
      subst hi
      simp only [parseLoop, hget, Except.ok.injEq] at h
      subst h
      apply parseLoop_fuel <;> simp
    | some tok =>
      have hi : i < pre.length := by
        by_contra hc
        rw [List.getElem?_eq_none (by omega)] at hget
        exact Option.noConfusion hget
      simp only [parseLoop, hget] at h
      have hget2 : (pre ++ rest)[i]? = some tok := by
        rw [List.getElem?_append_left hi, hget]
      have hf : f + 1 + rest.length = (f + rest.length) + 1 := by omega
      rw [hf]
      simp only [parseLoop, hget2]
      cases hstep : parseStep junk pre i tok out0 with
      | error e => rw [hstep] at h; exact Except.noConfusion h
      | ok r =>
        obtain ⟨i1, out1⟩ := r
        rw [hstep] at h
        simp only at h
        rw [parseStep_append junk pre rest _ _ _ _ _ hstep]
        simp only
        have := parseStep_ok _ _ _ _ _ _ _ hstep
        exact ih (i1 + 1) out1 out (by omega) (by omega) h

theorem parseTokens_append (junk : Nat → Instr) (pre rest : List Token)
    (out0 out : ParseOutput) (h : parseTokens junk pre out0 = .ok out) :
    parseTokens junk (pre ++ rest) out0
      = parseLoop junk (pre ++ rest) rest.length pre.length out := by
  unfold parseTokens at h ⊢
  rw [List.length_append]
  exact parseLoop_append junk pre rest pre.length 0 out0 out (by omega) (by omega) h

theorem toUpper_table_name : ∀ name ∈ OP_STRINGS, toUpper name = name := by decide

theorem findOp_of_no_match (token : List Char)
    (h : ∀ name ∈ OP_STRINGS, eqIgnoreCase token name = false) :
    findOp token = OP_STRINGS.length := by
  unfold findOp
  rw [List.findIdx_eq_length]
  intro name hname
  have := h name hname
  unfold eqIgnoreCase at this
  rw [toUpper_table_name name hname] at this
  exact this

/-- C10: when the tokens before `tok` parse successfully, so that `tok` stands
in mnemonic position, and `tok` neither ends in `:` nor equals one of the 33
mnemonics compared case-insensitively, `parse` fails with the unknown-mnemonic
error tagged with the line of `tok`, whatever tokens follow; and `main` then
stops with that error without producing bytes. -/
theorem parse_unknown_mnemonic (junk : Nat → Instr) (pre post : List Token) (tok : Token)
    (out : ParseOutput)
    (hpre : parseTokens junk pre ParseOutput.empty = .ok out)
    (hlabel : tok.text.getLast? ≠ some ':')
    (hname : ∀ name ∈ OP_STRINGS, eqIgnoreCase tok.text name = false) :
    parseTokens junk (pre ++ tok :: post) ParseOutput.empty
        = .error ⟨some tok.line, .notImplemented (toUpper tok.text)⟩ ∧
      ∀ source : List Char, tokenize (source ++ [NUL]) = pre ++ tok :: post →
        main junk source = .error ⟨some tok.line, .notImplemented (toUpper tok.text)⟩ := by
  have hmain : parseTokens junk (pre ++ tok :: post) ParseOutput.empty
      = .error ⟨some tok.line, .notImplemented (toUpper tok.text)⟩ := by
    rw [parseTokens_append junk pre (tok :: post) _ out hpre]
    have hget : (pre ++ tok :: post)[pre.length]? = some tok := by
      rw [List.getElem?_append_right (Nat.le_refl _)]
      simp
    simp only [List.length_cons, parseLoop, hget]
    have hstep : parseStep junk (pre ++ tok :: post) pre.length tok out
        = .error ⟨some tok.line, .notImplemented (toUpper tok.text)⟩ := by
      unfold parseStep
      simp only [if_neg hlabel, findOp_of_no_match tok.text hname, ge_iff_le, le_refl, if_true]
    rw [hstep]
  refine ⟨hmain, ?_⟩
  intro source hsrc
  unfold main parse
  rw [hsrc, hmain]

theorem parse_unknown_mnemonic_witness :
    parseTokens zeroJunk ([] ++ (⟨"FOOBAR".toList, 5⟩ : Token) :: []) ParseOutput.empty
        = .error ⟨some 5, .notImplemented "FOOBAR".toList⟩ ∧
      main zeroJunk "nop\n\n\n\nFooBar 0x1\nnop".toList
        = .error ⟨some 5, .notImplemented "FOOBAR".toList⟩ :=
  ⟨(parse_unknown_mnemonic zeroJunk [] [] ⟨"FOOBAR".toList, 5⟩ ParseOutput.empty rfl
      (by decide) (by decide)).1,
   (parse_unknown_mnemonic zeroJunk [⟨"nop".toList, 1⟩]
      [⟨"0x1".toList, 5⟩, ⟨"nop".toList, 6⟩] ⟨"FooBar".toList, 5⟩
      ⟨[⟨.NOP, 0, 0, 0, 0⟩], [1], [], []⟩ rfl (by decide) (by decide)).2
      "nop\n\n\n\nFooBar 0x1\nnop".toList (by decide)⟩

theorem expectNum_error_eof (toks : List Token) (cursor : Nat) (e : ParseError)
    (h : expectNum toks cursor = .error e) (hm : e.msg = .expectedNumberEOF) :
    e.line = none := by
  unfold expectNum at h
  cases hget : toks[cursor]? with
  | none =>
    rw [hget] at h
    simp only [Except.error.injEq] at h
    subst h
    simp [lineAt, hget]
  | some tok =>
    rw [hget] at h
    simp only at h
    cases hp : parseHex tok.text with
    | none =>
      rw [hp] at h
      simp only [Except.error.injEq] at h
      subst h
      exact ErrorMsg.noConfusion hm
    | some v =>
      rw [hp] at h
      exact Except.noConfusion h

theorem parseArgs_error_eof (toks : List Token) (i : Nat) (instr : Instr) (e : ParseError)
    (h : parseArgs toks i instr = .error e) (hm : e.msg = .expectedNumberEOF) :
    e.line = none := by
  unfold parseArgs at h
  cases hop : instr.op <;> simp only [hop] at h <;>
    first
    | (cases h1 : expectNum toks (i + 1) with
       | error e1 =>
         rw [h1] at h
         simp only [Except.error.injEq] at h
         subst h
         exact expectNum_error_eof _ _ _ h1 hm
       | ok a =>
         rw [h1] at h
         cases h2 : expectNum toks (i + 2) with
         | error e2 =>
           rw [h2] at h
           simp only [Except.error.injEq] at h
           subst h
           exact expectNum_error_eof _ _ _ h2 hm
         | ok c => rw [h2] at h; exact Except.noConfusion h)
    | (cases h1 : expectNum toks (i + 1) with
       | error e1 =>
         rw [h1] at h
         simp only [Except.error.injEq] at h
         subst h
         exact expectNum_error_eof _ _ _ h1 hm
       | ok a => rw [h1] at h; exact Except.noConfusion h)
    | exact Except.noConfusion h

theorem parseStep_error_eof (junk : Nat → Instr) (toks : List Token) (i : Nat) (tok : Token)
    (out : ParseOutput) (e : ParseError)
    (h : parseStep junk toks i tok out = .error e) (hm : e.msg = .expectedNumberEOF) :
    e.line = none := by
  unfold parseStep at h
  simp only at h
  split at h
  · exact Except.noConfusion h
  · split at h
    · simp only [Except.error.injEq] at h
      subst h
      exact ErrorMsg.noConfusion hm
    · split at h
      · rename_i e1 hargs
        simp only [Except.error.injEq] at h
        subst h
        exact parseArgs_error_eof _ _ _ _ hargs hm
      · exact Except.noConfusion h

/-- Whenever the instruction loop stops because the tokens ran out while an
operand was expected, the line number of the error is the read of
`lineNumbers` past its end, never the line of a token. -/
theorem parseLoop_error_eof (junk : Nat → Instr) (toks : List Token) :
    ∀ (fuel i : Nat) (out : ParseOutput) (e : ParseError),
      parseLoop junk toks fuel i out = .error e → e.msg = .expectedNumberEOF →
      e.line = none := by
  intro fuel
  induction fuel with
  | zero => intro i out e h _; exact Except.noConfusion h
  | succ f ih =>
    intro i out e h hm
    rw [parseLoop] at h
    cases hget : toks[i]? with
    | none => rw [hget] at h; exact Except.noConfusion h
    | some tok =>
      rw [hget] at h
      simp only at h
      cases hstep : parseStep junk toks i tok out with
      | error e1 =>
        rw [hstep] at h
        simp only [Except.error.injEq] at h
        subst h
        exact parseStep_error_eof _ _ _ _ _ _ hstep hm
      | ok r =>
        obtain ⟨i1, out1⟩ := r
        rw [hstep] at h
        exact ih _ _ _ h hm

/-- C3 counterexample: the source of the claim, with the literal `0x3A`, stops
with a fatal error on line 1; with the literal in lower case the assembler
succeeds and produces 4 bytes, not 3. -/
theorem main_example_counterexample :
    main zeroJunk "MOVLW 0x3A\nGOTO 0x001\n".toList
        = .error ⟨some 1, .expectedNumberGot "0x3A".toList⟩ ∧
      main zeroJunk "MOVLW 0x3a\nGOTO 0x001\n".toList
        = .ok ([0xC3, 0xAA, 0x01, 0x00], []) := by
  constructor <;> rfl

theorem tokenize_example_lower :
    tokenize ("MOVLW 0x3a\nGOTO 0x001\n".toList ++ [NUL]) =
      [⟨"MOVLW".toList, 1⟩, ⟨"0x3a".toList, 1⟩, ⟨"GOTO".toList, 2⟩, ⟨"0x001".toList, 2⟩] := by
  decide

set_option maxHeartbeats 1000000 in
theorem parse_example_lower (junk : Nat → Instr) :
    parseTokens junk
        [⟨"MOVLW".toList, 1⟩, ⟨"0x3a".toList, 1⟩, ⟨"GOTO".toList, 2⟩, ⟨"0x001".toList, 2⟩]
        ParseOutput.empty
      = .ok ⟨[{ junk 0 with op := .MOVLW, k := 58 }, { junk 1 with op := .GOTO, k := 1 }],
          [1, 2], [], []⟩ := by
  rfl

theorem write_example_lower (junk : Nat → Instr) :
    write ⟨[{ junk 0 with op := .MOVLW, k := 58 }, { junk 1 with op := .GOTO, k := 1 }],
        [1, 2], [], []⟩ []
      = write twoInstrs [] := by
  rfl

theorem write_twoInstrs : write twoInstrs [] = ⟨[0xC3, 0xAA, 0x01, 0x00], 0, []⟩ := by
  decide


/-- C3 as amended: with the literal in lower case, the source
`MOVLW 0x3a\nGOTO 0x001\n` assembles without a fatal error or warning and
produces exactly 4 bytes: the first 24 bits are the 4-bit MOVLW pattern, the
8-bit literal 0x3a, the 3-bit GOTO pattern and the 9-bit literal 0x001, and
the last byte is zero. -/
theorem main_example_lowercase (junk : Nat → Instr) :
    main junk "MOVLW 0x3a\nGOTO 0x001\n".toList = .ok ([0xC3, 0xAA, 0x01, 0x00], []) ∧
      (List.range 32).map (fun p => (streamBit [0xC3, 0xAA, 0x01, 0x00] p).toNat)
        = natBits 4 0b1100 ++ natBits 8 0x3a ++ natBits 3 0b101 ++ natBits 9 0x001
            ++ natBits 8 0 := by
  constructor
  · unfold main parse
    rw [tokenize_example_lower, parse_example_lower]
    simp only [write_example_lower, write_twoInstrs]
  · decide

/-- C9, the behaviour of the code: when the tokens end while an operand is
still required, `parse` stops with the fatal error, but the line it prints is
`lineNumbers[ cursor ]` with `cursor` one past the last token, a read past the
end of the vector, not the line of the mnemonic (line 1 and line 2 below). -/
theorem main_missing_operand_line (junk : Nat → Instr) :
    tokenize ("MOVLW".toList ++ [NUL]) = [⟨"MOVLW".toList, 1⟩] ∧
      main junk "MOVLW".toList = .error ⟨none, .expectedNumberEOF⟩ ∧
      main junk "nop\nADDWF 0x01".toList = .error ⟨none, .expectedNumberEOF⟩ := by
  refine ⟨by decide, ?_, ?_⟩ <;> rfl

/-! ## Instruction parser: composition over token lists -/

theorem lineAt_drop (toks : List Token) (i k : Nat) :
    lineAt (toks.drop i) k = lineAt toks (i + k) := by
  unfold lineAt
  rw [List.getElem?_drop]

theorem expectNum_drop (toks : List Token) (i k : Nat) :
    expectNum (toks.drop i) k = expectNum toks (i + k) := by
  unfold expectNum
  rw [lineAt_drop, List.getElem?_drop]

theorem parseArgs_drop (toks : List Token) (i : Nat) (instr : Instr) :
    parseArgs toks i instr = shiftArgs i (parseArgs (toks.drop i) 0 instr) := by
  unfold parseArgs
  cases hop : instr.op <;> simp only [hop, expectNum_drop, Nat.zero_add] <;>
    (cases h1 : expectNum toks (i + 1) with
     | error e => rfl
     | ok a =>
       cases h2 : expectNum toks (i + 2) with
       | error e => rfl
       | ok c => rfl)

theorem parseStep_drop (junk : Nat → Instr) (toks : List Token) (i : Nat) (tok : Token)
    (out : ParseOutput) :
    parseStep junk toks i tok out = shiftStep i (parseStep junk (toks.drop i) 0 tok out) := by
  unfold parseStep
  simp only
  split
  · rfl
  · split
    · rfl
    · rw [parseArgs_drop toks i]
      cases parseArgs (List.drop i toks) 0
          { junk out.instructions.length with op := OP.ofIndex (findOp tok.text) } with
      | error e => rfl
      | ok r => rfl

theorem parseLoop_drop (junk : Nat → Instr) : ∀ (fuel : Nat) (toks : List Token) (i : Nat)
    (out : ParseOutput),
    parseLoop junk toks fuel i out = parseLoop junk (toks.drop i) fuel 0 out := by
  intro fuel
  induction fuel with
  | zero => intro toks i out; rfl
  | succ f ih =>
    intro toks i out
    have hget : (toks.drop i)[0]? = toks[i]? := by rw [List.getElem?_drop]; rfl
    rw [parseLoop, parseLoop, hget]
    cases toks[i]? with
    | none => rfl
    | some tok =>
      simp only
      rw [parseStep_drop junk toks i]
      cases parseStep junk (List.drop i toks) 0 tok out with
      | error e => rfl
      | ok r =>
        obtain ⟨j, out1⟩ := r
        simp only [shiftStep]
        rw [ih toks (i + j + 1) out1, ih (toks.drop i) (j + 1) out1, List.drop_drop]
        congr 2

/-- Parsing a sequence whose front part parses is parsing the rest from the
state the front part leaves. -/
theorem parseTokens_append_eq (junk : Nat → Instr) (pre rest : List Token)
    (out0 out : ParseOutput) (h : parseTokens junk pre out0 = .ok out) :
    parseTokens junk (pre ++ rest) out0 = parseTokens junk rest out := by
  rw [parseTokens_append junk pre rest out0 out h, parseLoop_drop]
  simp [parseTokens]

theorem parseTokens_nil (junk : Nat → Instr) (out : ParseOutput) :
    parseTokens junk [] out = .ok out := rfl

/-- One iteration of the instruction loop at the head of a token list. -/
theorem parseTokens_cons (junk : Nat → Instr) (tok : Token) (rest : List Token)
    (out : ParseOutput) :
    parseTokens junk (tok :: rest) out =
      match parseStep junk (tok :: rest) 0 tok out with
      | .error e => .error e
      | .ok (i1, out1) => parseTokens junk (rest.drop i1) out1 := by
  unfold parseTokens
  simp only [List.length_cons, parseLoop, List.getElem?_cons_zero]
  cases hstep : parseStep junk (tok :: rest) 0 tok out with
  | error e => rfl
  | ok r =>
    obtain ⟨i1, out1⟩ := r
    simp only
    rw [parseLoop_drop]
    have hd : List.drop (i1 + 1) (tok :: rest) = rest.drop i1 := by simp
    rw [hd]
    apply parseLoop_fuel <;> simp

/-! ## Instruction parser: one loop iteration -/

theorem parseStep_label (junk : Nat → Instr) (toks : List Token) (i : Nat) (tok : Token)
    (out : ParseOutput) (h : tok.text.getLast? = some ':') :
    parseStep junk toks i tok out = .ok (i, out.addLabel tok.text) := by
  unfold parseStep
  simp only [if_pos h]
  rfl

theorem parseStep_mnemonic (junk : Nat → Instr) (toks : List Token) (i : Nat) (tok : Token)
    (out : ParseOutput) (op : OP) (h : tok.text.getLast? ≠ some ':')
    (hop : mnemonicOf tok.text = some op) :
    parseStep junk toks i tok out =
      match parseArgs toks i { junk out.instructions.length with op := op } with
      | .error e => .error e
      | .ok (instr1, i1) => .ok (i1, out.addInstr instr1 tok.line) := by
  unfold mnemonicOf at hop
  split at hop
  · rename_i hlt
    simp only [Option.some.injEq] at hop
    unfold parseStep
    simp only [if_neg h, ge_iff_le, if_neg (Nat.not_le.mpr hlt), hop]
    rfl
  · exact Option.noConfusion hop

theorem parseStep_unknown (junk : Nat → Instr) (toks : List Token) (i : Nat) (tok : Token)
    (out : ParseOutput) (h : tok.text.getLast? ≠ some ':')
    (hop : mnemonicOf tok.text = none) :
    parseStep junk toks i tok out
      = .error ⟨some tok.line, .notImplemented (toUpper tok.text)⟩ := by
  unfold mnemonicOf at hop
  split at hop
  · exact Option.noConfusion hop
  · rename_i hlt
    unfold parseStep
    simp only [if_neg h, ge_iff_le, if_pos (Nat.not_lt.mp hlt)]

theorem expectNum_zero (a : Token) (toks : List Token) :
    expectNum (a :: toks) 0 =
      match parseHex a.text with
      | none => .error ⟨some a.line, .expectedNumberGot a.text⟩
      | some v => .ok v := by
  unfold expectNum lineAt
  cases hp : parseHex a.text <;> simp [hp]

theorem expectNum_succ (a : Token) (toks : List Token) (k : Nat) :
    expectNum (a :: toks) (k + 1) = expectNum toks k := by
  unfold expectNum lineAt
  simp only [List.getElem?_cons_succ]

/-- With enough valid literals after the mnemonic, the operand switch assigns
them in the order of the opcode's operand fields and advances the index by
their number. -/
theorem parseArgs_operands (m : Token) (args post : List Token) (instr : Instr)
    (vals : List Int)
    (hlen : args.length = (operandFields instr.op).length)
    (hvals : List.Forall₂ (fun a v => parseHex a.text = some v) args vals) :
    parseArgs (m :: (args ++ post)) 0 instr
      = .ok (assignOperands instr (operandFields instr.op) vals, args.length) := by
  obtain ⟨op, f, d, k, b⟩ := instr
  cases op <;> simp only [operandFields, List.length_cons, List.length_nil] at hlen <;>
    first
    | (match args, vals, hvals, hlen with
       | [a, c], [v, w], hv, _ =>
         cases hv with
         | cons h1 hv2 =>
           cases hv2 with
           | cons h2 _ =>
             simp [parseArgs, expectNum_succ, expectNum_zero, h1, h2, operandFields,
               assignOperands, Instr.setField])
    | (match args, vals, hvals, hlen with
       | [a], [v], hv, _ =>
         cases hv with
         | cons h1 _ =>
           simp [parseArgs, expectNum_succ, expectNum_zero, h1, operandFields,
             assignOperands, Instr.setField])
    | (match args, vals, hvals, hlen with
       | [], [], _, _ => simp [parseArgs, operandFields, assignOperands])

/-! ## Mnemonic resolution -/

theorem toUpperChar_of_variant (c n : Char) (hn : 65 ≤ n.toNat ∧ n.toNat ≤ 90)
    (h : (c == n || c == toLowerChar n) = true) : toUpperChar c = n := by
  have hc := char_eq_ofNat n
  obtain ⟨h1, h2⟩ := hn
  generalize n.toNat = k at hc h1 h2
  subst hc
  simp only [Bool.or_eq_true, beq_iff_eq] at h
  rcases h with rfl | rfl <;> interval_cases k <;> decide

theorem name_upper : ∀ (op : OP), ∀ n ∈ OP.name op, 65 ≤ n.toNat ∧ n.toNat ≤ 90 := by
  intro op
  cases op <;> decide

theorem toUpper_of_variant : ∀ (t name : List Char),
    (∀ n ∈ name, 65 ≤ n.toNat ∧ n.toNat ≤ 90) → isCaseVariant t name = true →
      toUpper t = name := by
  intro t
  induction t with
  | nil =>
    intro name _ h
    cases name with
    | nil => rfl
    | cons n name => simp [isCaseVariant] at h
  | cons c t ih =>
    intro name hn h
    cases name with
    | nil => simp [isCaseVariant] at h
    | cons n name =>
      rw [isCaseVariant, Bool.and_eq_true] at h
      have h1 := toUpperChar_of_variant c n (hn n (List.mem_cons_self _ _)) h.1
      have h2 := ih name (fun x hx => hn x (List.mem_cons_of_mem _ hx)) h.2
      unfold toUpper at h2 ⊢
      rw [List.map_cons, h1, h2]

theorem findOp_congr (t u : List Char) (h : toUpper t = toUpper u) : findOp t = findOp u := by
  unfold findOp
  rw [h]

theorem mnemonicOf_congr (t u : List Char) (h : toUpper t = toUpper u) :
    mnemonicOf t = mnemonicOf u := by
  unfold mnemonicOf
  rw [findOp_congr t u h]

theorem mnemonicOf_name (op : OP) : mnemonicOf (OP.name op) = some op := by
  cases op <;> decide

theorem toUpper_name (op : OP) : toUpper (OP.name op) = OP.name op := by
  cases op <;> decide

theorem mnemonicOf_variant (op : OP) (t : List Char)
    (h : isCaseVariant t (OP.name op) = true) : mnemonicOf t = some op := by
  have h1 := toUpper_of_variant t (OP.name op) (name_upper op) h
  rw [mnemonicOf_congr t (OP.name op) (by rw [h1, toUpper_name]), mnemonicOf_name]

theorem getLast?_toUpper (t : List Char) :
    (toUpper t).getLast? = t.getLast?.map toUpperChar := by
  unfold toUpper
  induction t with
  | nil => rfl
  | cons c t ih =>
    cases t with
    | nil => rfl
    | cons d t =>
      rw [List.map_cons, List.map_cons, List.getLast?_cons_cons, List.getLast?_cons_cons,
        ← List.map_cons, ih]

theorem name_not_label (op : OP) : (OP.name op).getLast? ≠ some ':' := by
  cases op <;> decide

theorem variant_not_label (op : OP) (t : List Char)
    (h : isCaseVariant t (OP.name op) = true) : t.getLast? ≠ some ':' := by
  intro hl
  have h1 := toUpper_of_variant t (OP.name op) (name_upper op) h
  have h2 := getLast?_toUpper t
  rw [h1, hl] at h2
  exact name_not_label op (by rw [h2]; decide)

/-- C16: the mnemonic table has 33 entries, entry `i` is the name of the
`i`-th opcode variant, and a token in mnemonic position whose text is an
upper/lower-case variant of an opcode's name is not a label and is resolved to
that opcode: the loop body builds the instruction with that opcode and hands
it to the operand switch. -/
theorem mnemonic_resolution :
    OP_STRINGS.length = 33 ∧
      (∀ i, i < 33 → OP_STRINGS[i]? = some (OP.name (OP.ofIndex i))) ∧
      ∀ (op : OP) (t : List Char), isCaseVariant t (OP.name op) = true →
        mnemonicOf t = some op ∧
        ∀ (junk : Nat → Instr) (toks : List Token) (i line : Nat) (out : ParseOutput),
          parseStep junk toks i ⟨t, line⟩ out =
            match parseArgs toks i { junk out.instructions.length with op := op } with
            | .error e => .error e
            | .ok (instr1, i1) => .ok (i1, out.addInstr instr1 line) := by
  refine ⟨by decide, ?_, ?_⟩
  · intro i hi
    interval_cases i <;> rfl
  · intro op t h
    refine ⟨mnemonicOf_variant op t h, ?_⟩
    intro junk toks i line out
    exact parseStep_mnemonic junk toks i ⟨t, line⟩ out op (variant_not_label op t h)
      (mnemonicOf_variant op t h)

theorem mnemonic_resolution_witness :
    mnemonicOf "goto".toList = some OP.GOTO ∧ mnemonicOf "Goto".toList = some OP.GOTO ∧
      mnemonicOf "GOTO".toList = some OP.GOTO ∧ OP_STRINGS[25]? = some (OP.name (OP.ofIndex 25)) :=
  ⟨(mnemonic_resolution.2.2 .GOTO "goto".toList (by decide)).1,
   (mnemonic_resolution.2.2 .GOTO "Goto".toList (by decide)).1,
   (mnemonic_resolution.2.2 .GOTO "GOTO".toList (by decide)).1,
   mnemonic_resolution.2.1 25 (by decide)⟩

/-! ## Operands -/

theorem forall₂_length {α β : Type} {R : α → β → Prop} {l1 : List α} {l2 : List β}
    (h : List.Forall₂ R l1 l2) : l1.length = l2.length := by
  induction h with
  | nil => rfl
  | cons _ _ ih => simp [ih]

/-- The parse of a mnemonic followed by valid operands, from mnemonic position. -/
theorem parseTokens_instr (junk : Nat → Instr) (m : Token) (args post : List Token)
    (op : OP) (out : ParseOutput) (vals : List Int)
    (hlabel : m.text.getLast? ≠ some ':') (hop : mnemonicOf m.text = some op)
    (hlen : args.length = (operandFields op).length)
    (hvals : List.Forall₂ (fun a v => parseHex a.text = some v) args vals) :
    parseTokens junk (m :: (args ++ post)) out =
      parseTokens junk post
        (out.addInstr (assignOperands { junk out.instructions.length with op := op }
          (operandFields op) vals) m.line) := by
  rw [parseTokens_cons, parseStep_mnemonic junk _ 0 m out op hlabel hop,
    parseArgs_operands m args post _ vals hlen hvals]
  simp only [List.drop_left]

/-- C17: when a mnemonic in mnemonic position is followed by as many valid
hexadecimal literals as its opcode has operand fields, `parse` consumes exactly
those tokens, appends exactly one instruction, whose fields are the values
assigned in the order of the opcode's operand fields, together with the line of
the mnemonic, and continues in mnemonic position with the token that follows
the last operand. -/
theorem parse_operands (junk : Nat → Instr) (pre args post : List Token) (m : Token)
    (op : OP) (out : ParseOutput) (vals : List Int)
    (hpre : parseTokens junk pre ParseOutput.empty = .ok out)
    (hlabel : m.text.getLast? ≠ some ':') (hop : mnemonicOf m.text = some op)
    (hlen : args.length = (operandFields op).length)
    (hvals : List.Forall₂ (fun a v => parseHex a.text = some v) args vals) :
    parseTokens junk (pre ++ m :: (args ++ post)) ParseOutput.empty =
        parseTokens junk post
          (out.addInstr (assignOperands { junk out.instructions.length with op := op }
            (operandFields op) vals) m.line) ∧
      parseTokens junk (pre ++ m :: args) ParseOutput.empty =
        .ok (out.addInstr (assignOperands { junk out.instructions.length with op := op }
            (operandFields op) vals) m.line) := by
  constructor
  · rw [parseTokens_append_eq junk pre _ _ out hpre,
      parseTokens_instr junk m args post op out vals hlabel hop hlen hvals]
  · have h := parseTokens_instr junk m args [] op out vals hlabel hop hlen hvals
    rw [List.append_nil] at h
    rw [parseTokens_append_eq junk pre _ _ out hpre, h, parseTokens_nil]

theorem parse_operands_witness :
    parseTokens zeroJunk ([] ++ (⟨"addwf".toList, 3⟩ : Token) ::
        ([⟨"0x1f".toList, 3⟩, ⟨"0x1".toList, 4⟩] ++ [⟨"nop".toList, 4⟩])) ParseOutput.empty
      = .ok ⟨[⟨.ADDWF, 31, 1, 0, 0⟩, ⟨.NOP, 0, 0, 0, 0⟩], [3, 4], [], []⟩ :=
  (parse_operands zeroJunk [] [⟨"0x1f".toList, 3⟩, ⟨"0x1".toList, 4⟩] [⟨"nop".toList, 4⟩]
    ⟨"addwf".toList, 3⟩ .ADDWF ParseOutput.empty [31, 1] rfl (by decide) (by decide)
    (by decide)
    (List.Forall₂.cons (by decide) (List.Forall₂.cons (by decide) List.Forall₂.nil))).1.trans
    (by rfl)

/-- The operand switch stops at the first operand token that is not a literal,
with the line of that token. -/
theorem parseArgs_bad_operand (m bad : Token) (good post : List Token) (instr : Instr)
    (hlen : good.length < (operandFields instr.op).length)
    (hgood : ∀ g ∈ good, (parseHex g.text).isSome = true)
    (hbad : parseHex bad.text = none) :
    parseArgs (m :: (good ++ bad :: post)) 0 instr
      = .error ⟨some bad.line, .expectedNumberGot bad.text⟩ := by
  obtain ⟨op, f, d, k, b⟩ := instr
  cases op <;> simp only [operandFields, List.length_cons, List.length_nil] at hlen <;>
    first
    | omega
    | (match good, hgood, hlen with
       | [], _, _ =>
         simp [parseArgs, expectNum_succ, expectNum_zero, hbad]
       | [g], hg, hl =>
         first
         | (have hf : False := by
              simp only [List.length_cons, List.length_nil] at hl
              omega
            exact hf.elim)
         | (obtain ⟨v, hv⟩ := Option.isSome_iff_exists.mp (hg g (List.mem_cons_self _ _))
            simp [parseArgs, expectNum_succ, expectNum_zero, hbad, hv])
       | _ :: _ :: _, _, hl =>
         have hf : False := by
           simp only [List.length_cons] at hl
           omega
         exact hf.elim)

/-- C11: when a token consumed as an operand (the tokens before the mnemonic
parse, the mnemonic resolves to an opcode, and the operands before this one
are valid literals) fails literal parsing, `parse` fails with the error
tagged with the line of that operand token, whatever tokens follow, and `main`
stops with that error. -/
theorem parse_bad_operand (junk : Nat → Instr) (pre good post : List Token) (m bad : Token)
    (op : OP) (out : ParseOutput)
    (hpre : parseTokens junk pre ParseOutput.empty = .ok out)
    (hlabel : m.text.getLast? ≠ some ':') (hop : mnemonicOf m.text = some op)
    (hlen : good.length < (operandFields op).length)
    (hgood : ∀ g ∈ good, (parseHex g.text).isSome = true)
    (hbad : parseHex bad.text = none) :
    parseTokens junk (pre ++ m :: (good ++ bad :: post)) ParseOutput.empty
        = .error ⟨some bad.line, .expectedNumberGot bad.text⟩ ∧
      ∀ source : List Char,
        tokenize (source ++ [NUL]) = pre ++ m :: (good ++ bad :: post) →
        main junk source = .error ⟨some bad.line, .expectedNumberGot bad.text⟩ := by
  have hmain : parseTokens junk (pre ++ m :: (good ++ bad :: post)) ParseOutput.empty
      = .error ⟨some bad.line, .expectedNumberGot bad.text⟩ := by
    rw [parseTokens_append_eq junk pre _ _ out hpre, parseTokens_cons,
      parseStep_mnemonic junk _ 0 m out op hlabel hop,
      parseArgs_bad_operand m bad good post _ hlen hgood hbad]
  refine ⟨hmain, ?_⟩
  intro source hsrc
  unfold main parse
  rw [hsrc, hmain]

theorem parse_bad_operand_witness :
    main zeroJunk "nop\nBCF 0x05\n  7 ; bit\nnop".toList
      = .error ⟨some 3, .expectedNumberGot "7".toList⟩ :=
  (parse_bad_operand zeroJunk [⟨"nop".toList, 1⟩] [⟨"0x05".toList, 2⟩] [⟨"nop".toList, 4⟩]
    ⟨"BCF".toList, 2⟩ ⟨"7".toList, 3⟩ .BCF ⟨[⟨.NOP, 0, 0, 0, 0⟩], [1], [], []⟩ rfl
    (by decide) (by decide) (by decide) (by decide) (by decide)).2
    "nop\nBCF 0x05\n  7 ; bit\nnop".toList (by decide)

/-! ## Instruction parser: inversion of a successful step -/

theorem expectNum_one_ok (m : Token) (rest : List Token) (v : Int)
    (h : expectNum (m :: rest) 1 = .ok v) :
    ∃ a rest1, rest = a :: rest1 ∧ parseHex a.text = some v := by
  rw [expectNum_succ] at h
  cases rest with
  | nil =>
    rw [expectNum_eof [] 0 (Nat.le_refl _)] at h
    exact Except.noConfusion h
  | cons a rest1 =>
    rw [expectNum_zero] at h
    cases hp : parseHex a.text with
    | none => rw [hp] at h; exact Except.noConfusion h
    | some w =>
      rw [hp] at h
      simp only [Except.ok.injEq] at h
      exact ⟨a, rest1, rfl, hp.trans (by rw [h])⟩

theorem expectNum_two_ok (m a : Token) (rest1 : List Token) (v : Int)
    (h : expectNum (m :: a :: rest1) 2 = .ok v) :
    ∃ c rest2, rest1 = c :: rest2 ∧ parseHex c.text = some v := by
  rw [expectNum_succ] at h
  exact expectNum_one_ok a rest1 v h

/-- A successful operand switch has read exactly the operand tokens of the
opcode, all of them valid literals. -/
theorem parseArgs_ok_operands (m : Token) (rest : List Token) (instr instr1 : Instr)
    (i1 : Nat) (h : parseArgs (m :: rest) 0 instr = .ok (instr1, i1)) :
    ∃ args post vals, rest = args ++ post ∧
      args.length = (operandFields instr.op).length ∧
      List.Forall₂ (fun a v => parseHex a.text = some v) args vals ∧
      i1 = args.length ∧ instr1 = assignOperands instr (operandFields instr.op) vals := by
  obtain ⟨op, f, d, k, b⟩ := instr
  unfold parseArgs at h
  cases op <;> simp only [Nat.zero_add] at h <;>
    first
    | (cases h1 : expectNum (m :: rest) 1 with
       | error e => rw [h1] at h; exact Except.noConfusion h
       | ok v =>
         rw [h1] at h
         obtain ⟨a, rest1, rfl, hv⟩ := expectNum_one_ok m rest v h1
         cases h2 : expectNum (m :: a :: rest1) 2 with
         | error e => rw [h2] at h; exact Except.noConfusion h
         | ok w =>
           rw [h2] at h
           obtain ⟨c, rest2, rfl, hw⟩ := expectNum_two_ok m a rest1 w h2
           simp only [Except.ok.injEq, Prod.mk.injEq] at h
           exact ⟨[a, c], rest2, [v, w], rfl, rfl,
             List.Forall₂.cons hv (List.Forall₂.cons hw List.Forall₂.nil), h.2.symm, h.1.symm⟩)
    | (cases h1 : expectNum (m :: rest) 1 with
       | error e => rw [h1] at h; exact Except.noConfusion h
       | ok v =>
         rw [h1] at h
         obtain ⟨a, rest1, rfl, hv⟩ := expectNum_one_ok m rest v h1
         simp only [Except.ok.injEq, Prod.mk.injEq] at h
         exact ⟨[a], rest1, [v], rfl, rfl, List.Forall₂.cons hv List.Forall₂.nil,
           h.2.symm, h.1.symm⟩)
    | (simp only [Except.ok.injEq, Prod.mk.injEq] at h
       exact ⟨[], rest, [], rfl, rfl, List.Forall₂.nil, h.2.symm, h.1.symm⟩)

/-- What a successful parse of a non-empty token list did with its first
token: it declared a label, or it read a mnemonic and its operands; the rest
is parsed from mnemonic position. -/
theorem parseTokens_cons_ok (junk : Nat → Instr) (tok : Token) (rest : List Token)
    (out0 out : ParseOutput) (h : parseTokens junk (tok :: rest) out0 = .ok out) :
    (tok.text.getLast? = some ':' ∧
        parseTokens junk rest (out0.addLabel tok.text) = .ok out) ∨
      (tok.text.getLast? ≠ some ':' ∧ ∃ op args post vals,
        mnemonicOf tok.text = some op ∧ rest = args ++ post ∧
        args.length = (operandFields op).length ∧
        List.Forall₂ (fun a v => parseHex a.text = some v) args vals ∧
        parseTokens junk post
          (out0.addInstr (assignOperands { junk out0.instructions.length with op := op }
            (operandFields op) vals) tok.line) = .ok out) := by
  rw [parseTokens_cons] at h
  by_cases hl : tok.text.getLast? = some ':'
  · left
    rw [parseStep_label junk _ 0 tok out0 hl] at h
    exact ⟨hl, by simpa using h⟩
  · right
    refine ⟨hl, ?_⟩
    cases hop : mnemonicOf tok.text with
    | none =>
      rw [parseStep_unknown junk _ 0 tok out0 hl hop] at h
      exact Except.noConfusion h
    | some op =>
      rw [parseStep_mnemonic junk _ 0 tok out0 op hl hop] at h
      cases hargs : parseArgs (tok :: rest) 0 { junk out0.instructions.length with op := op } with
      | error e => rw [hargs] at h; exact Except.noConfusion h
      | ok r =>
        obtain ⟨instr1, i1⟩ := r
        rw [hargs] at h
        simp only at h
        obtain ⟨args, post, vals, rfl, hlen, hvals, rfl, rfl⟩ :=
          parseArgs_ok_operands tok rest _ instr1 i1 hargs
        rw [List.drop_left] at h
        exact ⟨op, args, post, vals, rfl, rfl, hlen, hvals, h⟩

/-! ## Instruction parser: invariants of a successful parse -/

/-- A property of the output that label declarations and instructions
preserve holds after every successful parse. -/
theorem parseTokens_invariant (junk : Nat → Instr) (P : ParseOutput → Prop)
    (hl : ∀ o name, P o → P (o.addLabel name))
    (hi : ∀ o instr line, P o → P (o.addInstr instr line)) :
    ∀ (n : Nat) (toks : List Token) (out0 out : ParseOutput), toks.length ≤ n → P out0 →
      parseTokens junk toks out0 = .ok out → P out := by
  intro n
  induction n with
  | zero =>
    intro toks out0 out hn hP h
    have : toks = [] := List.length_eq_zero.mp (Nat.le_zero.mp hn)
    subst this
    rw [parseTokens_nil] at h
    simp only [Except.ok.injEq] at h
    exact h ▸ hP
  | succ n ih =>
    intro toks out0 out hn hP h
    cases toks with
    | nil =>
      rw [parseTokens_nil] at h
      simp only [Except.ok.injEq] at h
      exact h ▸ hP
    | cons tok rest =>
      simp only [List.length_cons] at hn
      rcases parseTokens_cons_ok junk tok rest out0 out h with
        ⟨_, h1⟩ | ⟨_, op, args, post, vals, _, hrest, _, _, h1⟩
      · exact ih rest _ out (by omega) (hl _ _ hP) h1
      · have hlen : post.length ≤ n := by
          rw [hrest, List.length_append] at hn
          omega
        exact ih post _ out hlen (hi _ _ _ hP) h1

theorem consistent_empty : ParseOutput.empty.Consistent := by
  refine ⟨rfl, rfl, List.Pairwise.nil, ?_⟩
  intro t ht
  simp [ParseOutput.empty] at ht

theorem consistent_addLabel (o : ParseOutput) (name : List Char) (h : o.Consistent) :
    (o.addLabel name).Consistent := by
  obtain ⟨h1, h2, h3, h4⟩ := h
  refine ⟨h1, ?_, ?_, ?_⟩
  · simp [ParseOutput.addLabel, h2]
  · simp only [ParseOutput.addLabel]
    rw [List.pairwise_append]
    refine ⟨h3, List.pairwise_singleton _ _, ?_⟩
    intro a ha b hb
    simp only [List.mem_singleton] at hb
    subst hb
    exact h4 a ha
  · intro t ht
    simp only [ParseOutput.addLabel, List.mem_append, List.mem_singleton] at ht ⊢
    rcases ht with ht | rfl
    · exact h4 t ht
    · exact Nat.le_refl _

theorem consistent_addInstr (o : ParseOutput) (instr : Instr) (line : Nat)
    (h : o.Consistent) : (o.addInstr instr line).Consistent := by
  obtain ⟨h1, h2, h3, h4⟩ := h
  refine ⟨?_, h2, h3, ?_⟩
  · simp [ParseOutput.addInstr, h1]
  · intro t ht
    have := h4 t ht
    simp only [ParseOutput.addInstr, List.length_append, List.length_singleton]
    omega

theorem parseTokens_consistent (junk : Nat → Instr) (toks : List Token)
    (out0 out : ParseOutput) (h0 : out0.Consistent)
    (h : parseTokens junk toks out0 = .ok out) : out.Consistent :=
  parseTokens_invariant junk ParseOutput.Consistent consistent_addLabel consistent_addInstr
    toks.length toks out0 out (Nat.le_refl _) h0 h

theorem extends_refl (o : ParseOutput) : o.Extends o :=
  ⟨List.prefix_refl _, List.prefix_refl _, List.prefix_refl _, List.prefix_refl _⟩

theorem parseTokens_extends (junk : Nat → Instr) (toks : List Token)
    (out0 out : ParseOutput) (h : parseTokens junk toks out0 = .ok out) : out0.Extends out := by
  refine parseTokens_invariant junk (fun o => out0.Extends o) ?_ ?_
    toks.length toks out0 out (Nat.le_refl _) (extends_refl out0) h
  · intro o name ⟨h1, h2, h3, h4⟩
    exact ⟨h1, h2, h3.trans (List.prefix_append _ _), h4.trans (List.prefix_append _ _)⟩
  · intro o instr line ⟨h1, h2, h3, h4⟩
    exact ⟨h1.trans (List.prefix_append _ _), h2.trans (List.prefix_append _ _), h3, h4⟩

theorem parseHex_not_label (t : List Char) (v : Int) (h : parseHex t = some v) :
    t.getLast? ≠ some ':' := by
  intro hl
  have hs := parseHex_some_shape t v h
  match t, hs, hl with
  | a :: b :: d :: ds, hs, hl =>
    simp only [isHexLiteral, Bool.and_eq_true, List.all_eq_true] at hs
    have hmem : (':' : Char) ∈ d :: ds := by
      have h1 : (a :: b :: d :: ds).getLast? = (d :: ds).getLast? := by
        rw [List.getLast?_cons_cons, List.getLast?_cons_cons]
      rw [h1] at hl
      exact List.mem_of_getLast?_eq_some hl
    have := hs.2 _ hmem
    revert this
    decide

theorem operands_not_label (args : List Token) (vals : List Int)
    (hvals : List.Forall₂ (fun a v => parseHex a.text = some v) args vals) :
    ∀ a ∈ args, a.text.getLast? ≠ some ':' := by
  induction hvals with
  | nil => intro a ha; simp at ha
  | cons hav _ ih =>
    intro a ha
    rcases List.mem_cons.mp ha with rfl | ha2
    · exact parseHex_not_label _ _ hav
    · exact ih a ha2

/-- In a successful parse a label token stands in mnemonic position: the
tokens before it parse on their own, and the parse continues from their state. -/
theorem parseTokens_split_at_label (junk : Nat → Instr) :
    ∀ (n : Nat) (toks : List Token) (out0 out : ParseOutput) (p : Nat) (lab : Token),
      toks.length ≤ n → parseTokens junk toks out0 = .ok out → toks[p]? = some lab →
      lab.text.getLast? = some ':' →
      ∃ outPre, parseTokens junk (toks.take p) out0 = .ok outPre ∧
        parseTokens junk (toks.drop p) outPre = .ok out := by
  intro n
  induction n with
  | zero =>
    intro toks out0 out p lab hn _ hget _
    have : toks = [] := List.length_eq_zero.mp (Nat.le_zero.mp hn)
    subst this
    simp at hget
  | succ n ih =>
    intro toks out0 out p lab hn h hget hlab
    cases p with
    | zero => exact ⟨out0, by simp [parseTokens_nil], by simpa using h⟩
    | succ p =>
      cases toks with
      | nil => simp at hget
      | cons tok rest =>
        simp only [List.length_cons] at hn
        simp only [List.getElem?_cons_succ] at hget
        rcases parseTokens_cons_ok junk tok rest out0 out h with
          ⟨hl, h1⟩ | ⟨hl, op, args, post, vals, hop, hrest, hlen, hvals, h1⟩
        · obtain ⟨outPre, h2, h3⟩ := ih rest _ out p lab (by omega) h1 hget hlab
          refine ⟨outPre, ?_, by simpa using h3⟩
          rw [List.take_succ_cons, parseTokens_cons, parseStep_label junk _ 0 tok out0 hl]
          simpa using h2
        · subst hrest
          -- the label is not one of the operands
          have hp : args.length ≤ p := by
            by_contra hc
            have hlt : p < args.length := by omega
            rw [List.getElem?_append_left hlt] at hget
            have hmem : lab ∈ args := List.getElem?_mem hget
            exact operands_not_label args vals hvals lab hmem hlab
          have hget2 : post[p - args.length]? = some lab := by
            rw [List.getElem?_append_right hp] at hget
            exact hget
          have hpl : post.length ≤ n := by
            rw [List.length_append] at hn
            omega
          obtain ⟨outPre, h2, h3⟩ := ih post _ out (p - args.length) lab hpl h1 hget2 hlab
          refine ⟨outPre, ?_, ?_⟩
          · have ht : (tok :: (args ++ post)).take (p + 1)
                = tok :: (args ++ post.take (p - args.length)) := by
              rw [List.take_succ_cons, List.take_append_eq_append_take,
                List.take_of_length_le hp]
            rw [ht, parseTokens_instr junk tok args _ op out0 vals hl hop hlen hvals]
            exact h2
          · have hd : (tok :: (args ++ post)).drop (p + 1) = post.drop (p - args.length) := by
              rw [List.drop_succ_cons, List.drop_append_eq_append_drop,
                List.drop_of_length_le hp, List.nil_append]
            rw [hd]
            exact h3

/-! ## Labels -/

theorem parseTokens_label (junk : Nat → Instr) (lab : Token) (rest : List Token)
    (out : ParseOutput) (h : lab.text.getLast? = some ':') :
    parseTokens junk (lab :: rest) out = parseTokens junk rest (out.addLabel lab.text) := by
  rw [parseTokens_cons, parseStep_label junk _ 0 lab out h]
  simp

/-- The instruction and line lists of a successful parse depend on the
starting output only through its instruction and line lists. -/
theorem parseTokens_frame (junk : Nat → Instr) :
    ∀ (n : Nat) (toks : List Token) (o1 o2 r1 : ParseOutput), toks.length ≤ n →
      o1.instructions = o2.instructions → o1.lineNumbers = o2.lineNumbers →
      parseTokens junk toks o1 = .ok r1 →
      ∃ r2, parseTokens junk toks o2 = .ok r2 ∧ r2.instructions = r1.instructions ∧
        r2.lineNumbers = r1.lineNumbers := by
  intro n
  induction n with
  | zero =>
    intro toks o1 o2 r1 hn hi hln h
    have : toks = [] := List.length_eq_zero.mp (Nat.le_zero.mp hn)
    subst this
    rw [parseTokens_nil] at h
    simp only [Except.ok.injEq] at h
    subst h
    exact ⟨o2, parseTokens_nil junk o2, hi.symm, hln.symm⟩
  | succ n ih =>
    intro toks o1 o2 r1 hn hi hln h
    cases toks with
    | nil =>
      rw [parseTokens_nil] at h
      simp only [Except.ok.injEq] at h
      subst h
      exact ⟨o2, parseTokens_nil junk o2, hi.symm, hln.symm⟩
    | cons tok rest =>
      simp only [List.length_cons] at hn
      rcases parseTokens_cons_ok junk tok rest o1 r1 h with
        ⟨hl, h1⟩ | ⟨hl, op, args, post, vals, hop, hrest, hlen, hvals, h1⟩
      · obtain ⟨r2, h2, h3, h4⟩ := ih rest (o1.addLabel tok.text) (o2.addLabel tok.text) r1
          (by omega) hi hln h1
        exact ⟨r2, by rw [parseTokens_label junk tok rest o2 hl]; exact h2, h3, h4⟩
      · subst hrest
        have hpl : post.length ≤ n := by
          rw [List.length_append] at hn
          omega
        obtain ⟨r2, h2, h3, h4⟩ := ih post _
          (o2.addInstr (assignOperands { junk o2.instructions.length with op := op }
            (operandFields op) vals) tok.line) r1 hpl
          (by simp only [ParseOutput.addInstr, hi])
          (by simp only [ParseOutput.addInstr, hln]) h1
        exact ⟨r2, by
          rw [parseTokens_instr junk tok args post op o2 vals hl hop hlen hvals]
          exact h2, h3, h4⟩

/-- C12: in a successful parse, for every label token (a token ending in `:`)
the tokens before it parse on their own, the label is recorded after the
labels they declare, under the token's text without its trailing `:`, and its
target is the number of instructions they produce; every target is at most
the final instruction count and the targets are non-decreasing in declaration
order. -/
theorem label_target_is_instruction_count (junk : Nat → Instr) (toks : List Token)
    (out : ParseOutput) (h : parseTokens junk toks ParseOutput.empty = .ok out) :
    (∀ (p : Nat) (lab : Token), toks[p]? = some lab → lab.text.getLast? = some ':' →
        ∃ outPre, parseTokens junk (toks.take p) ParseOutput.empty = .ok outPre ∧
          out.labels[outPre.labels.length]? = some lab.text.dropLast ∧
          out.labelTargets[outPre.labels.length]? = some outPre.instructions.length) ∧
      out.labels.length = out.labelTargets.length ∧
      (∀ t ∈ out.labelTargets, t ≤ out.instructions.length) ∧
      out.labelTargets.Pairwise (fun a b => a ≤ b) := by
  have hc := parseTokens_consistent junk toks _ out consistent_empty h
  refine ⟨?_, hc.2.1, hc.2.2.2, hc.2.2.1⟩
  intro p lab hget hlab
  obtain ⟨outPre, h1, h2⟩ :=
    parseTokens_split_at_label junk toks.length toks _ out p lab (Nat.le_refl _) h hget hlab
  refine ⟨outPre, h1, ?_, ?_⟩
  · have hd : toks.drop p = lab :: toks.drop (p + 1) := by
      rw [List.drop_eq_getElem?_toList_append, hget]
      rfl
    rw [hd, parseTokens_label junk lab _ outPre hlab] at h2
    obtain ⟨_, _, ⟨t, ht⟩, _⟩ := parseTokens_extends junk _ _ out h2
    rw [← ht]
    simp only [ParseOutput.addLabel]
    rw [List.append_assoc, List.getElem?_append_right (Nat.le_refl _)]
    simp
  · have hd : toks.drop p = lab :: toks.drop (p + 1) := by
      rw [List.drop_eq_getElem?_toList_append, hget]
      rfl
    rw [hd, parseTokens_label junk lab _ outPre hlab] at h2
    obtain ⟨_, _, _, ⟨t, ht⟩⟩ := parseTokens_extends junk _ _ out h2
    have hcp := parseTokens_consistent junk _ _ outPre consistent_empty h1
    rw [← ht, hcp.2.1]
    simp only [ParseOutput.addLabel]
    rw [List.append_assoc, List.getElem?_append_right (Nat.le_refl _)]
    simp

theorem label_target_is_instruction_count_witness :
    (⟨[⟨.NOP, 0, 0, 0, 0⟩, ⟨.NOP, 0, 0, 0, 0⟩], [1, 3], ["a".toList, "b".toList, "".toList],
        [0, 0, 1]⟩ : ParseOutput).labels.length = 3 ∧
      ∃ outPre, parseTokens zeroJunk
          (List.take 3 [⟨"a:".toList, 1⟩, ⟨"b:".toList, 1⟩, ⟨"nop".toList, 1⟩,
            ⟨":".toList, 2⟩, ⟨"nop".toList, 3⟩]) ParseOutput.empty = .ok outPre ∧
        (⟨[⟨.NOP, 0, 0, 0, 0⟩, ⟨.NOP, 0, 0, 0, 0⟩], [1, 3],
            ["a".toList, "b".toList, "".toList], [0, 0, 1]⟩ : ParseOutput).labels[
              outPre.labels.length]? = some (":".toList).dropLast ∧
        (⟨[⟨.NOP, 0, 0, 0, 0⟩, ⟨.NOP, 0, 0, 0, 0⟩], [1, 3],
            ["a".toList, "b".toList, "".toList], [0, 0, 1]⟩ : ParseOutput).labelTargets[
              outPre.labels.length]? = some outPre.instructions.length :=
  ⟨rfl, (label_target_is_instruction_count zeroJunk
    [⟨"a:".toList, 1⟩, ⟨"b:".toList, 1⟩, ⟨"nop".toList, 1⟩, ⟨":".toList, 2⟩,
      ⟨"nop".toList, 3⟩]
    ⟨[⟨.NOP, 0, 0, 0, 0⟩, ⟨.NOP, 0, 0, 0, 0⟩], [1, 3], ["a".toList, "b".toList, "".toList],
      [0, 0, 1]⟩ rfl).1 3 ⟨":".toList, 2⟩ rfl (by decide)⟩

/-- C13: removing from a token sequence that parses successfully a token
that was taken as a label declaration leaves the instruction list and the
line-number list unchanged, hence also everything `write` produces. -/
theorem remove_label_keeps_instructions (junk : Nat → Instr) (toks : List Token)
    (out : ParseOutput) (p : Nat) (lab : Token)
    (h : parseTokens junk toks ParseOutput.empty = .ok out)
    (hget : toks[p]? = some lab) (hlab : lab.text.getLast? = some ':') :
    ∃ out1, parseTokens junk (toks.eraseIdx p) ParseOutput.empty = .ok out1 ∧
      out1.instructions = out.instructions ∧ out1.lineNumbers = out.lineNumbers ∧
      write out1 [] = write out [] := by
  obtain ⟨outPre, h1, h2⟩ :=
    parseTokens_split_at_label junk toks.length toks _ out p lab (Nat.le_refl _) h hget hlab
  have hd : toks.drop p = lab :: toks.drop (p + 1) := by
    rw [List.drop_eq_getElem?_toList_append, hget]
    rfl
  rw [hd, parseTokens_label junk lab _ outPre hlab] at h2
  obtain ⟨r2, h3, h4, h5⟩ := parseTokens_frame junk _ _ (outPre.addLabel lab.text) outPre out
    (Nat.le_refl _) rfl rfl h2
  refine ⟨r2, ?_, h4, h5, ?_⟩
  · rw [List.eraseIdx_eq_take_drop_succ, parseTokens_append_eq junk _ _ _ outPre h1]
    exact h3
  · unfold write
    rw [h4, h5]

theorem remove_label_keeps_instructions_witness :
    ∃ out1, parseTokens zeroJunk
        (List.eraseIdx [⟨"nop".toList, 1⟩, ⟨"loop:".toList, 2⟩, ⟨"goto".toList, 2⟩,
          ⟨"0x1".toList, 2⟩] 1) ParseOutput.empty = .ok out1 ∧
      out1.instructions = [⟨.NOP, 0, 0, 0, 0⟩, ⟨.GOTO, 0, 0, 1, 0⟩] ∧
      out1.lineNumbers = [1, 2] ∧
      write out1 [] = write ⟨[⟨.NOP, 0, 0, 0, 0⟩, ⟨.GOTO, 0, 0, 1, 0⟩], [1, 2],
        ["loop".toList], [1]⟩ [] :=
  remove_label_keeps_instructions zeroJunk
    [⟨"nop".toList, 1⟩, ⟨"loop:".toList, 2⟩, ⟨"goto".toList, 2⟩, ⟨"0x1".toList, 2⟩]
    ⟨[⟨.NOP, 0, 0, 0, 0⟩, ⟨.GOTO, 0, 0, 1, 0⟩], [1, 2], ["loop".toList], [1]⟩ 1
    ⟨"loop:".toList, 2⟩ rfl rfl (by decide)


/-! ## Tokenizer: buffer lemmas -/

theorem charAt_append_length (pre rest : List Char) (c : Char) :
    charAt (pre ++ c :: rest) pre.length = c := by
  unfold charAt
  rw [List.getD_append_right _ _ _ _ (Nat.le_refl _)]
  simp

theorem charAt_append_last (pre0 rest : List Char) (c : Char) :
    charAt ((pre0 ++ [c]) ++ rest) ((pre0 ++ [c]).length - 1) = c := by
  unfold charAt
  rw [List.append_assoc, List.length_append, List.length_singleton, Nat.add_sub_cancel,
    List.getD_append_right _ _ _ _ (Nat.le_refl _)]
  simp

theorem set_append_length (pre rest : List Char) (c a : Char) :
    (pre ++ c :: rest).set pre.length a = pre ++ a :: rest := by
  induction pre with
  | nil => rfl
  | cons x pre ih => simp only [List.cons_append, List.length_cons, List.set_cons_succ, ih]

theorem takeWhile_append_stop {α : Type} (p : α → Bool) (l x : List α) (a : α)
    (ha : p a = false) : (l ++ a :: x).takeWhile p = l.takeWhile p := by
  induction l with
  | nil => simp [List.takeWhile_cons, ha]
  | cons b l ih =>
    simp only [List.cons_append, List.takeWhile_cons]
    split
    · rw [ih]
    · rfl

theorem takeWhile_all {α : Type} (p : α → Bool) (l : List α) (h : ∀ a ∈ l, p a = true) :
    l.takeWhile p = l := by
  induction l with
  | nil => rfl
  | cons b l ih =>
    rw [List.takeWhile_cons, h b (List.mem_cons_self _ _)]
    simp only [if_true]
    rw [ih (fun a ha => h a (List.mem_cons_of_mem _ ha))]

theorem cstrAt_append_nul (pre x : List Char) (q : Nat) (hq : q ≤ pre.length) :
    cstrAt (pre ++ NUL :: x) q = cstrAt pre q := by
  unfold cstrAt
  rw [List.drop_append_of_le_length hq]
  exact takeWhile_append_stop _ _ _ _ (by simp)

theorem cstrAt_open (pre : List Char) (p : Nat) (h : ∀ c ∈ pre.drop p, c ≠ NUL) :
    cstrAt pre p = pre.drop p := by
  unfold cstrAt
  exact takeWhile_all _ _ (fun a ha => by simpa using h a ha)

theorem cstrAt_closed (pre x : List Char) (p : Nat) (hp : p ≤ pre.length)
    (h : ∀ c ∈ pre.drop p, c ≠ NUL) : cstrAt (pre ++ NUL :: x) p = pre.drop p := by
  rw [cstrAt_append_nul pre x p hp, cstrAt_open pre p h]


/-! ## Tokenizer: the loop computes `scanTokens` -/

theorem commentLoop_spec : ∀ (cm pre : List Char) (d : Char) (x : List Char) (fuel : Nat),
    (∀ c ∈ cm, c ≠ NUL ∧ c ≠ '\n') → (d = NUL ∨ d = '\n') → cm.length < fuel →
      commentLoop fuel (pre ++ cm ++ d :: x) pre.length
        = (pre ++ List.replicate cm.length NUL ++ d :: x, pre.length + cm.length) := by
  intro cm
  induction cm with
  | nil =>
    intro pre d x fuel _ hd hfuel
    cases fuel with
    | zero => simp at hfuel
    | succ f =>
      simp only [List.append_nil, List.replicate, List.length_nil, Nat.add_zero]
      rw [commentLoop, charAt_append_length]
      rcases hd with rfl | rfl
      · simp
      · split
        · rfl
        · simp
  | cons c cm ih =>
    intro pre d x fuel hcm hd hfuel
    cases fuel with
    | zero => simp at hfuel
    | succ f =>
      have hc := hcm c (List.mem_cons_self _ _)
      have e1 : pre ++ c :: cm ++ d :: x = pre ++ c :: (cm ++ d :: x) := by simp
      rw [e1, commentLoop, charAt_append_length, if_neg hc.1, if_neg hc.2, set_append_length]
      have e2 : pre ++ NUL :: (cm ++ d :: x) = (pre ++ [NUL]) ++ cm ++ d :: x := by simp
      have e3 : pre.length + 1 = (pre ++ [NUL]).length := by simp
      rw [e2, e3, ih (pre ++ [NUL]) d x f (fun a ha => hcm a (List.mem_cons_of_mem _ ha)) hd
        (by simpa using hfuel)]
      refine Prod.ext ?_ ?_
      · simp [List.replicate_succ]
      · simp only [List.length_append, List.length_cons, List.length_nil]
        omega

theorem scanTokens_nil (ic : Bool) (cur : Option Token) (line : Nat) :
    scanTokens ic cur line [] = cur.toList := by
  cases ic <;> rfl

theorem scanTokens_cons (cur : Option Token) (line : Nat) (c : Char) (rest : List Char) :
    scanTokens false cur line (c :: rest) =
      if c = ';' then cur.toList ++ scanTokens true none line rest
      else if isSpace c then
        cur.toList ++ scanTokens false none (if c = '\n' then line + 1 else line) rest
      else
        scanTokens false
          (some ⟨(cur.map Token.text).getD [] ++ [c], (cur.map Token.line).getD line⟩)
          line rest := by
  cases cur <;> rfl

theorem scanTokens_comment_cons (cur : Option Token) (line : Nat) (c : Char)
    (rest : List Char) :
    scanTokens true cur line (c :: rest) =
      if c = '\n' then scanTokens false none (line + 1) rest
      else scanTokens true none line rest := rfl

theorem scanTokens_comment (line : Nat) : ∀ (cm x : List Char),
    (∀ c ∈ cm, c ≠ '\n') →
      scanTokens true none line (cm ++ x) = scanTokens true none line x := by
  intro cm
  induction cm with
  | nil => intro x _; rfl
  | cons c cm ih =>
    intro x h
    rw [List.cons_append, scanTokens, if_neg (h c (List.mem_cons_self _ _)),
      ih x (fun a ha => h a (List.mem_cons_of_mem _ ha))]

theorem scanTokens_comment_flush (cur : Option Token) (line : Nat) (l : List Char)
    (h : l ≠ []) : scanTokens true cur line l = scanTokens true none line l := by
  cases l with
  | nil => exact absurd rfl h
  | cons c rest => rw [scanTokens, scanTokens]

theorem zipWith_append_eq {α β γ : Type} (f : α → β → γ) (a1 a2 : List α) (b1 b2 : List β)
    (h : a1.length = b1.length) :
    List.zipWith f (a1 ++ a2) (b1 ++ b2) = List.zipWith f a1 b1 ++ List.zipWith f a2 b2 := by
  induction a1 generalizing b1 with
  | nil =>
    cases b1 with
    | nil => rfl
    | cons b b1 => simp at h
  | cons a a1 ih =>
    cases b1 with
    | nil => simp at h
    | cons b b1 =>
      simp only [List.length_cons, Nat.add_right_cancel_iff] at h
      simp only [List.cons_append, List.zipWith_cons_cons, ih b1 h]

/-- Reading the recorded tokens once a NUL follows the processed part: the
completed ones as before, then the token in progress, now complete. -/
theorem result_flush (pre x : List Char) (toksD linesD : List Nat)
    (cur : Option (Nat × Nat)) (done : List Token)
    (hlen : toksD.length = linesD.length) (hcur : CurOk pre cur)
    (hdone : ∀ y, List.zipWith (fun p l => (⟨cstrAt (pre ++ y) p, l⟩ : Token)) toksD linesD
      = done) :
    List.zipWith (fun p l => (⟨cstrAt (pre ++ NUL :: x) p, l⟩ : Token))
        (toksD ++ curOffsets cur) (linesD ++ curLines cur)
      = done ++ (curToken pre cur).toList := by
  rw [zipWith_append_eq _ _ _ _ _ hlen, hdone]
  congr 1
  cases cur with
  | none => rfl
  | some pl =>
    obtain ⟨hp, hno⟩ := hcur
    simp only [curOffsets, curLines, curToken, Option.map_some', Option.toList_some,
      List.zipWith_cons_cons, List.zipWith_nil_left]
    rw [cstrAt_closed pre x pl.1 (Nat.le_of_lt hp) hno]


theorem wasBlank_of_none (pre rest : List Char) (h : CurOk pre none) :
    (if pre.length = 0 then true
      else decide (charAt (pre ++ rest) (pre.length - 1) = NUL)) = true := by
  rcases h with rfl | h
  · rfl
  · obtain ⟨pre0, rfl⟩ := List.getLast?_eq_some_iff.mp h
    rw [charAt_append_last]
    simp

theorem wasBlank_of_some (pre rest : List Char) (pl : Nat × Nat) (h : CurOk pre (some pl)) :
    (if pre.length = 0 then true
      else decide (charAt (pre ++ rest) (pre.length - 1) = NUL)) = false := by
  obtain ⟨hp, hno⟩ := h
  rcases List.eq_nil_or_concat pre with rfl | ⟨pre0, c, rfl⟩
  · simp at hp
  · rw [List.concat_eq_append] at hp hno ⊢
    have hc : c ≠ NUL := by
      apply hno
      rw [List.drop_append_of_le_length (by simpa using Nat.lt_succ_iff.mp (by simpa using hp))]
      simp
    rw [charAt_append_last]
    simp [hc]

theorem curOk_append_nul (pre y : List Char) : CurOk (pre ++ y ++ [NUL]) none := by
  right
  simp

theorem curToken_append (pre : List Char) (c : Char) (pl : Nat × Nat)
    (h : CurOk pre (some pl)) :
    curToken (pre ++ [c]) (some pl)
      = some ⟨((curToken pre (some pl)).map Token.text).getD [] ++ [c], pl.2⟩ := by
  simp only [curToken, Option.map_some', Option.getD_some]
  rw [List.drop_append_of_le_length (Nat.le_of_lt h.1)]


theorem not_newline_of_not_space (c : Char) (h : isSpace c = false) : c ≠ '\n' := by
  intro hc
  subst hc
  revert h
  decide

theorem tokenTail_space (pre rest : List Char) (c : Char) (line : Nat) (toks lines : List Nat)
    (wb : Bool) (hsp : isSpace c = true) :
    tokenTail ⟨pre ++ c :: rest, pre.length, line, toks, lines⟩ wb
      = ⟨(pre ++ [NUL]) ++ rest, (pre ++ [NUL]).length,
          if c = '\n' then line + 1 else line, toks, lines⟩ := by
  unfold tokenTail
  simp only [charAt_append_length, hsp, if_true, set_append_length]
  simp

theorem tokenTail_start (pre rest : List Char) (c : Char) (line : Nat) (toks lines : List Nat)
    (hsp : isSpace c = false) :
    tokenTail ⟨pre ++ c :: rest, pre.length, line, toks, lines⟩ true
      = ⟨(pre ++ [c]) ++ rest, (pre ++ [c]).length, line, toks ++ [pre.length],
          lines ++ [line]⟩ := by
  unfold tokenTail
  simp only [charAt_append_length, hsp, if_neg (not_newline_of_not_space c hsp)]
  simp

theorem tokenTail_continue (pre rest : List Char) (c : Char) (line : Nat)
    (toks lines : List Nat) (hsp : isSpace c = false) :
    tokenTail ⟨pre ++ c :: rest, pre.length, line, toks, lines⟩ false
      = ⟨(pre ++ [c]) ++ rest, (pre ++ [c]).length, line, toks, lines⟩ := by
  unfold tokenTail
  simp only [charAt_append_length, hsp, if_neg (not_newline_of_not_space c hsp)]
  simp

theorem dropWhile_head_false {α : Type} (p : α → Bool) : ∀ (l : List α) (a : α) (l1 : List α),
    l.dropWhile p = a :: l1 → p a = false := by
  intro l
  induction l with
  | nil => intro a l1 h; simp at h
  | cons b l ih =>
    intro a l1 h
    rw [List.dropWhile_cons] at h
    split at h
    · exact ih a l1 h
    · rename_i hb
      simp only [List.cons.injEq] at h
      rw [← h.1]
      simpa using hb

theorem takeWhile_mem_true {α : Type} (p : α → Bool) (l : List α) :
    ∀ a ∈ l.takeWhile p, p a = true := by
  intro a ha
  exact (List.mem_takeWhile_imp ha)


/-- The loop of the tokenizer, started at the end of the processed part `pre`
with `suf` (free of NUL) still to read, produces the completed tokens followed
by what `scanTokens` makes of `suf`. -/
theorem tokenLoop_scan : ∀ (fuel : Nat) (suf pre tail : List Char) (line : Nat)
    (toksD linesD : List Nat) (cur : Option (Nat × Nat)) (done : List Token),
    (∀ c ∈ suf, c ≠ NUL) → suf.length < fuel → toksD.length = linesD.length → CurOk pre cur →
    (∀ y, List.zipWith (fun p l => (⟨cstrAt (pre ++ y) p, l⟩ : Token)) toksD linesD = done) →
    (tokenLoop fuel ⟨pre ++ suf ++ NUL :: tail, pre.length, line, toksD ++ curOffsets cur,
        linesD ++ curLines cur⟩).result
      = done ++ scanTokens false (curToken pre cur) line suf := by
  intro fuel
  induction fuel with
  | zero => intro suf _ _ _ _ _ _ _ _ h; simp at h
  | succ f ih =>
    intro suf pre tail line toksD linesD cur done hsuf hfuel hlen hcur hdone
    cases suf with
    | nil =>
      have hch : charAt (pre ++ [] ++ NUL :: tail) pre.length = NUL := by
        rw [List.append_nil, charAt_append_length]
      rw [tokenLoop]
      simp only [hch, if_true]
      unfold TokState.result
      simp only [List.append_nil]
      rw [result_flush pre tail toksD linesD cur done hlen hcur hdone]
      cases curToken pre cur <;> rfl
    | cons c rest =>
      have hc : c ≠ NUL := hsuf c (List.mem_cons_self _ _)
      have hrest : ∀ a ∈ rest, a ≠ NUL := fun a ha => hsuf a (List.mem_cons_of_mem _ ha)
      have hcont : pre ++ c :: rest ++ NUL :: tail = pre ++ c :: (rest ++ NUL :: tail) := by
        simp
      have hfl : rest.length < f := by simpa using hfuel
      rw [hcont, tokenLoop]
      simp only [charAt_append_length, if_neg hc]
      by_cases hsemi : c = ';'
      · -- a comment
        subst hsemi
        simp only [if_true]
        have hsplit := List.takeWhile_append_dropWhile (fun a => decide (a ≠ '\n')) rest
        have htw : ∀ a ∈ ';' :: rest.takeWhile (fun a => decide (a ≠ '\n')),
            a ≠ NUL ∧ a ≠ '\n' := by
          intro a ha
          rcases List.mem_cons.mp ha with rfl | ha
          · exact ⟨hc, by decide⟩
          · exact ⟨hrest a ((List.takeWhile_sublist _).subset ha),
              by simpa using takeWhile_mem_true _ _ a ha⟩
        have hflush := fun x => result_flush pre x toksD linesD cur done hlen hcur hdone
        have hrhs : scanTokens false (curToken pre cur) line (';' :: rest)
            = (curToken pre cur).toList ++ scanTokens true none line
                (rest.dropWhile (fun a => decide (a ≠ '\n'))) := by
          rw [scanTokens_cons, if_pos rfl]
          congr 1
          conv_lhs => rw [← hsplit]
          exact scanTokens_comment line _ _
            (fun a ha => by simpa using takeWhile_mem_true _ _ a ha)
        rw [hrhs]
        cases hdw : rest.dropWhile (fun a => decide (a ≠ '\n')) with
        | nil =>
          rw [hdw, List.append_nil] at hsplit
          have hbuf : pre ++ ';' :: (rest ++ NUL :: tail)
              = pre ++ (';' :: rest.takeWhile (fun a => decide (a ≠ '\n'))) ++ NUL :: tail := by
            rw [hsplit]; simp
          rw [hbuf, commentLoop_spec _ pre NUL tail _ htw (Or.inl rfl)
            (by rw [hsplit]; simp; omega)]
          simp only
          have hat : charAt (pre ++ List.replicate
              (';' :: rest.takeWhile (fun a => decide (a ≠ '\n'))).length NUL ++ NUL :: tail)
              (pre.length + (';' :: rest.takeWhile (fun a => decide (a ≠ '\n'))).length)
              = NUL := by
            have := charAt_append_length (pre ++ List.replicate
              (';' :: rest.takeWhile (fun a => decide (a ≠ '\n'))).length NUL) tail NUL
            simpa using this
          rw [if_pos hat]
          unfold TokState.result
          simp only [List.length_cons, List.replicate_succ, List.append_assoc, List.cons_append]
          rw [hflush]
          simp [scanTokens_nil]
        | cons d rest2 =>
          have hd : d = '\n' := by
            have := dropWhile_head_false _ rest d rest2 hdw
            simpa using this
          subst hd
          rw [hdw] at hsplit
          have hbuf : pre ++ ';' :: (rest ++ NUL :: tail)
              = pre ++ (';' :: rest.takeWhile (fun a => decide (a ≠ '\n'))) ++
                  '\n' :: (rest2 ++ NUL :: tail) := by
            conv_lhs => rw [← hsplit]
            simp
          have hrl : rest2.length < rest.length := by
            rw [← hsplit]; simp; omega
          rw [hbuf, commentLoop_spec _ pre '\n' (rest2 ++ NUL :: tail) _ htw (Or.inr rfl)
            (by simp; omega)]
          simp only
          have hat : charAt (pre ++ List.replicate
              (';' :: rest.takeWhile (fun a => decide (a ≠ '\n'))).length NUL ++
                '\n' :: (rest2 ++ NUL :: tail))
              (pre.length + (';' :: rest.takeWhile (fun a => decide (a ≠ '\n'))).length)
              = '\n' := by
            have := charAt_append_length (pre ++ List.replicate
              (';' :: rest.takeWhile (fun a => decide (a ≠ '\n'))).length NUL)
              (rest2 ++ NUL :: tail) '\n'
            simpa using this
          rw [if_neg (by rw [hat]; decide)]
          have hlen2 : pre.length + (';' :: rest.takeWhile (fun a => decide (a ≠ '\n'))).length
              = (pre ++ List.replicate
                (';' :: rest.takeWhile (fun a => decide (a ≠ '\n'))).length NUL).length := by
            simp
          rw [hlen2, tokenTail_space _ _ '\n' _ _ _ true (by decide), if_pos rfl]
          have hnone : toksD ++ curOffsets cur = (toksD ++ curOffsets cur) ++ curOffsets none := by
            simp [curOffsets]
          have hnone2 : linesD ++ curLines cur = (linesD ++ curLines cur) ++ curLines none := by
            simp [curLines]
          have hassoc : ∀ pre1 : List Char, pre1 ++ (rest2 ++ NUL :: tail)
              = pre1 ++ rest2 ++ NUL :: tail := by
            intro pre1; simp
          rw [hnone, hnone2, hassoc,
            ih rest2 _ tail (line + 1) (toksD ++ curOffsets cur) (linesD ++ curLines cur) none
              (done ++ (curToken pre cur).toList)
              (fun a ha => hrest a (by rw [← hsplit]; simp [ha])) (by omega)
              (by cases cur <;> simp [curOffsets, curLines, hlen])
              (by right; simp) ?_]
          · simp [curToken, scanTokens_comment_cons, List.append_assoc]
          · intro y
            simp only [List.length_cons, List.replicate_succ, List.append_assoc,
              List.cons_append]
            exact hflush _
      · simp only [if_neg hsemi]
        by_cases hsp : isSpace c = true
        · -- whitespace
          rw [tokenTail_space _ _ c _ _ _ _ hsp]
          have hnone : toksD ++ curOffsets cur = (toksD ++ curOffsets cur) ++ curOffsets none := by
            simp [curOffsets]
          have hnone2 : linesD ++ curLines cur = (linesD ++ curLines cur) ++ curLines none := by
            simp [curLines]
          have hassoc : pre ++ [NUL] ++ (rest ++ NUL :: tail)
              = pre ++ [NUL] ++ rest ++ NUL :: tail := by simp
          rw [hnone, hnone2, hassoc,
            ih rest (pre ++ [NUL]) tail _ (toksD ++ curOffsets cur) (linesD ++ curLines cur) none
              (done ++ (curToken pre cur).toList) hrest hfl
              (by cases cur <;> simp [curOffsets, curLines, hlen])
              (by right; simp) ?_]
          · rw [scanTokens_cons, if_neg hsemi, if_pos hsp]
            simp [curToken, List.append_assoc]
          · intro y
            simp only [List.append_assoc, List.singleton_append]
            exact result_flush pre y toksD linesD cur done hlen hcur hdone
        · -- a character of a token
          have hsp2 : isSpace c = false := by simpa using hsp
          have hassoc : pre ++ [c] ++ (rest ++ NUL :: tail)
              = pre ++ [c] ++ rest ++ NUL :: tail := by simp
          have hdone2 : ∀ y, List.zipWith
              (fun p l => (⟨cstrAt (pre ++ [c] ++ y) p, l⟩ : Token)) toksD linesD = done := by
            intro y
            rw [List.append_assoc]
            exact hdone _
          cases cur with
          | none =>
            rw [wasBlank_of_none pre _ hcur, tokenTail_start _ _ c _ _ _ hsp2]
            have e1 : toksD ++ curOffsets none ++ [pre.length]
                = toksD ++ curOffsets (some (pre.length, line)) := by simp [curOffsets]
            have e2 : linesD ++ curLines none ++ [line]
                = linesD ++ curLines (some (pre.length, line)) := by simp [curLines]
            rw [e1, e2, hassoc,
              ih rest (pre ++ [c]) tail line toksD linesD (some (pre.length, line)) done hrest
                hfl hlen ⟨by simp, by simp [hc]⟩ hdone2]
            rw [scanTokens_cons, if_neg hsemi, if_neg hsp]
            simp [curToken]
          | some pl =>
            rw [wasBlank_of_some pre _ pl hcur, tokenTail_continue _ _ c _ _ _ hsp2]
            obtain ⟨hp, hno⟩ := hcur
            have hdrop : (pre ++ [c]).drop pl.1 = pre.drop pl.1 ++ [c] :=
              List.drop_append_of_le_length (Nat.le_of_lt hp)
            rw [hassoc,
              ih rest (pre ++ [c]) tail line toksD linesD (some pl) done hrest hfl hlen
                ⟨by simp; omega, by
                  intro a ha
                  rw [hdrop, List.mem_append, List.mem_singleton] at ha
                  rcases ha with ha | rfl
                  · exact hno a ha
                  · exact hc⟩ hdone2]
            rw [scanTokens_cons, if_neg hsemi, if_neg hsp]
            simp [curToken, hdrop]


theorem beforeNUL_no_nul (source : List Char) : ∀ c ∈ beforeNUL source, c ≠ NUL := by
  intro c hc
  simpa using takeWhile_mem_true _ _ c hc

theorem beforeNUL_of_no_nul (source : List Char) (h : NUL ∉ source) :
    beforeNUL source = source := by
  unfold beforeNUL
  apply takeWhile_all
  intro a ha
  simp only [ne_eq, decide_not, Bool.not_eq_true', decide_eq_false_iff_not]
  intro hn
  exact h (hn ▸ ha)

theorem buffer_split (source : List Char) :
    ∃ tail, source ++ [NUL] = beforeNUL source ++ NUL :: tail := by
  have hsplit := List.takeWhile_append_dropWhile (fun c => decide (c ≠ NUL)) source
  cases hdw : source.dropWhile (fun c => decide (c ≠ NUL)) with
  | nil =>
    rw [hdw, List.append_nil] at hsplit
    exact ⟨[], by unfold beforeNUL; rw [hsplit]⟩
  | cons d rest =>
    have hd : d = NUL := by
      have := dropWhile_head_false _ source d rest hdw
      simpa using this
    subst hd
    refine ⟨rest ++ [NUL], ?_⟩
    unfold beforeNUL
    conv_lhs => rw [← hsplit, hdw]
    simp

/-- The tokenizer computes `scanTokens` on the characters before the first NUL. -/
theorem tokenize_eq_scan (source : List Char) :
    tokenize (source ++ [NUL]) = scanTokens false none 1 (beforeNUL source) := by
  obtain ⟨tail, hbuf⟩ := buffer_split source
  have h := tokenLoop_scan (source ++ [NUL]).length (beforeNUL source) [] tail 1 [] [] none []
    (beforeNUL_no_nul source)
    (by
      rw [hbuf, List.length_append, List.length_cons]
      omega)
    rfl (Or.inl rfl) (fun _ => rfl)
  simp only [List.nil_append, List.length_nil, curOffsets, curLines, Option.map_none',
    Option.toList_none, curToken] at h
  rw [← hbuf] at h
  exact h

/-! ## Tokenizer: properties of `scanTokens` -/

theorem scanTokens_flush (cur : Option Token) (line : Nat) (l : List Char)
    (h : l = [] ∨ ∃ c rest, l = c :: rest ∧ (c = ';' ∨ isSpace c = true)) :
    scanTokens false cur line l = cur.toList ++ scanTokens false none line l := by
  rcases h with rfl | ⟨c, rest, rfl, hc⟩
  · simp [scanTokens_nil]
  · rw [scanTokens_cons, scanTokens_cons]
    rcases hc with rfl | hc
    · simp
    · by_cases hs : c = ';'
      · simp [hs]
      · simp [hs, hc]

theorem stripComments_true_head (s : List Char) :
    stripComments true s = [] ∨
      ∃ c rest, stripComments true s = c :: rest ∧ (c = ';' ∨ isSpace c = true) := by
  induction s with
  | nil => left; rfl
  | cons c s ih =>
    rw [stripComments]
    split
    · rename_i hc
      right
      exact ⟨c, _, rfl, Or.inr (by rw [hc]; decide)⟩
    · exact ih

/-- Removing the comment regions does not change what `scanTokens` produces. -/
theorem scanTokens_stripComments : ∀ (s : List Char) (ic : Bool) (cur : Option Token)
    (line : Nat), (ic = true → cur = none) →
      scanTokens false cur line (stripComments ic s) = scanTokens ic cur line s := by
  intro s
  induction s with
  | nil =>
    intro ic cur line _
    cases ic <;> simp [stripComments, scanTokens_nil]
  | cons c s ih =>
    intro ic cur line hcur
    cases ic with
    | true =>
      have hn := hcur rfl
      subst hn
      rw [stripComments, scanTokens_comment_cons]
      by_cases hc : c = '\n'
      · subst hc
        rw [if_pos rfl, if_pos rfl, scanTokens_cons]
        simp only [show ('\n' : Char) ≠ ';' by decide, if_false,
          show isSpace '\n' = true by decide, if_true, Option.toList_none, List.nil_append]
        exact ih false none (line + 1) (fun h => by simp at h)
      · rw [if_neg hc, if_neg hc]
        exact ih true none line (fun _ => rfl)
    | false =>
      rw [stripComments, scanTokens_cons]
      by_cases hc : c = ';'
      · rw [if_pos hc, if_pos hc, scanTokens_flush cur line _ (stripComments_true_head s),
          ih true none line (fun _ => rfl)]
      · rw [if_neg hc, if_neg hc, scanTokens_cons, if_neg hc]
        by_cases hs : isSpace c = true
        · rw [if_pos hs, if_pos hs, ih false none _ (fun h => by simp at h)]
        · rw [if_neg hs, if_neg hs, ih false _ line (fun h => by simp at h)]

theorem stripComments_no_nul : ∀ (s : List Char) (ic : Bool), NUL ∉ s →
    NUL ∉ stripComments ic s := by
  intro s
  induction s with
  | nil => intro ic _; cases ic <;> simp [stripComments]
  | cons c s ih =>
    intro ic h
    have hc : NUL ≠ c := fun e => h (e ▸ List.mem_cons_self _ _)
    have hs : NUL ∉ s := fun e => h (List.mem_cons_of_mem _ e)
    cases ic with
    | true =>
      rw [stripComments]
      split
      · intro hm
        rcases List.mem_cons.mp hm with e | e
        · exact hc e
        · exact ih false hs e
      · exact ih true hs
    | false =>
      rw [stripComments]
      split
      · exact ih true hs
      · intro hm
        rcases List.mem_cons.mp hm with e | e
        · exact hc e
        · exact ih false hs e

/-- The characters of every token `scanTokens` produces are neither `;` nor
whitespace. -/
theorem scanTokens_chars : ∀ (s : List Char) (ic : Bool) (cur : Option Token) (line : Nat),
    (∀ t, cur = some t → ∀ c ∈ t.text, c ≠ ';' ∧ isSpace c = false) →
      ∀ tok ∈ scanTokens ic cur line s, ∀ c ∈ tok.text, c ≠ ';' ∧ isSpace c = false := by
  intro s
  induction s with
  | nil =>
    intro ic cur line hcur tok htok
    rw [scanTokens_nil] at htok
    cases cur with
    | none => simp at htok
    | some t =>
      simp only [Option.toList_some, List.mem_singleton] at htok
      subst htok
      exact hcur _ rfl
  | cons c s ih =>
    intro ic cur line hcur tok htok
    have hflush : ∀ tok ∈ cur.toList, ∀ c ∈ tok.text, c ≠ ';' ∧ isSpace c = false := by
      intro tok htok
      cases cur with
      | none => simp at htok
      | some t =>
        simp only [Option.toList_some, List.mem_singleton] at htok
        subst htok
        exact hcur _ rfl
    have hnone : ∀ t, (none : Option Token) = some t →
        ∀ c ∈ t.text, c ≠ ';' ∧ isSpace c = false := fun t h => Option.noConfusion h
    cases ic with
    | true =>
      rw [scanTokens_comment_cons] at htok
      split at htok
      · exact ih false none _ hnone tok htok
      · exact ih true none _ hnone tok htok
    | false =>
      rw [scanTokens_cons] at htok
      split at htok
      · rcases List.mem_append.mp htok with h | h
        · exact hflush tok h
        · exact ih true none _ hnone tok h
      · rename_i hsemi
        split at htok
        · rcases List.mem_append.mp htok with h | h
          · exact hflush tok h
          · exact ih false none _ hnone tok h
        · rename_i hsp
          refine ih false _ line ?_ tok htok
          intro t ht
          simp only [Option.some.injEq] at ht
          subst ht
          intro a ha
          simp only [List.mem_append, List.mem_singleton] at ha
          rcases ha with ha | rfl
          · cases cur with
            | none => simp at ha
            | some t0 => exact hcur t0 rfl a (by simpa using ha)
          · exact ⟨hsemi, by simpa using hsp⟩


/-- C14: the tokens (texts and line numbers) of a source are those of the
source with every comment region removed, where the source is read up to its
first NUL, if it has one; in particular, for a source without NUL, they are the
tokens of the text with the comment regions removed; and no token contains a
`;`. -/
theorem tokenize_ignores_comments (source : List Char) :
    tokenize (source ++ [NUL]) = tokenize (stripComments false (beforeNUL source) ++ [NUL]) ∧
      (NUL ∉ source →
        tokenize (source ++ [NUL]) = tokenize (stripComments false source ++ [NUL])) ∧
      ∀ tok ∈ tokenize (source ++ [NUL]), ';' ∉ tok.text := by
  have h1 : tokenize (source ++ [NUL])
      = tokenize (stripComments false (beforeNUL source) ++ [NUL]) := by
    have hn : NUL ∉ beforeNUL source := fun h => beforeNUL_no_nul source NUL h rfl
    rw [tokenize_eq_scan, tokenize_eq_scan,
      beforeNUL_of_no_nul _ (stripComments_no_nul _ false hn),
      scanTokens_stripComments _ false none 1 (fun h => by simp at h)]
  refine ⟨h1, ?_, ?_⟩
  · intro hn
    rw [beforeNUL_of_no_nul source hn] at h1
    exact h1
  · intro tok htok hmem
    rw [tokenize_eq_scan] at htok
    exact (scanTokens_chars _ false none 1 (fun t h => Option.noConfusion h) tok htok ';'
      hmem).1 rfl

theorem tokenize_ignores_comments_witness :
    tokenize ("; head\nMOVLW;k\n  0x1 ; tail".toList ++ [NUL])
        = tokenize (stripComments false "; head\nMOVLW;k\n  0x1 ; tail".toList ++ [NUL]) ∧
      stripComments false "; head\nMOVLW;k\n  0x1 ; tail".toList = "\nMOVLW\n  0x1 ".toList ∧
      tokenize ("; head\nMOVLW;k\n  0x1 ; tail".toList ++ [NUL])
        = [⟨"MOVLW".toList, 2⟩, ⟨"0x1".toList, 3⟩] :=
  ⟨(tokenize_ignores_comments "; head\nMOVLW;k\n  0x1 ; tail".toList).2.1 (by decide),
   by decide, by decide⟩

/-! ## Tokenizer: maximal runs -/

theorem scanTokens_runs : ∀ (s : List Char) (cur : Option Token) (line : Nat),
    (∀ c ∈ s, c ≠ ';') →
      scanTokens false cur line s =
        match cur with
        | none => runsFrom true line s
        | some t =>
          ⟨t.text ++ s.takeWhile (fun d => !isSpace d), t.line⟩ :: runsFrom false line s := by
  intro s
  induction s with
  | nil =>
    intro cur line _
    cases cur <;> simp [scanTokens_nil, runsFrom]
  | cons c s ih =>
    intro cur line hs
    have hc : c ≠ ';' := hs c (List.mem_cons_self _ _)
    have hs2 : ∀ a ∈ s, a ≠ ';' := fun a ha => hs a (List.mem_cons_of_mem _ ha)
    rw [scanTokens_cons, if_neg hc]
    by_cases hsp : isSpace c = true
    · rw [if_pos hsp, ih none _ hs2]
      cases cur with
      | none => simp [runsFrom, hsp]
      | some t => simp [runsFrom, hsp, List.takeWhile_cons]
    · have hsp2 : isSpace c = false := by simpa using hsp
      have hnl : c ≠ '\n' := not_newline_of_not_space c hsp2
      rw [if_neg hsp, ih _ line hs2]
      cases cur with
      | none => simp [runsFrom, hsp2, hnl, List.takeWhile_cons]
      | some t => simp [runsFrom, hsp2, hnl, List.takeWhile_cons]

theorem endsBlank_concat (pre : List Char) (c : Char) : endsBlank (pre ++ [c]) = isSpace c := by
  simp [endsBlank]

theorem isRunStart_at (pre rest : List Char) (c : Char) :
    isRunStart (pre ++ c :: rest) pre.length = (!isSpace c && endsBlank pre) := by
  unfold isRunStart
  have h1 : (pre ++ c :: rest)[pre.length]? = some c := by
    rw [List.getElem?_append_right (Nat.le_refl _)]
    simp
  rw [h1]
  simp only
  congr 1
  rcases List.eq_nil_or_concat pre with rfl | ⟨pre0, d, rfl⟩
  · rfl
  · rw [List.concat_eq_append, endsBlank_concat]
    have h2 : (pre0 ++ [d] ++ c :: rest)[(pre0 ++ [d]).length - 1]? = some d := by
      rw [List.append_assoc, List.length_append, List.length_singleton, Nat.add_sub_cancel,
        List.getElem?_append_right (Nat.le_refl _)]
      simp
    rw [h2]
    simp

/-- The position-wise description of the runs agrees with `runsFrom`. -/
theorem runs_filterMap : ∀ (s pre : List Char),
    (List.range s.length).filterMap (fun p =>
        if isRunStart (pre ++ s) (pre.length + p) then
          some (⟨((pre ++ s).drop (pre.length + p)).takeWhile (fun c => !isSpace c),
            1 + ((pre ++ s).take (pre.length + p)).count '\n'⟩ : Token)
        else none)
      = runsFrom (endsBlank pre) (1 + pre.count '\n') s := by
  intro s
  induction s with
  | nil => intro pre; rfl
  | cons c s ih =>
    intro pre
    rw [List.length_cons, List.range_succ_eq_map, List.filterMap_cons, List.filterMap_map]
    have hih := ih (pre ++ [c])
    have e1 : ∀ p, pre.length + (p + 1) = (pre ++ [c]).length + p := by
      intro p; simp; omega
    have e2 : pre ++ c :: s = (pre ++ [c]) ++ s := by simp
    have htail : List.filterMap ((fun p =>
          if isRunStart (pre ++ c :: s) (pre.length + p) then
            some (⟨((pre ++ c :: s).drop (pre.length + p)).takeWhile (fun c => !isSpace c),
              1 + ((pre ++ c :: s).take (pre.length + p)).count '\n'⟩ : Token)
          else none) ∘ Nat.succ) (List.range s.length)
        = runsFrom (isSpace c) (if c = '\n' then 1 + pre.count '\n' + 1 else 1 + pre.count '\n')
            s := by
      have : ((fun p =>
          if isRunStart (pre ++ c :: s) (pre.length + p) then
            some (⟨((pre ++ c :: s).drop (pre.length + p)).takeWhile (fun c => !isSpace c),
              1 + ((pre ++ c :: s).take (pre.length + p)).count '\n'⟩ : Token)
          else none) ∘ Nat.succ)
          = (fun p =>
          if isRunStart ((pre ++ [c]) ++ s) ((pre ++ [c]).length + p) then
            some (⟨(((pre ++ [c]) ++ s).drop ((pre ++ [c]).length + p)).takeWhile
                (fun c => !isSpace c),
              1 + (((pre ++ [c]) ++ s).take ((pre ++ [c]).length + p)).count '\n'⟩ : Token)
          else none) := by
        funext p
        simp only [Function.comp, Nat.succ_eq_add_one, e1, e2]
      rw [this, hih, endsBlank_concat]
      congr 1
      by_cases hc : c = '\n'
      · subst hc
        have h1 : List.count '\n' ['\n'] = 1 := by decide
        rw [if_pos rfl, List.count_append, h1]
        omega
      · have h1 : List.count '\n' [c] = 0 := by
          rw [List.count_singleton, if_neg (fun e => hc (by simpa using e))]
        rw [if_neg hc, List.count_append, h1]
        rfl
    rw [htail]
    simp only [Nat.add_zero]
    rw [isRunStart_at, runsFrom]
    by_cases hst : (!isSpace c && endsBlank pre) = true
    · simp only [hst, if_true]
      simp
    · simp only [hst]
      simp

theorem runTokens_eq_runsFrom (s : List Char) : runTokens s = runsFrom true 1 s := by
  have h := runs_filterMap s []
  simpa [runTokens, endsBlank] using h

theorem runsFrom_blank : ∀ (s : List Char) (pb : Bool) (line : Nat),
    (∀ c ∈ s, isSpace c = true) → runsFrom pb line s = [] := by
  intro s
  induction s with
  | nil => intro pb line _; rfl
  | cons c s ih =>
    intro pb line h
    rw [runsFrom, ih _ _ (fun a ha => h a (List.mem_cons_of_mem _ ha))]
    simp [h c (List.mem_cons_self _ _)]

/-- C15: for a comment-free source text (without NUL), the tokens are the
maximal runs of non-whitespace characters of the text, in source order, each
with line number 1 plus the number of newline characters before its first
character; a blank source yields no tokens. -/
theorem tokenize_maximal_runs (source : List Char) (hnul : NUL ∉ source)
    (hsemi : ';' ∉ source) :
    tokenize (source ++ [NUL]) = runTokens source ∧
      ((∀ c ∈ source, isSpace c = true) → tokenize (source ++ [NUL]) = []) := by
  have h1 : tokenize (source ++ [NUL]) = runTokens source := by
    rw [tokenize_eq_scan, beforeNUL_of_no_nul source hnul,
      scanTokens_runs source none 1 (fun c hc e => hsemi (e ▸ hc)), runTokens_eq_runsFrom]
  refine ⟨h1, ?_⟩
  intro hb
  rw [h1, runTokens_eq_runsFrom, runsFrom_blank source true 1 hb]

theorem tokenize_maximal_runs_witness :
    tokenize (" movlw\t0x3a\n\n goto 0x001".toList ++ [NUL])
        = runTokens " movlw\t0x3a\n\n goto 0x001".toList ∧
      runTokens " movlw\t0x3a\n\n goto 0x001".toList
        = [⟨"movlw".toList, 1⟩, ⟨"0x3a".toList, 1⟩, ⟨"goto".toList, 3⟩, ⟨"0x001".toList, 3⟩] ∧
      tokenize (" \t\n ".toList ++ [NUL]) = [] :=
  ⟨(tokenize_maximal_runs " movlw\t0x3a\n\n goto 0x001".toList (by decide) (by decide)).1,
   by decide,
   (tokenize_maximal_runs " \t\n ".toList (by decide) (by decide)).2 (by decide)⟩


/-! ## Parser: order of the instructions -/

theorem assignOperands_op : ∀ (flds : List Field) (vals : List Int) (instr : Instr),
    (assignOperands instr flds vals).op = instr.op := by
  intro flds
  induction flds with
  | nil => intro vals instr; rfl
  | cons fld flds ih =>
    intro vals instr
    cases vals with
    | nil => rfl
    | cons v vals =>
      rw [assignOperands, ih, setField_op]

/-- The instructions a successful parse appends come from mnemonic tokens at
increasing positions: `items` lists, for each appended instruction, the
position of its mnemonic token, that token and the instruction. -/
theorem parseTokens_items (junk : Nat → Instr) :
    ∀ (n : Nat) (toks : List Token) (out0 out : ParseOutput), toks.length ≤ n →
      parseTokens junk toks out0 = .ok out →
      ∃ items : List (Nat × Token × Instr),
        out.instructions = out0.instructions ++ items.map (fun it => it.2.2) ∧
        out.lineNumbers = out0.lineNumbers ++ items.map (fun it => it.2.1.line) ∧
        (items.map (fun it => it.1)).Pairwise (fun p q => p < q) ∧
        ∀ it ∈ items, toks[it.1]? = some it.2.1 ∧ mnemonicOf it.2.1.text = some it.2.2.op := by
  intro n
  induction n with
  | zero =>
    intro toks out0 out hn h
    have : toks = [] := List.length_eq_zero.mp (Nat.le_zero.mp hn)
    subst this
    rw [parseTokens_nil] at h
    simp only [Except.ok.injEq] at h
    subst h
    exact ⟨[], by simp, by simp, List.Pairwise.nil, fun it hit => absurd hit (List.not_mem_nil _)⟩
  | succ n ih =>
    intro toks out0 out hn h
    cases toks with
    | nil =>
      rw [parseTokens_nil] at h
      simp only [Except.ok.injEq] at h
      subst h
      exact ⟨[], by simp, by simp, List.Pairwise.nil,
        fun it hit => absurd hit (List.not_mem_nil _)⟩
    | cons tok rest =>
      simp only [List.length_cons] at hn
      rcases parseTokens_cons_ok junk tok rest out0 out h with
        ⟨_, h1⟩ | ⟨_, op, args, post, vals, hop, hrest, _, _, h1⟩
      · obtain ⟨items, hi, hl, hp, hm⟩ := ih rest _ out (by omega) h1
        refine ⟨items.map (fun it => (it.1 + 1, it.2)), ?_, ?_, ?_, ?_⟩
        · rw [hi, List.map_map]
          rfl
        · rw [hl, List.map_map]
          rfl
        · rw [List.map_map]
          have : ((fun it : Nat × Token × Instr => it.1) ∘
              fun it : Nat × Token × Instr => (it.1 + 1, it.2))
              = (fun p => p + 1) ∘ (fun it : Nat × Token × Instr => it.1) := rfl
          rw [this, ← List.map_map, List.pairwise_map]
          exact hp.imp (fun h => Nat.succ_lt_succ h)
        · intro it hit
          obtain ⟨it0, hit0, rfl⟩ := List.mem_map.mp hit
          have := hm it0 hit0
          simp only [List.getElem?_cons_succ]
          exact this
      · have hlen : post.length ≤ n := by
          rw [hrest, List.length_append] at hn
          omega
        obtain ⟨items, hi, hl, hp, hm⟩ := ih post _ out hlen h1
        refine ⟨(0, tok, assignOperands { junk out0.instructions.length with op := op }
            (operandFields op) vals) ::
          items.map (fun it => (it.1 + (1 + args.length), it.2)), ?_, ?_, ?_, ?_⟩
        · rw [hi, List.map_cons, List.map_map]
          simp only [ParseOutput.addInstr, List.append_assoc, List.singleton_append]
          rfl
        · rw [hl, List.map_cons, List.map_map]
          simp only [ParseOutput.addInstr, List.append_assoc, List.singleton_append]
          rfl
        · rw [List.map_cons, List.map_map, List.pairwise_cons]
          constructor
          · intro q hq
            obtain ⟨it0, _, rfl⟩ := List.mem_map.mp hq
            simp only [Function.comp]
            omega
          · have : ((fun it : Nat × Token × Instr => it.1) ∘
                fun it : Nat × Token × Instr => (it.1 + (1 + args.length), it.2))
                = (fun p => p + (1 + args.length)) ∘
                  (fun it : Nat × Token × Instr => it.1) := rfl
            rw [this, ← List.map_map, List.pairwise_map]
            exact hp.imp (fun h => Nat.add_lt_add_right h _)
        · intro it hit
          rcases List.mem_cons.mp hit with rfl | hit
          · refine ⟨by simp, ?_⟩
            simp only
            rw [assignOperands_op]
            exact hop
          · obtain ⟨it0, hit0, rfl⟩ := List.mem_map.mp hit
            have := hm it0 hit0
            refine ⟨?_, this.2⟩
            simp only
            rw [hrest, ← this.1]
            have e : it0.1 + (1 + args.length) = (it0.1 + args.length) + 1 := by omega
            rw [e, List.getElem?_cons_succ,
              List.getElem?_append_right (by omega)]
            congr 1
            omega

/-- The line numbers of the tokens `scanTokens` produces do not decrease, and
none is below `lo`, a bound for the current line and the token in progress. -/
theorem scanTokens_sorted : ∀ (s : List Char) (ic : Bool) (cur : Option Token)
    (line lo : Nat), lo ≤ line → (∀ t, cur = some t → lo ≤ t.line ∧ t.line ≤ line) →
      (scanTokens ic cur line s).Pairwise (fun a b => a.line ≤ b.line) ∧
        ∀ tok ∈ scanTokens ic cur line s, lo ≤ tok.line := by
  intro s
  induction s with
  | nil =>
    intro ic cur line lo _ hcur
    rw [scanTokens_nil]
    cases cur with
    | none => exact ⟨List.Pairwise.nil, fun tok h => absurd h (List.not_mem_nil _)⟩
    | some t =>
      refine ⟨List.pairwise_singleton _ _, ?_⟩
      intro tok h
      simp only [Option.toList_some, List.mem_singleton] at h
      subst h
      exact (hcur _ rfl).1
  | cons c s ih =>
    intro ic cur line lo hlo hcur
    have hnone : ∀ (l0 l1 : Nat) (t : Token), (none : Option Token) = some t →
        l0 ≤ t.line ∧ t.line ≤ l1 := fun _ _ t h => Option.noConfusion h
    have hflush : ∀ (ic1 : Bool) (line1 : Nat), line ≤ line1 →
        (cur.toList ++ scanTokens ic1 none line1 s).Pairwise (fun a b => a.line ≤ b.line) ∧
          ∀ tok ∈ cur.toList ++ scanTokens ic1 none line1 s, lo ≤ tok.line := by
      intro ic1 line1 hl1
      have h1 := ih ic1 none line1 line hl1 (hnone _ _)
      cases cur with
      | none =>
        simp only [Option.toList_none, List.nil_append]
        exact ⟨h1.1, fun tok h => Nat.le_trans hlo (h1.2 tok h)⟩
      | some t =>
        simp only [Option.toList_some, List.singleton_append, List.pairwise_cons,
          List.mem_cons]
        refine ⟨⟨fun tok h => Nat.le_trans (hcur _ rfl).2 (h1.2 tok h), h1.1⟩, ?_⟩
        intro tok h
        rcases h with rfl | h
        · exact (hcur _ rfl).1
        · exact Nat.le_trans hlo (h1.2 tok h)
    cases ic with
    | true =>
      rw [scanTokens_comment_cons]
      split
      · exact ih false none _ lo (by omega) (hnone _ _)
      · exact ih true none _ lo hlo (hnone _ _)
    | false =>
      rw [scanTokens_cons]
      split
      · exact hflush true line (Nat.le_refl _)
      · split
        · apply hflush false
          split <;> omega
        · apply ih false _ line lo hlo
          intro t ht
          simp only [Option.some.injEq] at ht
          subst ht
          cases cur with
          | none => exact ⟨hlo, Nat.le_refl _⟩
          | some t0 => exact hcur t0 rfl

theorem tokenize_lines_sorted (source : List Char) :
    (tokenize (source ++ [NUL])).Pairwise (fun a b => a.line ≤ b.line) := by
  rw [tokenize_eq_scan]
  exact (scanTokens_sorted _ false none 1 1 (Nat.le_refl _)
    (fun t h => Option.noConfusion h)).1

theorem pairwise_getElem? {α : Type} {R : α → α → Prop} : ∀ (l : List α), l.Pairwise R →
    ∀ (p q : Nat) (a b : α), l[p]? = some a → l[q]? = some b → p < q → R a b := by
  intro l
  induction l with
  | nil => intro _ p q a b ha; simp at ha
  | cons x l ih =>
    intro h p q a b ha hb hpq
    rw [List.pairwise_cons] at h
    cases q with
    | zero => omega
    | succ q =>
      simp only [List.getElem?_cons_succ] at hb
      cases p with
      | zero =>
        simp only [List.getElem?_cons_zero, Option.some.injEq] at ha
        subst ha
        exact h.1 b (List.getElem?_mem hb)
      | succ p =>
        simp only [List.getElem?_cons_succ] at ha
        exact ih h.2 p q a b ha hb (by omega)

/-- C19: after a successful parse of a source, the instruction list and the
line-number list have the same length, and so have the label-name list and the
label-target list; the instructions come from mnemonic tokens at increasing
positions of the token sequence (`pos` lists them): the token at `pos[i]`
resolves to the opcode of instruction `i` and its line is entry `i` of the
line-number list; and the line-number list is non-decreasing. -/
theorem parse_lists_parallel (junk : Nat → Instr) (source : List Char) (out : ParseOutput)
    (h : parse junk (source ++ [NUL]) ParseOutput.empty = .ok out) :
    out.instructions.length = out.lineNumbers.length ∧
      out.labels.length = out.labelTargets.length ∧
      (∃ pos : List Nat, pos.length = out.instructions.length ∧
        pos.Pairwise (fun p q => p < q) ∧
        ∀ i, i < out.instructions.length → ∃ p tok instr,
          pos[i]? = some p ∧ (tokenize (source ++ [NUL]))[p]? = some tok ∧
          out.instructions[i]? = some instr ∧ mnemonicOf tok.text = some instr.op ∧
          out.lineNumbers[i]? = some tok.line) ∧
      out.lineNumbers.Pairwise (fun a b => a ≤ b) := by
  unfold parse at h
  have hc := parseTokens_consistent junk _ _ _ consistent_empty h
  obtain ⟨items, hi, hl, hp, hm⟩ := parseTokens_items junk _ _ _ _ (Nat.le_refl _) h
  simp only [ParseOutput.empty, List.nil_append] at hi hl
  refine ⟨hc.1, hc.2.1, ⟨items.map (fun it => it.1), ?_, hp, ?_⟩, ?_⟩
  · rw [hi, List.length_map, List.length_map]
  · intro i hlt
    rw [hi, List.length_map] at hlt
    have hget : items[i]? = some items[i] := List.getElem?_eq_getElem hlt
    have hmem := hm items[i] (List.getElem_mem hlt)
    refine ⟨items[i].1, items[i].2.1, items[i].2.2, ?_, hmem.1, ?_, hmem.2, ?_⟩
    · rw [List.getElem?_map, hget]
      rfl
    · rw [hi, List.getElem?_map, hget]
      rfl
    · rw [hl, List.getElem?_map, hget]
      rfl
  · rw [hl, List.pairwise_map]
    rw [List.pairwise_map] at hp
    refine hp.imp_of_mem ?_
    intro a b ha hb hab
    exact pairwise_getElem? _ (tokenize_lines_sorted source) a.1 b.1 a.2.1 b.2.1
      (hm a ha).1 (hm b hb).1 hab

theorem parse_lists_parallel_witness :
    ∃ out, parse zeroJunk ("top:\n movlw 0x3a ; load\n\n goto\n 0x001".toList ++ [NUL])
        ParseOutput.empty = .ok out ∧
      out.lineNumbers = [2, 4] ∧
      out.instructions.length = out.lineNumbers.length ∧
      out.lineNumbers.Pairwise (fun a b => a ≤ b) :=
  ⟨⟨[⟨.MOVLW, 0, 0, 58, 0⟩, ⟨.GOTO, 0, 0, 1, 0⟩], [2, 4], ["top".toList], [0]⟩, by rfl, rfl,
    (parse_lists_parallel zeroJunk "top:\n movlw 0x3a ; load\n\n goto\n 0x001".toList
      ⟨[⟨.MOVLW, 0, 0, 58, 0⟩, ⟨.GOTO, 0, 0, 1, 0⟩], [2, 4], ["top".toList], [0]⟩ (by rfl)).1,
    (parse_lists_parallel zeroJunk "top:\n movlw 0x3a ; load\n\n goto\n 0x001".toList
      ⟨[⟨.MOVLW, 0, 0, 58, 0⟩, ⟨.GOTO, 0, 0, 1, 0⟩], [2, 4], ["top".toList], [0]⟩
      (by rfl)).2.2.2⟩


/-! ## Encoder: dependence on the input -/

theorem encode_agree (ln : Option Nat) (a b : Instr) (st : WState) (h : agreeOn a b) :
    encode ln a st = encode ln b st := by
  obtain ⟨opa, fa, da, ka, ba⟩ := a
  obtain ⟨opb, fb, db, kb, bb⟩ := b
  obtain ⟨hop, hf⟩ := h
  simp only at hop
  subst hop
  cases opa <;> simp [opShape, Instr.field] at hf <;> simp [encode, hf]

theorem writeLoop_agree (lns : List Nat) : ∀ (l1 l2 : List Instr),
    List.Forall₂ agreeOn l1 l2 → ∀ (i : Nat) (st : WState),
      writeLoop lns i l1 st = writeLoop lns i l2 st := by
  intro l1 l2 h
  induction h with
  | nil => intro i st; rfl
  | cons hab _ ih =>
    intro i st
    rw [writeLoop, writeLoop, encode_agree _ _ _ _ hab]
    exact ih (i + 1) _

/-- C18: the state `write` produces (bytes, cursor and warnings) depends only
on the opcode of each instruction, the fields in that opcode's shape, and the
line numbers: two parse outputs whose instructions agree on those, and that have
the same line numbers, give the same result from the same initial vector,
whatever their other fields and their label tables hold.  (That the same input
gives the same output twice is the fact that `write` is a function of its
arguments.) -/
theorem write_depends_on_meaningful_fields (inp1 inp2 : ParseOutput) (out : List Nat)
    (hinstr : List.Forall₂ agreeOn inp1.instructions inp2.instructions)
    (hlines : inp1.lineNumbers = inp2.lineNumbers) :
    write inp1 out = write inp2 out := by
  unfold write
  rw [hlines]
  exact writeLoop_agree _ _ _ hinstr 0 _

theorem write_depends_on_meaningful_fields_witness :
    twoInstrs ≠ twoInstrsVariant ∧ write twoInstrs [] = write twoInstrsVariant [] :=
  ⟨by decide,
   write_depends_on_meaningful_fields twoInstrs twoInstrsVariant []
    (List.Forall₂.cons ⟨rfl, by decide⟩ (List.Forall₂.cons ⟨rfl, by decide⟩ List.Forall₂.nil))
    rfl⟩



/-! ## Encoder: the word determines the instruction -/

theorem fieldsFit_iff (a : Instr) :
    fieldsFit a = true ↔ ∀ fw ∈ (opShape a.op).2, 0 ≤ a.field fw.1 ∧ a.field fw.1 < 2 ^ fw.2 := by
  unfold fieldsFit
  rw [List.all_eq_true]
  constructor
  · intro h fw hfw
    exact (fitsWidth_iff _ _).mp (h fw hfw)
  · intro h fw hfw
    exact (fitsWidth_iff _ _).mpr (h fw hfw)

theorem wordOf_lt (instr : Instr) : wordOf instr < 2 ^ 12 := by
  obtain ⟨op, f, d, k, b⟩ := instr
  cases op <;> simp [wordOf, opShape, opPattern, Instr.field] <;> omega

theorem wordOf_range (a : Instr) :
    opPattern a.op * 2 ^ (12 - (opShape a.op).1) ≤ wordOf a ∧
      wordOf a < (opPattern a.op + 1) * 2 ^ (12 - (opShape a.op).1) := by
  obtain ⟨op, f, d, k, b⟩ := a
  cases op <;> simp [wordOf, opShape, opPattern, Instr.field] <;> omega

theorem wordOf_tris (a : Instr) (ha : fieldsFit a = true) (hop : a.op = .TRIS) :
    wordOf a = a.f.toNat := by
  obtain ⟨op, f, d, k, b⟩ := a
  simp only at hop
  subst hop
  have h := (fieldsFit_iff _).mp ha (.f, 3) (by simp [opShape])
  simp only [Instr.field] at h
  simp only [wordOf, opShape, opPattern, Instr.field, List.foldl_cons, List.foldl_nil]
  omega

theorem word_in_range (a : Instr) (ha : fieldsFit a = true)
    (ht : ¬ (a.op = .TRIS ∧ a.f < 5)) :
    wordLow a.op ≤ wordOf a ∧ wordOf a < wordHigh a.op := by
  refine ⟨?_, (wordOf_range a).2⟩
  unfold wordLow
  by_cases hop : a.op = .TRIS
  · rw [if_pos hop, wordOf_tris a ha hop]
    have : ¬ a.f < 5 := fun h => ht ⟨hop, h⟩
    omega
  · rw [if_neg hop]
    exact (wordOf_range a).1

theorem word_ranges_disjoint : ∀ (x y : OP),
    wordLow x < wordHigh y → wordLow y < wordHigh x → x = y := by
  intro x y
  cases x <;> cases y <;> decide

theorem fields_of_wordOf (a b : Instr) (ha : fieldsFit a = true) (hb : fieldsFit b = true)
    (hop : a.op = b.op) (hw : wordOf a = wordOf b) :
    ∀ fw ∈ (opShape a.op).2, a.field fw.1 = b.field fw.1 := by
  have ha1 := (fieldsFit_iff a).mp ha
  have hb1 := (fieldsFit_iff b).mp hb
  obtain ⟨opa, fa, da, ka, ba⟩ := a
  obtain ⟨opb, fb, db, kb, bb⟩ := b
  simp only at hop
  subst hop
  cases opa <;>
    simp only [opShape, Instr.field, List.mem_cons, List.mem_singleton, List.not_mem_nil,
      forall_eq_or_imp, forall_eq, or_false, false_or, IsEmpty.forall_iff, implies_true,
      List.forall_mem_ne, and_true] at ha1 hb1 ⊢ <;>
    simp only [wordOf, opShape, opPattern, Instr.field, List.foldl_cons, List.foldl_nil] at hw <;>
    omega

theorem wordOf_eq_of_bits (a b : Instr)
    (h : ∀ j, j < 12 → (wordOf a).testBit (11 - j) = (wordOf b).testBit (11 - j)) :
    wordOf a = wordOf b := by
  apply Nat.eq_of_testBit_eq
  intro i
  by_cases hi : i < 12
  · have := h (11 - i) (by omega)
    have e : 11 - (11 - i) = i := by omega
    rw [e] at this
    exact this
  · have h12 : (2 : Nat) ^ 12 ≤ 2 ^ i := Nat.pow_le_pow_right (by decide) (by omega)
    rw [Nat.testBit_lt_two_pow (Nat.lt_of_lt_of_le (wordOf_lt a) h12),
      Nat.testBit_lt_two_pow (Nat.lt_of_lt_of_le (wordOf_lt b) h12)]

theorem word_bits_of_write (inp : ParseOutput) (i : Nat) (instr : Instr) (j : Nat)
    (hi : inp.instructions[i]? = some instr) (hj : j < 12) :
    streamBit (write inp []).out (12 * i + j) = (wordOf instr).testBit (11 - j) := by
  rw [write_streamBit, programBits_getD _ i instr j hi hj, instrBits_getD_eq_testBit instr j hj]

/-- C20: when `write` emits the same 12-bit word for two instructions whose
operand fields fit their widths, neither of them a TRIS with `f < 5`, the two
have the same opcode and equal values in every field of that opcode's shape. -/
theorem word_determines_instruction (inp1 inp2 : ParseOutput) (i1 i2 : Nat) (a b : Instr)
    (h1 : inp1.instructions[i1]? = some a) (h2 : inp2.instructions[i2]? = some b)
    (ha : fieldsFit a = true) (hb : fieldsFit b = true)
    (hta : ¬ (a.op = .TRIS ∧ a.f < 5)) (htb : ¬ (b.op = .TRIS ∧ b.f < 5))
    (hword : ∀ j, j < 12 →
      streamBit (write inp1 []).out (12 * i1 + j) = streamBit (write inp2 []).out (12 * i2 + j)) :
    a.op = b.op ∧ ∀ fw ∈ (opShape a.op).2, a.field fw.1 = b.field fw.1 := by
  have hw : wordOf a = wordOf b := by
    apply wordOf_eq_of_bits
    intro j hj
    rw [← word_bits_of_write inp1 i1 a j h1 hj, ← word_bits_of_write inp2 i2 b j h2 hj]
    exact hword j hj
  have ra := word_in_range a ha hta
  have rb := word_in_range b hb htb
  have hop : a.op = b.op :=
    word_ranges_disjoint a.op b.op (by rw [← hw] at rb; omega) (by rw [← hw] at rb; omega)
  exact ⟨hop, fields_of_wordOf a b ha hb hop hw⟩

theorem word_determines_instruction_witness :
    (⟨.GOTO, 0, 0, 1, 0⟩ : Instr).op = (⟨.GOTO, 9, 9, 1, 9⟩ : Instr).op ∧
      ∀ fw ∈ (opShape (⟨.GOTO, 0, 0, 1, 0⟩ : Instr).op).2,
        (⟨.GOTO, 0, 0, 1, 0⟩ : Instr).field fw.1 = (⟨.GOTO, 9, 9, 1, 9⟩ : Instr).field fw.1 :=
  word_determines_instruction twoInstrs ⟨[⟨.GOTO, 9, 9, 1, 9⟩], [5], [], []⟩ 1 0
    ⟨.GOTO, 0, 0, 1, 0⟩ ⟨.GOTO, 9, 9, 1, 9⟩ rfl rfl (by decide) (by decide) (by decide)
    (by decide)
    (by
      have e1 : (write twoInstrs []).out = [0xC3, 0xAA, 0x01, 0x00] := by decide
      have e2 : (write ⟨[⟨.GOTO, 9, 9, 1, 9⟩], [5], [], []⟩ []).out = [0xA0, 0x10] := by decide
      rw [e1, e2]
      decide)

end PicAsm
